import Mathlib

/-!
Verification of the `circuitcount` counting core against its specification.

This file is a shallow embedding of the Rust sources into Lean:
pure functions become Lean functions, fallible functions return
`Except String`, and the incremental-solver trait becomes a structure of
operations over an explicit state type.  Machine integers are modelled as
`Nat` with explicit `% 2 ^ w` at the places where wrap-around matters
(`u64` trial-seed addition, `u128` scaling), and the `u32` saturating
variable allocator keeps its saturation bound.  The `f64` sparsity
parameter is modelled as `Option ℚ` (`none` plays the role of NaN, whose
comparisons are all false, exactly as in IEEE semantics); random draws of
`f64` values in `[0,1)` are modelled as rational draws supplied by an
abstract PRNG oracle, since the ChaCha8 generator is an external crate.
-/

namespace CircuitCount

/-- AIG literal: node id plus inverter bit (src/circuit/aig.rs, `AigLit`). -/
structure AigLit where
  id : Nat
  neg : Bool
deriving DecidableEq, Repr

/-- Two-input AND gate (src/circuit/aig.rs, `AndGate`). -/
structure AndGate where
  id : Nat
  a : AigLit
  b : AigLit
deriving DecidableEq, Repr

/-- And-inverter graph (src/circuit/aig.rs, `Aig`). -/
structure Aig where
  max_id : Nat
  inputs : List Nat
  outputs : List AigLit
  ands : List AndGate
deriving DecidableEq, Repr

/-- `lit_value` (src/circuit/aig.rs): value of a literal given node values;
id 0 is the FALSE constant.  The `values` array is modelled as a total
function on node ids. -/
def lit_value (lit : AigLit) (values : Nat → Bool) : Bool :=
  let base := if lit.id = 0 then false else values lit.id
  if lit.neg then !base else base

/-- Pointwise update of a node-value function (models `values[id] = v`). -/
def setValue (values : Nat → Bool) (id : Nat) (v : Bool) : Nat → Bool :=
  fun i => if i = id then v else values i

/-- Set the input nodes to the given bits (the first loop of `Aig::eval`). -/
def setInputs : List (Nat × Bool) → (Nat → Bool) → (Nat → Bool)
  | [], values => values
  | (id, bit) :: rest, values => setInputs rest (setValue values id bit)

/-- Process the gate list in order (the second loop of `Aig::eval`). -/
def evalAnds : List AndGate → (Nat → Bool) → (Nat → Bool)
  | [], values => values
  | g :: rest, values =>
      evalAnds rest (setValue values g.id (lit_value g.a values && lit_value g.b values))

/-- The node-value function computed by `Aig::eval` on the given input bits. -/
def Aig.values (aig : Aig) (input_bits : List Bool) : Nat → Bool :=
  evalAnds aig.ands (setInputs (aig.inputs.zip input_bits) (fun _ => false))

/-- `Aig::eval` (src/circuit/aig.rs, lines 50-73).  The Rust code asserts
that the number of input bits matches the number of inputs; the assertion
failure is modelled as `none`. -/
def Aig.eval (aig : Aig) (input_bits : List Bool) : Option (List Bool) :=
  if input_bits.length = aig.inputs.length then
    some (aig.outputs.map (fun lit => lit_value lit (aig.values input_bits)))
  else
    none

/-- Update of an optional map (models `IndexMap::insert` / `HashMap::insert`). -/
def updFn {α β : Type} [DecidableEq α] (f : α → Option β) (x : α) (y : β) :
    α → Option β :=
  fun z => if z = x then some y else f z

/-- Set one bit of a boolean bitmap (models `bitmap[id] = true`). -/
def setMask (m : Nat → Bool) (id : Nat) : Nat → Bool :=
  fun i => if i = id then true else m i

/-- `CoiInfo` (src/circuit/aig.rs): cone-of-influence summary.  The
`in_cone` bitmap of length `max_id + 1` is modelled as a function together
with its length `len`. -/
structure CoiInfo where
  input_ids : List Nat
  ands_in_cone : Nat
  in_cone : Nat → Bool
  len : Nat

/-- `CoiInfo::contains_node`. -/
def CoiInfo.contains_node (c : CoiInfo) (id : Nat) : Bool :=
  decide (id < c.len) && c.in_cone id

/-- First validation loop of `Aig::coi`: build the input bitmap, failing on
an input id above `max_id`. -/
def buildInputMask (maxId : Nat) : List Nat → (Nat → Bool) → Except String (Nat → Bool)
  | [], mask => .ok mask
  | id :: rest, mask =>
      if maxId < id then .error "input id exceeds max_id"
      else buildInputMask maxId rest (setMask mask id)

/-- Second validation loop of `Aig::coi`: record each gate's fanin pair,
failing on invalid gate ids or fanins. -/
def buildGateFanins (maxId : Nat) :
    List AndGate → (Nat → Option (AigLit × AigLit)) →
    Except String (Nat → Option (AigLit × AigLit))
  | [], fanins => .ok fanins
  | g :: rest, fanins =>
      if g.id = 0 ∨ maxId < g.id then .error "and gate id is invalid for max_id"
      else if maxId < g.a.id ∨ maxId < g.b.id then
        .error "and gate has fanin outside max_id"
      else buildGateFanins maxId rest (updFn fanins g.id (g.a, g.b))

/-- Number of ids in `[0, maxId]` not yet marked; used as the termination
measure of the DFS. -/
def unmarkedCount (maxId : Nat) (m : Nat → Bool) : Nat :=
  ((Finset.range (maxId + 1)).filter (fun i => m i = false)).card

/-- The DFS loop of `Aig::coi` (src/circuit/aig.rs, lines 107-128): pop an
id; skip the constant 0 and already-marked nodes; mark and push the fanins
of gates; accept inputs; otherwise fail.  The loop always terminates
because each iteration either shortens the stack or marks a fresh node;
it is written on explicit fuel (so that concrete runs reduce in the
kernel), with `2 * unmarked + stack length` iterations always sufficient
(`coiLoop_no_fuel_error`), and the wrapper passes enough. -/
def coiLoop (maxId : Nat) (input_mask : Nat → Bool)
    (gate_fanins : Nat → Option (AigLit × AigLit)) :
    Nat → List Nat → (Nat → Bool) → Except String (Nat → Bool)
  | _, [], in_cone => .ok in_cone
  | 0, _ :: _, _ => .error "unreachable: coi fuel exhausted"
  | fuel + 1, id :: stack, in_cone =>
      if id = 0 then coiLoop maxId input_mask gate_fanins fuel stack in_cone
      else if maxId < id then .error "output references id beyond max_id"
      else if in_cone id then coiLoop maxId input_mask gate_fanins fuel stack in_cone
      else
        let in_cone' := setMask in_cone id
        match gate_fanins id with
        | some (a, b) =>
            if maxId < a.id ∨ maxId < b.id then .error "and gate has invalid fanin id"
            else coiLoop maxId input_mask gate_fanins fuel (b.id :: a.id :: stack) in_cone'
        | none =>
            if input_mask id then coiLoop maxId input_mask gate_fanins fuel stack in_cone'
            else .error "node referenced but not defined as input or and"

/-- `Aig::coi` (src/circuit/aig.rs, lines 75-150). -/
def Aig.coi (aig : Aig) (output_idx : Nat) : Except String CoiInfo := do
  if h : output_idx < aig.outputs.length then
    let input_mask ← buildInputMask aig.max_id aig.inputs (fun _ => false)
    let gate_fanins ← buildGateFanins aig.max_id aig.ands (fun _ => none)
    let in_cone ← coiLoop aig.max_id input_mask gate_fanins
      (2 * (aig.max_id + 1) + 2)
      [(aig.outputs.get ⟨output_idx, h⟩).id] (fun _ => false)
    let input_ids := aig.inputs.filter
      (fun id => decide (id ≤ aig.max_id) && in_cone id)
    let ands_in_cone := (aig.ands.filter
      (fun g => decide (g.id ≤ aig.max_id) && in_cone g.id)).length
    .ok ⟨input_ids, ands_in_cone, in_cone, aig.max_id + 1⟩
  else
    .error "output index out of range"

/-- `rewrite_lit` (src/circuit/aig.rs). -/
def rewrite_lit (lit : AigLit) (remap : Nat → Option Nat) : Except String AigLit :=
  match remap lit.id with
  | some id => .ok ⟨id, lit.neg⟩
  | none => .error "missing remap for node"

/-- Input-renumbering loop of `Aig::restrict_to_output`. -/
def restrictInputs (coi : CoiInfo) (maxId : Nat) :
    List Nat → (Nat → Option Nat) → Nat → List Nat →
    ((Nat → Option Nat) × Nat × List Nat)
  | [], remap, next, acc => (remap, next, acc)
  | id :: rest, remap, next, acc =>
      if decide (id ≤ maxId) && coi.contains_node id then
        restrictInputs coi maxId rest (updFn remap id next) (next + 1) (acc ++ [next])
      else
        restrictInputs coi maxId rest remap next acc

/-- Gate-renumbering loop of `Aig::restrict_to_output`. -/
def restrictAnds (coi : CoiInfo) (maxId : Nat) :
    List AndGate → (Nat → Option Nat) → Nat → List AndGate →
    Except String ((Nat → Option Nat) × Nat × List AndGate)
  | [], remap, next, acc => .ok (remap, next, acc)
  | g :: rest, remap, next, acc =>
      if !(coi.contains_node g.id) then restrictAnds coi maxId rest remap next acc
      else if maxId < g.a.id ∨ maxId < g.b.id then
        .error "and gate has fanin outside max_id"
      else do
        let a ← rewrite_lit g.a remap
        let b ← rewrite_lit g.b remap
        restrictAnds coi maxId rest (updFn remap g.id next) (next + 1)
          (acc ++ [⟨next, a, b⟩])

/-- `Aig::restrict_to_output` (src/circuit/aig.rs, lines 152-197). -/
def Aig.restrict_to_output (aig : Aig) (output_idx : Nat) : Except String Aig := do
  let coi ← aig.coi output_idx
  let remap0 : Nat → Option Nat := updFn (fun _ => none) 0 0
  let (remap1, next1, new_inputs) := restrictInputs coi aig.max_id aig.inputs remap0 1 []
  let (remap2, next2, new_ands) ← restrictAnds coi aig.max_id aig.ands remap1 next1 []
  let old_out := aig.outputs.getD output_idx ⟨0, false⟩
  let new_out ← rewrite_lit old_out remap2
  .ok ⟨next2 - 1, new_inputs, [new_out], new_ands⟩

/-- `false_lit` (src/circuit/aig.rs). -/
def false_lit : AigLit := ⟨0, false⟩

/-- `is_false` (src/circuit/aig.rs). -/
def is_false (x : AigLit) : Bool := decide (x.id = 0) && !x.neg

/-- `is_true` (src/circuit/aig.rs). -/
def is_true (x : AigLit) : Bool := decide (x.id = 0) && x.neg

/-- `apply_neg` (src/circuit/aig.rs). -/
def apply_neg (x : AigLit) (flip : Bool) : AigLit :=
  if flip then ⟨x.id, !x.neg⟩ else x

/-- `fold_and` (src/circuit/aig.rs, lines 367-384): constant and identity
folding of an AND. -/
def fold_and (a b : AigLit) : Option AigLit :=
  if is_false a || is_false b then some false_lit
  else if is_true a then some b
  else if is_true b then some a
  else if a = b then some a
  else if decide (a.id = b.id) && decide (a.neg ≠ b.neg) then some false_lit
  else none

/-- `lit_order` (src/circuit/aig.rs). -/
def lit_order (a b : AigLit) : Bool :=
  if a.id ≠ b.id then decide (a.id < b.id)
  else decide (a.neg.toNat ≤ b.neg.toNat)

/-- `AndKey::new` (src/circuit/aig.rs): commutative key normalization. -/
def AndKey.new (a b : AigLit) : AigLit × AigLit :=
  if lit_order a b then (a, b) else (b, a)

/-- Input phase of `Aig::rewrite_single_output`. -/
def rewriteInputs (maxId : Nat) :
    List Nat → (Nat → Option AigLit) → Nat → List Nat →
    Except String ((Nat → Option AigLit) × Nat × List Nat)
  | [], mapped, next, acc => .ok (mapped, next, acc)
  | id :: rest, mapped, next, acc =>
      if id = 0 ∨ maxId < id then .error "input id is invalid for max_id"
      else rewriteInputs maxId rest (updFn mapped id ⟨next, false⟩) (next + 1)
        (acc ++ [next])

/-- Gate phase of `Aig::rewrite_single_output` (src/circuit/aig.rs,
lines 230-270): resolve fanins through `mapped`, fold, and consult the
commutative structural-hash table. -/
def rewriteAnds (maxId : Nat) :
    List AndGate → (Nat → Option AigLit) → Nat → List AndGate →
    (AigLit × AigLit → Option AigLit) →
    Except String ((Nat → Option AigLit) × Nat × List AndGate ×
      (AigLit × AigLit → Option AigLit))
  | [], mapped, next, acc, hash => .ok (mapped, next, acc, hash)
  | g :: rest, mapped, next, acc, hash =>
      if g.id = 0 ∨ maxId < g.id then .error "and gate id is invalid for max_id"
      else if maxId < g.a.id ∨ maxId < g.b.id then
        .error "and gate has fanin outside max_id"
      else
        match mapped g.a.id, mapped g.b.id with
        | some a_base, some b_base =>
            let a := apply_neg a_base g.a.neg
            let b := apply_neg b_base g.b.neg
            match fold_and a b with
            | some lit => rewriteAnds maxId rest (updFn mapped g.id lit) next acc hash
            | none =>
                let key := AndKey.new a b
                match hash key with
                | some lit =>
                    rewriteAnds maxId rest (updFn mapped g.id lit) next acc hash
                | none =>
                    let lit : AigLit := ⟨next, false⟩
                    rewriteAnds maxId rest (updFn mapped g.id lit) (next + 1)
                      (acc ++ [⟨next, key.1, key.2⟩]) (updFn hash key lit)
        | _, _ => .error "fanin not mapped yet"

/-- `Aig::rewrite_single_output` (src/circuit/aig.rs, lines 205-294). -/
def Aig.rewrite_single_output (aig : Aig) : Except String Aig := do
  if aig.outputs.length ≠ 1 then
    .error "rewrite_single_output expects one output"
  else
    let mapped0 : Nat → Option AigLit := updFn (fun _ => none) 0 false_lit
    let (mapped1, next1, new_inputs) ←
      rewriteInputs aig.max_id aig.inputs mapped0 1 []
    let (mapped2, next2, new_ands, _) ←
      rewriteAnds aig.max_id aig.ands mapped1 next1 [] (fun _ => none)
    let out_old := aig.outputs.getD 0 ⟨0, false⟩
    if aig.max_id < out_old.id then .error "output id is invalid for max_id"
    else
      match mapped2 out_old.id with
      | none => .error "output id not mapped"
      | some out_base =>
          .ok ⟨next2 - 1, new_inputs, [apply_neg out_base out_old.neg], new_ands⟩

/-- `Aig::simplify_output` (src/circuit/aig.rs, lines 199-203). -/
def Aig.simplify_output (aig : Aig) (output_idx : Nat) : Except String Aig := do
  let reduced ← aig.restrict_to_output output_idx
  let rewritten ← reduced.rewrite_single_output
  rewritten.restrict_to_output 0

/-- Well-formed AIG: inputs are distinct nonzero ids within `max_id` and
disjoint from the gate ids; gates appear in strictly increasing id order,
with nonzero ids within `max_id` and both fanins strictly below the gate's
own id. -/
def WfAig (aig : Aig) : Prop :=
  (∀ id ∈ aig.inputs, 1 ≤ id ∧ id ≤ aig.max_id) ∧
  aig.inputs.Nodup ∧
  (∀ id ∈ aig.inputs, ∀ g ∈ aig.ands, g.id ≠ id) ∧
  aig.ands.Pairwise (fun g1 g2 => g1.id < g2.id) ∧
  (∀ g ∈ aig.ands, 1 ≤ g.id ∧ g.id ≤ aig.max_id ∧ g.a.id < g.id ∧ g.b.id < g.id)

/-- Projection of labelled input bits onto the cone: keeps the bits whose
input id passes the same test `restrict_to_output` uses to keep an input. -/
def projectCone (c : CoiInfo) (maxId : Nat) (pairs : List (Nat × Bool)) : List Bool :=
  (pairs.filter (fun p => decide (p.1 ≤ maxId) && c.contains_node p.1)).map Prod.snd

/-- Claim-side definition (the spec's words): restrict `x` to the inputs in
`COI(i)`, in their original order. -/
def claimedProj (aig : Aig) (i : Nat) (x : List Bool) : Except String (List Bool) := do
  let c ← aig.coi i
  .ok (projectCone c aig.max_id (aig.inputs.zip x))

/-- The surviving-input projection of `simplify_output`: the claimed cone
projection followed by the second cone projection that the final
`restrict_to_output` pass applies after rewriting (the rewrite pass keeps
every input, so its bits pass through unchanged). -/
def Aig.simplify_proj (aig : Aig) (i : Nat) (x : List Bool) :
    Except String (List Bool) := do
  let c1 ← aig.coi i
  let reduced ← aig.restrict_to_output i
  let rewritten ← reduced.rewrite_single_output
  let c2 ← rewritten.coi 0
  let x1 := projectCone c1 aig.max_id (aig.inputs.zip x)
  .ok (projectCone c2 rewritten.max_id (rewritten.inputs.zip x1))

/-! ## CNF model (src/cnf/cnf.rs) -/

/-- Largest `u32` value; the CNF variable allocator saturates at it. -/
def U32MAX : Nat := 4294967295

/-- CNF literal (src/cnf/cnf.rs, `Lit`): `sign = true` is the positive
polarity. -/
structure Lit where
  var : Nat
  sign : Bool
deriving DecidableEq, Repr

/-- `Lit::neg`. -/
def Lit.neg (l : Lit) : Lit := ⟨l.var, !l.sign⟩

/-- CNF formula (src/cnf/cnf.rs, `Cnf`). -/
structure Cnf where
  num_vars : Nat
  clauses : List (List Lit)
deriving DecidableEq, Repr

/-- `Cnf::new`. -/
def Cnf.new (num_vars : Nat) : Cnf := ⟨num_vars, []⟩

/-- `Cnf::add_clause`. -/
def Cnf.add_clause (c : Cnf) (clause : List Lit) : Cnf :=
  ⟨c.num_vars, c.clauses ++ [clause]⟩

/-- `Cnf::fresh_var`: `num_vars` is bumped with `u32` saturating addition
and the new value returned. -/
def Cnf.fresh_var (c : Cnf) : Cnf × Nat :=
  let n := min (c.num_vars + 1) U32MAX
  (⟨n, c.clauses⟩, n)

/-- `Cnf::eval_lit_part` over a partial assignment. -/
def eval_lit_part (lit : Lit) (assignment : List (Option Bool)) : Option Bool :=
  if assignment.length ≤ lit.var then none
  else (assignment.getD lit.var none).map (fun v => if lit.sign then v else !v)

/-- Scan of one clause inside `Cnf::eval_clause_part`, tracking the
`any_unknown` flag and stopping at the first true literal. -/
def evalClauseGo (assignment : List (Option Bool)) :
    List Lit → Bool → Option Bool
  | [], any_unknown => if any_unknown then none else some false
  | l :: rest, any_unknown =>
      match eval_lit_part l assignment with
      | some true => some true
      | some false => evalClauseGo assignment rest any_unknown
      | none => evalClauseGo assignment rest true

/-- `Cnf::eval_clause_part`. -/
def eval_clause_part (clause : List Lit) (assignment : List (Option Bool)) :
    Option Bool :=
  evalClauseGo assignment clause false

/-- Clause loop of `Cnf::eval_formula_partial`, tracking `all_true`. -/
def evalFormulaGo (assignment : List (Option Bool)) :
    List (List Lit) → Bool → Option Bool
  | [], all_true => if all_true then some true else none
  | c :: rest, all_true =>
      match eval_clause_part c assignment with
      | some true => evalFormulaGo assignment rest all_true
      | some false => some false
      | none => evalFormulaGo assignment rest false

/-- `Cnf::eval_formula_partial`. -/
def Cnf.eval_formula_partial (c : Cnf) (assignment : List (Option Bool)) :
    Option Bool :=
  evalFormulaGo assignment c.clauses true

/-! ## Tseitin encoding (src/cnf/tseitin.rs) -/

/-- `TseitinCnf` (src/cnf/tseitin.rs). -/
structure TseitinCnf where
  cnf : Cnf
  input_vars : List Nat
  output_lits : List Lit
  false_var : Nat
deriving Repr

/-- `lit_from_aig` (src/cnf/tseitin.rs): AIG literal to CNF literal; AIG
polarity `neg = true` flips to CNF `sign = false`, id 0 maps to the pinned
false variable. -/
def lit_from_aig (lit : AigLit) (false_var : Nat) : Lit :=
  ⟨if lit.id = 0 then false_var else lit.id, !lit.neg⟩

/-- Input validation loop of `encode_aig`. -/
def tseitinCheckInputs (maxId : Nat) : List Nat → Except String Unit
  | [] => .ok ()
  | id :: rest =>
      if id = 0 ∨ maxId < id then .error "input id is invalid for max_id"
      else tseitinCheckInputs maxId rest

/-- Gate loop of `encode_aig`: three Tseitin clauses per AND gate. -/
def tseitinAnds (maxId false_var : Nat) : List AndGate → Cnf → Except String Cnf
  | [], cnf => .ok cnf
  | gate :: rest, cnf =>
      if gate.id = 0 ∨ maxId < gate.id then
        .error "and gate id is invalid for max_id"
      else if maxId < gate.a.id ∨ maxId < gate.b.id then
        .error "and gate has fanin outside max_id"
      else
        let g : Lit := ⟨gate.id, true⟩
        let a := lit_from_aig gate.a false_var
        let b := lit_from_aig gate.b false_var
        let cnf := (((cnf.add_clause [g.neg, a]).add_clause [g.neg, b]).add_clause
          [g, a.neg, b.neg])
        tseitinAnds maxId false_var rest cnf

/-- Output mapping loop of `encode_aig`. -/
def tseitinOuts (maxId false_var : Nat) : List AigLit → Except String (List Lit)
  | [] => .ok []
  | out :: rest =>
      if maxId < out.id then .error "output id is invalid for max_id"
      else do
        let others ← tseitinOuts maxId false_var rest
        .ok (lit_from_aig out false_var :: others)

/-- `encode_aig` (src/cnf/tseitin.rs): variables 1..max_id are the AIG
nodes, `max_id + 1` is the pinned false variable (`checked_add` failure
when `max_id` is `u32::MAX` is an error), the first clause is the unit
`¬false_var`. -/
def encode_aig (aig : Aig) : Except String TseitinCnf := do
  if U32MAX ≤ aig.max_id then .error "max_id is too large for false var allocation"
  else
    let false_var := aig.max_id + 1
    let cnf := (Cnf.new false_var).add_clause [⟨false_var, false⟩]
    tseitinCheckInputs aig.max_id aig.inputs
    let cnf ← tseitinAnds aig.max_id false_var aig.ands cnf
    let out_lits ← tseitinOuts aig.max_id false_var aig.outputs
    .ok ⟨cnf, aig.inputs, out_lits, false_var⟩

/-! ## Reference DPLL (src/sat/dpll.rs)

Panics of the Rust code (out-of-bounds indexing reachable only on
ill-scoped clauses) are modelled as `Except.error`. -/

/-- `SatResult` (src/sat/dpll.rs). -/
inductive SatResult where
  | Sat (model : List Bool)
  | Unsat
deriving DecidableEq, Repr

/-- Number of unassigned slots; termination measure for the DPLL. -/
def countNone (a : List (Option Bool)) : Nat :=
  a.countP (fun v => v.isNone)

/-- Literal scan inside `unit_propagate`: count open literals, remember the
last open one, and stop at a satisfied literal. -/
def scanClause (assignment : List (Option Bool)) :
    List Lit → Nat → Lit → Nat × Lit × Bool
  | [], open_count, last_open => (open_count, last_open, false)
  | l :: rest, open_count, last_open =>
      match eval_lit_part l assignment with
      | some true => (open_count, last_open, true)
      | some false => scanClause assignment rest open_count last_open
      | none => scanClause assignment rest (open_count + 1) l

/-- One pass over all clauses inside `unit_propagate`.  Results: `none`
for a conflict (the Rust `return false`), otherwise the updated assignment
and the `changed` flag. -/
def upPass : List (List Lit) → List (Option Bool) → Bool →
    Except String (Option (List (Option Bool) × Bool))
  | [], assignment, changed => .ok (some (assignment, changed))
  | clause :: rest, assignment, changed =>
      let (open_count, last_open, has_true) := scanClause assignment clause 0 ⟨0, true⟩
      if has_true then upPass rest assignment changed
      else if open_count = 0 then .ok none
      else if open_count = 1 then
        if assignment.length ≤ last_open.var then .error "index out of bounds"
        else
          match assignment.getD last_open.var none with
          | some v =>
              if v ≠ last_open.sign then .ok none
              else upPass rest assignment changed
          | none =>
              upPass rest (assignment.set last_open.var (some last_open.sign)) true
      else upPass rest assignment changed

/-- The fixpoint loop of `unit_propagate` (src/sat/dpll.rs, lines 69-114):
repeat passes until no change; `none` models the Rust `return false`
(conflict).  Written on fuel: every pass that continues strictly decreases
the number of unassigned slots, so `countNone + 1` iterations suffice
(`upFix_no_fuel_error`). -/
def upFix : Nat → Cnf → List (Option Bool) →
    Except String (Option (List (Option Bool)))
  | 0, _, _ => .error "unreachable: unit propagation fuel exhausted"
  | fuel + 1, cnf, a =>
      match upPass cnf.clauses a false with
      | .error e => .error e
      | .ok none => .ok none
      | .ok (some (a', changed)) =>
          if changed then upFix fuel cnf a' else .ok (some a')

/-- `unit_propagate` (src/sat/dpll.rs): the fuelled fixpoint at its
sufficient fuel. -/
def unit_propagate (cnf : Cnf) (a : List (Option Bool)) :
    Except String (Option (List (Option Bool))) :=
  upFix (countNone a + 1) cnf a

/-- `first_unassigned` (src/sat/dpll.rs): smallest unassigned variable,
scanning `1..len`. -/
def first_unassigned (a : List (Option Bool)) : Option Nat :=
  (List.range' 1 (a.length - 1)).find? (fun i => (a.getD i (some false)).isNone)

/-- `search` (src/sat/dpll.rs, lines 34-66): unit propagation, evaluation,
then chronological branching on the smallest unassigned variable, trying
`true` first.  Returns the found flag and the final assignment.  Written
on fuel: each branching level strictly decreases the number of unassigned
slots, so `countNone + 1` levels suffice (`searchGo_no_fuel_error`). -/
def searchGo : Nat → Cnf → List (Option Bool) →
    Except String (Bool × List (Option Bool))
  | 0, _, _ => .error "unreachable: search fuel exhausted"
  | fuel + 1, cnf, a =>
      match unit_propagate cnf a with
      | .error e => .error e
      | .ok none => .ok (false, a)
      | .ok (some a1) =>
          match cnf.eval_formula_partial a1 with
          | some true => .ok (true, a1)
          | some false => .ok (false, a1)
          | none =>
              match first_unassigned a1 with
              | none => .ok (false, a1)
              | some var =>
                  match searchGo fuel cnf (a1.set var (some true)) with
                  | .error e => .error e
                  | .ok (true, res) => .ok (true, res)
                  | .ok (false, _) =>
                      match searchGo fuel cnf (a1.set var (some false)) with
                      | .error e => .error e
                      | .ok (true, res) => .ok (true, res)
                      | .ok (false, _) => .ok (false, a1)

/-- `search` at its sufficient fuel. -/
def search (cnf : Cnf) (a : List (Option Bool)) :
    Except String (Bool × List (Option Bool)) :=
  searchGo (countNone a + 1) cnf a

/-- `solve` (src/sat/dpll.rs, lines 9-21): run the search on an empty
assignment of length `num_vars + 1`, filling free variables with `false`. -/
def Dpll.solve (cnf : Cnf) : Except String SatResult := do
  let assignment : List (Option Bool) := List.replicate (cnf.num_vars + 1) none
  match ← search cnf assignment with
  | (true, a) => .ok (.Sat (a.map (fun v => v.getD false)))
  | (false, _) => .ok .Unsat

/-- `solve_model` (src/sat/dpll.rs). -/
def Dpll.solve_model (cnf : Cnf) : Except String (Option (List Bool)) := do
  match ← Dpll.solve cnf with
  | .Sat m => .ok (some m)
  | .Unsat => .ok none

/-! ## Incremental solver interface (src/solver/mod.rs) -/

/-- `SolveResult` (src/solver/mod.rs). -/
inductive SolveResult where
  | Sat
  | Unsat
deriving DecidableEq, Repr

/-- `SolverStats` (src/solver/mod.rs). -/
structure SolverStats where
  solve_calls : Nat
  decisions : Nat
  conflicts : Nat
deriving DecidableEq, Repr

instance : Inhabited SolverStats := ⟨⟨0, 0, 0⟩⟩

/-- The `IncrementalSolver` trait (src/solver/mod.rs) as a structure of
operations over an explicit solver-state type `σ`.  The Rust methods take
`&mut self`; here each operation returns the updated state.  Panics
reachable inside a backend's `solve` are modelled as `Except.error`. -/
structure SolverOps (σ : Type) where
  new_var : σ → σ × Nat
  add_clause : σ → List Lit → σ
  solve : σ → List Lit → Except String (σ × SolveResult)
  model_value : σ → Nat → Option Bool
  stats : σ → SolverStats
  backend_name : String

/-- `DpllSolverBackend` (src/solver/dpll_backend.rs). -/
structure DpllSolverBackend where
  cnf : Cnf
  last_model : Option (List Bool)
  stats : SolverStats
deriving DecidableEq, Repr

/-- `DpllSolverBackend::new`. -/
def DpllSolverBackend.new : DpllSolverBackend := ⟨Cnf.new 0, none, default⟩

/-- `DpllSolverBackend::solve` (src/solver/dpll_backend.rs, lines 37-49):
bump `solve_calls`, build a working copy of the base formula extended with
one unit clause per assumption, and run the reference DPLL on it. -/
def DpllSolverBackend.solveImpl (s : DpllSolverBackend) (assumptions : List Lit) :
    Except String (DpllSolverBackend × SolveResult) := do
  let stats := { s.stats with solve_calls := s.stats.solve_calls + 1 }
  let work := assumptions.foldl (fun w a => w.add_clause [a]) s.cnf
  let lm ← Dpll.solve_model work
  .ok ({ s with last_model := lm, stats := stats },
    if lm.isSome then .Sat else .Unsat)

/-- `DpllSolverBackend::model_value`. -/
def DpllSolverBackend.modelValue (s : DpllSolverBackend) (var : Nat) : Option Bool :=
  s.last_model.bind (fun m => if var < m.length then some (m.getD var false) else none)

/-- The `IncrementalSolver` instance of the reference DPLL backend. -/
def dpllOps : SolverOps DpllSolverBackend where
  new_var s := let (cnf, v) := s.cnf.fresh_var; ({ s with cnf := cnf }, v)
  add_clause s clause := { s with cnf := s.cnf.add_clause clause }
  solve := DpllSolverBackend.solveImpl
  model_value := DpllSolverBackend.modelValue
  stats s := s.stats
  backend_name := "dpll"

/-! ## Scopes (src/solver/scope.rs) -/

/-- `Scope` (src/solver/scope.rs). -/
structure Scope where
  act : Lit
deriving DecidableEq, Repr

/-- `new_scope` (src/solver/scope.rs). -/
def new_scope {σ : Type} (ops : SolverOps σ) (s : σ) : σ × Scope :=
  let (s, v) := ops.new_var s
  (s, ⟨⟨v, true⟩⟩)

/-- `add_scoped_clause` (src/solver/scope.rs, lines 16-26): the clause is
stored with the negated activation literal prepended. -/
def add_scoped_clause {σ : Type} (ops : SolverOps σ) (s : σ) (scope : Scope)
    (clause : List Lit) : σ :=
  ops.add_clause s (scope.act.neg :: clause)

/-! ## Bounded projected enumeration (src/count/bounded.rs) -/

/-- `BoundedCount` (src/count/bounded.rs). -/
structure BoundedCount where
  count : Nat
  hit_cap : Bool
deriving DecidableEq, Repr

/-- The blocking-clause construction inside the enumeration loop: one
literal per projection variable, negating its model value. -/
def mkBlock {σ : Type} (ops : SolverOps σ) (s : σ) :
    List Nat → Except String (List Lit)
  | [] => .ok []
  | v :: rest =>
      match ops.model_value s v with
      | some val => do
          let more ← mkBlock ops s rest
          .ok (⟨v, !val⟩ :: more)
      | none => .error "missing model value for var"

/-- The loop of `projected_count_bounded_in_scope` (src/count/bounded.rs,
lines 39-81): solve under base assumptions plus the scope literal, stop on
Unsat or when the count exceeds the cap, otherwise block the projected
model under the scope and repeat. -/
def boundedLoop {σ : Type} (ops : SolverOps σ) (projection : List Nat) (cap : Nat)
    (base_assumptions : List Lit) (count_scope : Scope) :
    Nat → σ → Nat → Except String (BoundedCount × σ)
  | 0, _, _ => .error "unreachable: bounded loop fuel exhausted"
  | fuel + 1, s, count => do
      let assumptions := base_assumptions ++ [count_scope.act]
      let (s, r) ← ops.solve s assumptions
      match r with
      | .Unsat => .ok (⟨count, false⟩, s)
      | .Sat =>
          let count := count + 1
          if cap < count then .ok (⟨count, true⟩, s)
          else do
            let block ← mkBlock ops s projection
            let s := add_scoped_clause ops s count_scope block
            boundedLoop ops projection cap base_assumptions count_scope fuel s count
/- The loop runs at most `cap + 1` iterations: the count grows by one per
iteration and the loop returns as soon as it exceeds the cap, so the fuel
below is always sufficient (`boundedLoop_no_fuel_error`). -/

/-- `projected_count_bounded_in_scope` (src/count/bounded.rs). -/
def projected_count_bounded_in_scope {σ : Type} (ops : SolverOps σ) (s : σ)
    (projection : List Nat) (cap : Nat) (base_assumptions : List Lit)
    (count_scope : Scope) : Except String (BoundedCount × σ) :=
  boundedLoop ops projection cap base_assumptions count_scope (cap + 1) s 0

/-- `projected_count_bounded_session` (src/count/bounded.rs, lines 26-37). -/
def projected_count_bounded_session {σ : Type} (ops : SolverOps σ) (s : σ)
    (projection : List Nat) (cap : Nat) (base_assumptions : List Lit) :
    Except String (BoundedCount × σ) :=
  if projection.any (fun v => v = 0) then .error "projection contains variable 0"
  else
    let (s, count_scope) := new_scope ops s
    projected_count_bounded_in_scope ops s projection cap base_assumptions count_scope

/-- The `for _ in 0..num_vars { solver.new_var(); }` loops of
`projected_count_bounded` and `build_solver`. -/
def addNVars {σ : Type} (ops : SolverOps σ) : σ → Nat → σ
  | s, 0 => s
  | s, n + 1 => addNVars ops (ops.new_var s).1 n

/-- Loading a clause list into a solver. -/
def addClauses {σ : Type} (ops : SolverOps σ) : σ → List (List Lit) → σ
  | s, [] => s
  | s, c :: rest => addClauses ops (ops.add_clause s c) rest

/-- `projected_count_bounded` (src/count/bounded.rs, lines 14-24): fresh
DPLL backend loaded with the CNF, then a session with no base
assumptions. -/
def projected_count_bounded (cnf : Cnf) (projection : List Nat) (cap : Nat) :
    Except String (BoundedCount × DpllSolverBackend) :=
  let s := addNVars dpllOps DpllSolverBackend.new cnf.num_vars
  let s := addClauses dpllOps s cnf.clauses
  projected_count_bounded_session dpllOps s projection cap []

/-! ## XOR encoding (src/xor/encode.rs)

The Rust functions return `Result` but have no failing path; they are
modelled as total functions. -/

/-- `XorConstraint` (src/xor/encode.rs). -/
structure XorConstraint where
  vars : List Nat
  rhs : Bool
deriving DecidableEq, Repr

/-- `XorBlockMode` (src/xor/encode.rs). -/
inductive XorBlockMode where
  | Plain
  | Gated (activate : Bool)
deriving DecidableEq, Repr

/-- `push_clause` (src/xor/encode.rs): prepend the negated activation
variable when gated. -/
def push_clause (cnf : Cnf) (clause : List Lit) (act_var : Option Nat) : Cnf :=
  match act_var with
  | some t => cnf.add_clause (⟨t, false⟩ :: clause)
  | none => cnf.add_clause clause

/-- `append_xor3` (src/xor/encode.rs, lines 66-88): the four Tseitin
clauses of `z = x xor y`. -/
def append_xor3 (cnf : Cnf) (x y z : Nat) (act_var : Option Nat) : Cnf :=
  let cnf := push_clause cnf [⟨x, true⟩, ⟨y, true⟩, ⟨z, false⟩] act_var
  let cnf := push_clause cnf [⟨x, false⟩, ⟨y, false⟩, ⟨z, false⟩] act_var
  let cnf := push_clause cnf [⟨x, true⟩, ⟨y, false⟩, ⟨z, true⟩] act_var
  push_clause cnf [⟨x, false⟩, ⟨y, true⟩, ⟨z, true⟩] act_var

/-- The auxiliary-variable chain inside `append_one`. -/
def xorChain (act_var : Option Nat) : List Nat → Cnf → Nat → Cnf × Nat
  | [], cnf, acc => (cnf, acc)
  | next :: rest, cnf, acc =>
      let (cnf, out) := cnf.fresh_var
      let cnf := append_xor3 cnf acc next out act_var
      xorChain act_var rest cnf out

/-- `append_one` (src/xor/encode.rs, lines 39-64). -/
def append_one (cnf : Cnf) (c : XorConstraint) (act_var : Option Nat) : Cnf :=
  match c.vars with
  | [] => if c.rhs then push_clause cnf [] act_var else cnf
  | [v] => push_clause cnf [⟨v, c.rhs⟩] act_var
  | v :: rest =>
      let (cnf, acc) := xorChain act_var rest cnf v
      push_clause cnf [⟨acc, c.rhs⟩] act_var

/-- `append_xor_block` (src/xor/encode.rs, lines 18-37). -/
def append_xor_block (cnf : Cnf) (constraints : List XorConstraint)
    (mode : XorBlockMode) : Cnf × Option Nat :=
  let (cnf, act_var) :=
    match mode with
    | .Plain => (cnf, none)
    | .Gated _ => let (cnf, t) := cnf.fresh_var; (cnf, some t)
  let cnf :=
    match mode, act_var with
    | .Gated true, some t => cnf.add_clause [⟨t, true⟩]
    | _, _ => cnf
  (constraints.foldl (fun cnf c => append_one cnf c act_var) cnf, act_var)

/-- `push_solver_clause` (src/xor/encode.rs). -/
def push_solver_clause {σ : Type} (ops : SolverOps σ) (s : σ) (clause : List Lit)
    (activation : Option Lit) : σ :=
  match activation with
  | some act => ops.add_clause s (act.neg :: clause)
  | none => ops.add_clause s clause

/-- `append_xor3_solver` (src/xor/encode.rs). -/
def append_xor3_solver {σ : Type} (ops : SolverOps σ) (s : σ) (x y z : Nat)
    (activation : Option Lit) : σ :=
  let s := push_solver_clause ops s [⟨x, true⟩, ⟨y, true⟩, ⟨z, false⟩] activation
  let s := push_solver_clause ops s [⟨x, false⟩, ⟨y, false⟩, ⟨z, false⟩] activation
  let s := push_solver_clause ops s [⟨x, true⟩, ⟨y, false⟩, ⟨z, true⟩] activation
  push_solver_clause ops s [⟨x, false⟩, ⟨y, true⟩, ⟨z, true⟩] activation

/-- The auxiliary chain inside `append_xor_constraint_to_solver`. -/
def xorChainSolver {σ : Type} (ops : SolverOps σ) (activation : Option Lit) :
    List Nat → σ → Nat → σ × Nat
  | [], s, acc => (s, acc)
  | next :: rest, s, acc =>
      let (s, out) := ops.new_var s
      let s := append_xor3_solver ops s acc next out activation
      xorChainSolver ops activation rest s out

/-- `append_xor_constraint_to_solver` (src/xor/encode.rs, lines 106-130). -/
def append_xor_constraint_to_solver {σ : Type} (ops : SolverOps σ) (s : σ)
    (constraint : XorConstraint) (activation : Option Lit) : σ :=
  match constraint.vars with
  | [] => if constraint.rhs then push_solver_clause ops s [] activation else s
  | [v] => push_solver_clause ops s [⟨v, constraint.rhs⟩] activation
  | v :: rest =>
      let (s, acc) := xorChainSolver ops activation rest s v
      push_solver_clause ops s [⟨acc, constraint.rhs⟩] activation

/-! ## Random XOR sampling (src/xor/hash.rs)

The ChaCha8 PRNG is an external crate; it is modelled as an abstract
oracle.  `next_f64` models `rng.random::<f64>()`, a draw from `[0,1)`,
as an arbitrary rational; `next_range` models `rng.random_range(0..n)`
and carries the range contract; `next_bool` models `rng.random::<bool>()`;
`init` models `ChaCha8Rng::seed_from_u64`. -/

/-- Abstract PRNG oracle over a state type `ρ`. -/
structure RngOps (ρ : Type) where
  init : Nat → ρ
  next_f64 : ρ → ℚ × ρ
  next_range : ρ → Nat → Nat × ρ
  next_bool : ρ → Bool × ρ
  range_lt : ∀ s n, 0 < n → (next_range s n).1 < n

/-- The `f64` sparsity parameter: `none` models NaN. -/
def F64 : Type := Option ℚ

/-- `p > c` on the float model; false when `p` is NaN. -/
def f64_gt (p : F64) (c : ℚ) : Bool :=
  match p with
  | some x => decide (c < x)
  | none => false

/-- `p <= c` on the float model; false when `p` is NaN. -/
def f64_le (p : F64) (c : ℚ) : Bool :=
  match p with
  | some x => decide (x ≤ c)
  | none => false

/-- `x < p` for a drawn value `x` against the sparsity `p`. -/
def f64_lt_draw (x : ℚ) (p : F64) : Bool :=
  match p with
  | some q => decide (x < q)
  | none => false

/-- The inclusion loop of one row: include each variable whose `f64` draw
is below `p`, in order. -/
def sampleRow {ρ : Type} (R : RngOps ρ) (p : F64) :
    List Nat → ρ → List Nat × ρ
  | [], rng => ([], rng)
  | v :: rest, rng =>
      let (x, rng) := R.next_f64 rng
      let (more, rng) := sampleRow R p rest rng
      if f64_lt_draw x p then (v :: more, rng) else (more, rng)

/-- Adjacent deduplication (`Vec::dedup`). -/
def dedupAdj : List Nat → List Nat
  | [] => []
  | [x] => [x]
  | x :: y :: rest =>
      if x = y then dedupAdj (y :: rest) else x :: dedupAdj (y :: rest)

/-- Stable insertion into a sorted list: `x` goes after every element `y`
with `le y x`. -/
def insertLe {α : Type} (le : α → α → Bool) (x : α) : List α → List α
  | [] => [x]
  | y :: rest => if le y x then y :: insertLe le x rest else x :: y :: rest

/-- Stable insertion sort.  A stable sort's output is uniquely determined
by the comparison, so this models both `sort_unstable` on integer keys
(where equal elements are indistinguishable) and the stable
`sort_by_key`. -/
def stableSortBy {α : Type} (le : α → α → Bool) (l : List α) : List α :=
  l.foldl (fun acc x => insertLe le x acc) []

/-- `sort_unstable` on a list of `u32` / `u128` keys. -/
def rustSort (l : List Nat) : List Nat :=
  stableSortBy (fun a b => decide (a ≤ b)) l

/-- The row loop of `sample_constraints`. -/
def sampleLoop {ρ : Type} (R : RngOps ρ) (vars : List Nat) (p : F64) :
    Nat → ρ → List XorConstraint × ρ
  | 0, rng => ([], rng)
  | m + 1, rng =>
      let (picked, rng) := sampleRow R p vars rng
      let (picked, rng) :=
        if picked = [] then
          let (idx, rng) := R.next_range rng vars.length
          ([vars.getD idx 0], rng)
        else (picked, rng)
      let picked := dedupAdj (rustSort picked)
      let (rhs, rng) := R.next_bool rng
      let (rest, rng) := sampleLoop R vars p m rng
      (⟨picked, rhs⟩ :: rest, rng)

/-- `sample_constraints` (src/xor/hash.rs, lines 7-43).  Note the order of
the two early checks: an empty variable list returns `Ok` before the
sparsity range check runs. -/
def sample_constraints {ρ : Type} (R : RngOps ρ) (vars : List Nat) (m : Nat)
    (p : F64) (rng : ρ) : Except String (List XorConstraint × ρ) :=
  if vars = [] then .ok ([], rng)
  else if !(f64_gt p 0 && f64_le p 1) then
    .error "sparsity p must be in (0,1]"
  else .ok (sampleLoop R vars p m rng)

/-! ## Hash-count driver (src/count/hash_count.rs)

`build_solver` dispatches on the backend kind; the embedding takes the
chosen backend as an explicit `(ops, empty)` pair, with
`(dpllOps, DpllSolverBackend.new)` the `CountBackend::Dpll` instance.
The `progress` println calls have no observable effect and are omitted. -/

/-- `CountMode` (src/count/hash_count.rs). -/
inductive CountMode where
  | Exact
  | Hash
deriving DecidableEq, Repr

/-- `CountOptions` (src/count/hash_count.rs); the `backend` field is
replaced by the explicit `ops` parameter of the driver. -/
structure CountOptions where
  seed : Nat
  pivot : Nat
  trials : Nat
  sparsity : F64
  progress : Bool
  repeats : Nat

/-- `CountReport` (src/count/hash_count.rs).  `result` is a `u128`. -/
structure CountReport where
  inputs_coi : Nat
  ands : Nat
  vars : Nat
  clauses : Nat
  pivot : Nat
  trials : Nat
  result : Nat
  mode : CountMode
  m_used : Nat
  backend : String
  solve_calls : Nat
deriving DecidableEq, Repr

/-- The per-trial seed expression of the driver
(src/count/hash_count.rs, line 128): `opts.seed.wrapping_add(t as u64)`. -/
def trialSeed (seed t : Nat) : Nat :=
  (seed + t) % 2 ^ 64

/-- `add_trial_rows` (src/count/hash_count.rs, lines 232-241): one fresh
activation literal per sampled row, each row encoded under its
activation. -/
def add_trial_rows {σ : Type} (ops : SolverOps σ) :
    σ → List XorConstraint → σ × List Lit
  | s, [] => (s, [])
  | s, row :: rest =>
      let (s, v) := ops.new_var s
      let a : Lit := ⟨v, true⟩
      let s := append_xor_constraint_to_solver ops s row (some a)
      let (s, acts) := add_trial_rows ops s rest
      (s, a :: acts)

/-- `cell_count_with_prefix` (src/count/hash_count.rs, lines 243-251). -/
def cell_count_with_prefix {σ : Type} (ops : SolverOps σ) (s : σ)
    (projection : List Nat) (pivot : Nat) (acts : List Lit) (m : Nat) :
    Except String (BoundedCount × σ) :=
  let e := min m acts.length
  projected_count_bounded_session ops s projection pivot (acts.take e)

/-- The exponential ramp loop (src/count/hash_count.rs, lines 133-147).
Written on fuel: `m` starts at 1 and strictly increases under
`m := min (m * 2) (max_m + 1)`, so `max_m + 1` iterations always suffice
and the wrapper passes that much. -/
def rampLoop {σ : Type} (ops : SolverOps σ) (proj : List Nat) (pivot : Nat)
    (row_acts : List Lit) (max_m : Nat) :
    Nat → σ → Nat → Nat → Nat → Except String (Nat × Nat × σ)
  | 0, _, _, _, _ => .error "unreachable: ramp fuel exhausted"
  | fuel + 1, s, low, high, m =>
      if m ≤ max_m then do
        let (c, s) ← cell_count_with_prefix ops s proj pivot row_acts m
        if c.hit_cap then
          rampLoop ops proj pivot row_acts max_m fuel s m high
            (min (m * 2) (max_m + 1))
        else .ok (low, m, s)
      else .ok (low, high, s)

/-- The binary-search loop (src/count/hash_count.rs, lines 154-176).
Written on fuel: the interval `[lo, hi]` strictly shrinks each iteration,
so `hi + 2 - lo` iterations always suffice and the wrapper passes that
much. -/
def binLoop {σ : Type} (ops : SolverOps σ) (proj : List Nat) (pivot : Nat)
    (row_acts : List Lit) :
    Nat → σ → Nat → Nat → Option (Nat × BoundedCount) →
    Except String (Option (Nat × BoundedCount) × σ)
  | 0, _, _, _, _ => .error "unreachable: binary search fuel exhausted"
  | fuel + 1, s, lo, hi, chosen =>
      if lo ≤ hi then do
        let mid := (lo + hi) / 2
        let (c, s) ← cell_count_with_prefix ops s proj pivot row_acts mid
        if c.hit_cap then
          binLoop ops proj pivot row_acts fuel s (mid + 1) hi chosen
        else if c.count = 0 then
          if mid = 0 then .ok (chosen, s)
          else binLoop ops proj pivot row_acts fuel s lo (mid - 1) chosen
        else
          if mid = 0 then .ok (some (mid, c), s)
          else binLoop ops proj pivot row_acts fuel s lo (mid - 1) (some (mid, c))
      else .ok (chosen, s)

/-- The repeats loop (src/count/hash_count.rs, lines 184-194): resample
`m_pick` fresh rows under fresh activations and take another cell count;
runs `repeats - 1` times. -/
def repLoop {σ ρ : Type} (ops : SolverOps σ) (R : RngOps ρ) (proj : List Nat)
    (pivot : Nat) (p : F64) (m_pick : Nat) :
    Nat → σ → ρ → List Nat → Except String (List Nat × σ × ρ)
  | 0, s, rng, cells => .ok (cells, s, rng)
  | n + 1, s, rng, cells => do
      let (rows, rng) ← sample_constraints R proj m_pick p rng
      let (s, acts) := add_trial_rows ops s rows
      let (c, s) ← cell_count_with_prefix ops s proj pivot acts m_pick
      repLoop ops R proj pivot p m_pick n s rng (cells ++ [c.count])

/-- The trial loop of `count_output_with_options`
(src/count/hash_count.rs, lines 126-204), iterating over the trial
indices. -/
def trialsLoop {σ ρ : Type} (ops : SolverOps σ) (R : RngOps ρ) (proj : List Nat)
    (opts : CountOptions) :
    List Nat → σ → List (Nat × Nat) → Except String (List (Nat × Nat) × σ)
  | [], s, est => .ok (est, s)
  | t :: ts, s, est => do
      let rng := R.init (trialSeed opts.seed t)
      let max_m := proj.length
      let (base_rows, rng) ← sample_constraints R proj max_m opts.sparsity rng
      let (s, row_acts) := add_trial_rows ops s base_rows
      let (low, high, s) ←
        rampLoop ops proj opts.pivot row_acts max_m (max_m + 1) s 0 (max_m + 1) 1
      if high = max_m + 1 then
        trialsLoop ops R proj opts ts s (est ++ [(0, 0)])
      else do
        let (chosen, s) ←
          binLoop ops proj opts.pivot row_acts (high + 2 - (low + 1)) s (low + 1) high none
        match chosen with
        | none => trialsLoop ops R proj opts ts s (est ++ [(0, 0)])
        | some (m_pick, first_cell) => do
            let (cells, s, _) ← repLoop ops R proj opts.pivot opts.sparsity m_pick
              (opts.repeats - 1) s rng [first_cell.count]
            let cells := rustSort cells
            let med_cell := cells.getD (cells.length / 2) 0
            if 128 ≤ m_pick then .error "m is too large for u128 scaling"
            else
              let scale := 2 ^ m_pick
              trialsLoop ops R proj opts ts s
                (est ++ [((med_cell * scale) % 2 ^ 128, m_pick)])

/-- `count_output_with_options` (src/count/hash_count.rs, lines 75-218).
The `u128` product `med_cell * scale` is taken modulo `2 ^ 128`
(release-mode wrap-around). -/
def count_output_with_options {σ ρ : Type} (ops : SolverOps σ) (empty : σ)
    (R : RngOps ρ) (aig : Aig) (out_idx : Nat) (opts : CountOptions) :
    Except String CountReport := do
  if opts.trials = 0 then .error "trials must be at least 1"
  else if opts.pivot = 0 then .error "pivot must be at least 1"
  else if opts.repeats = 0 then .error "r must be at least 1"
  else if !(f64_gt opts.sparsity 0 && f64_le opts.sparsity 1) then
    .error "p must be in (0,1]"
  else do
    let simple ← aig.simplify_output out_idx
    let enc ← encode_aig simple
    match enc.output_lits.head? with
    | none => .error "simplified circuit has no output"
    | some out_lit => do
        let enc := { enc with cnf := enc.cnf.add_clause [out_lit] }
        let proj := enc.input_vars
        let s := addNVars ops empty enc.cnf.num_vars
        let s := addClauses ops s enc.cnf.clauses
        let (exact, s) ← projected_count_bounded_session ops s proj opts.pivot []
        if !exact.hit_cap then
          .ok { inputs_coi := simple.inputs.length, ands := simple.ands.length,
                vars := enc.cnf.num_vars, clauses := enc.cnf.clauses.length,
                pivot := opts.pivot, trials := opts.trials,
                result := exact.count, mode := .Exact, m_used := 0,
                backend := ops.backend_name,
                solve_calls := (ops.stats s).solve_calls }
        else do
          let (trial_est, s) ←
            trialsLoop ops R proj opts (List.range opts.trials) s []
          let sorted := stableSortBy (fun a b => decide (a.1 ≤ b.1)) trial_est
          let mid := sorted.getD (sorted.length / 2) (0, 0)
          .ok { inputs_coi := simple.inputs.length, ands := simple.ands.length,
                vars := enc.cnf.num_vars, clauses := enc.cnf.clauses.length,
                pivot := opts.pivot, trials := opts.trials,
                result := mid.1, mode := .Hash, m_used := mid.2,
                backend := ops.backend_name,
                solve_calls := (ops.stats s).solve_calls }


/-! ## CNF satisfaction semantics (the standard reading of §3's data
model: a clause is satisfied when some literal is, `sign = true` being
the positive polarity) -/

/-- A total assignment satisfies a literal. -/
def litSat (τ : Nat → Bool) (l : Lit) : Bool :=
  if l.sign then τ l.var else !(τ l.var)

/-- A total assignment satisfies a clause (some literal true). -/
def clauseSat (τ : Nat → Bool) (cl : List Lit) : Bool :=
  cl.any (litSat τ)

/-- A total assignment satisfies every clause of a list. -/
def clausesSat (τ : Nat → Bool) (cls : List (List Lit)) : Bool :=
  cls.all (clauseSat τ)

/-- The XOR equation `v1 ⊕ ⋯ ⊕ vk` under a total assignment. -/
def xorEval (τ : Nat → Bool) (vars : List Nat) : Bool :=
  vars.foldl (fun acc v => xor acc (τ v)) false

/-- Canonical total assignment determined by a function on `[0, n]`
(false above `n`). -/
def truncAssign (n : Nat) (f : Fin (n + 1) → Bool) : Nat → Bool :=
  fun v => if h : v < n + 1 then f ⟨v, h⟩ else false

/-- The set of distinct `P`-projections of assignments over variables
`[0, n]` satisfying a clause list and a set of assumption literals: the
semantic quantity counted by the bounded projected enumeration. -/
def projModels (cls : List (List Lit)) (A : List Lit) (P : List Nat) (n : Nat) :
    Finset (List Bool) :=
  ((Finset.univ : Finset (Fin (n + 1) → Bool)).filter
    (fun f => clausesSat (truncAssign n f) cls = true ∧
      A.all (litSat (truncAssign n f)) = true)).image
    (fun f => P.map (truncAssign n f))

/-- Clause lists whose literal variables all lie in `[1, n]`. -/
def WS (n : Nat) (cls : List (List Lit)) : Prop :=
  ∀ cl ∈ cls, ∀ l ∈ cl, 1 ≤ l.var ∧ l.var ≤ n

/-- A total assignment agrees with a partial one on its assigned slots. -/
def agrees (τ : Nat → Bool) (a : List (Option Bool)) : Prop :=
  ∀ v b, a.getD v none = some b → τ v = b

/-- Completion of a partial assignment with `false` (the model the DPLL
returns). -/
def fill (a : List (Option Bool)) : Nat → Bool :=
  fun v => (a.getD v none).getD false

/-- Shape of the clauses the bounded enumeration adds through
`add_scoped_clause`: the negated activation literal of the session scope
followed by one literal per projection variable. -/
def ScopedBlocks (N : Nat) (P : List Nat) (B : List (List Lit)) : Prop :=
  ∀ cl ∈ B, ∃ g : Nat → Bool, cl = ⟨N, false⟩ :: P.map (fun v => Lit.mk v (g v))

/-- Extension of an assignment that activates the scope variable `M` and
deactivates a retired scope variable `w`. -/
def extAssign (M w : Nat) (τ : Nat → Bool) : Nat → Bool :=
  fun v => if v = M then true else if v = w then false else τ v

/-- Extension of an assignment that deactivates the scope variable `w`. -/
def dropAssign (w : Nat) (τ : Nat → Bool) : Nat → Bool :=
  fun v => if v = w then false else τ v

/-- Restriction of an assignment to the variables `[0, n]`. -/
def cutAssign (n : Nat) (τ : Nat → Bool) : Nat → Bool :=
  fun v => if v ≤ n then τ v else false

/-! ## Concrete instances used by witnesses and counterexamples -/

/-- The CNF `(x1 ∨ x2)` over two variables (the bounded-count test
formula). -/
def c2Cnf : Cnf := ⟨2, [[⟨1, true⟩, ⟨2, true⟩]]⟩

/-- A DPLL backend loaded with `c2Cnf`. -/
def c2State : DpllSolverBackend :=
  addClauses dpllOps (addNVars dpllOps DpllSolverBackend.new c2Cnf.num_vars)
    c2Cnf.clauses

/-- The post-state of the cap-2 session on `c2State`. -/
def c2Final : DpllSolverBackend :=
  ((projected_count_bounded_session dpllOps c2State [1, 2] 2 []).toOption.map
    Prod.snd).getD DpllSolverBackend.new

/-- A DPLL backend holding the unit clause `(x1)`. -/
def c10State : DpllSolverBackend := ⟨⟨1, [[⟨1, true⟩]]⟩, none, ⟨0, 0, 0⟩⟩

/-- A trivial PRNG oracle over the unit state: every `f64` draw is 0,
every range draw is 0, every bool draw is `false`. -/
def unitRng : RngOps Unit where
  init _ := ()
  next_f64 s := (0, s)
  next_range s _ := (0, s)
  next_bool s := (false, s)
  range_lt _ _ h := h

/-- A scripted PRNG oracle state: three finite streams of draws, consumed
front to back (defaults once exhausted). -/
structure ScriptState where
  fs : List ℚ
  rs : List Nat
  bs : List Bool
deriving Repr

/-- The scripted PRNG oracle: `g` maps each seed to its streams. -/
def scriptRng (g : Nat → ScriptState) : RngOps ScriptState where
  init := g
  next_f64 s := (s.fs.headD 0, ⟨s.fs.tail, s.rs, s.bs⟩)
  next_range s n := (s.rs.headD 0 % n, ⟨s.fs, s.rs.tail, s.bs⟩)
  next_bool s := (s.bs.headD false, ⟨s.fs, s.rs, s.bs.tail⟩)
  range_lt s n h := Nat.mod_lt _ h

/-- The claimed per-trial seed, written from the spec's words
(`seed ⊕ t`, bitwise exclusive or). -/
def claimedTrialSeed (seed t : Nat) : Nat := Nat.xor seed t

/-- The ramp sequence as the claim states it: `1, 2, 4, 8, ...` capped at
`N`, the final attempted value being `min (2 ^ k) N` (so `N` itself is
claimed to be attempted when the doubling overshoots it). -/
def claimedRampGo (N : Nat) : Nat → Nat → List Nat
  | 0, _ => []
  | fuel + 1, m => if m < N then m :: claimedRampGo N fuel (m * 2) else [N]

/-- The claimed attempted-`m` sequence for `N` projection variables. -/
def claimedRampSeq (N : Nat) : List Nat :=
  if N = 0 then [] else claimedRampGo N (N + 1) 1

/-- The ramp loop instrumented with a log of the attempted `m` values and
whether each attempt hit the cap; identical control flow to `rampLoop`
(src/count/hash_count.rs, lines 133-147), with the log as a ghost
accumulator (`rampLoopLog_eq` relates the two). -/
def rampLoopLog {σ : Type} (ops : SolverOps σ) (proj : List Nat) (pivot : Nat)
    (row_acts : List Lit) (max_m : Nat) :
    Nat → σ → Nat → Nat → Nat → List (Nat × Bool) →
    Except String (List (Nat × Bool) × Nat × Nat × σ)
  | 0, _, _, _, _, _ => .error "unreachable: ramp fuel exhausted"
  | fuel + 1, s, low, high, m, log =>
      if m ≤ max_m then do
        let (c, s) ← cell_count_with_prefix ops s proj pivot row_acts m
        if c.hit_cap then
          rampLoopLog ops proj pivot row_acts max_m fuel s m high
            (min (m * 2) (max_m + 1)) (log ++ [(m, true)])
        else .ok (log ++ [(m, false)], low, m, s)
      else .ok (log, low, high, s)

/-- An AIG computing the XOR of two copies of the same AND gate — a
constant-false circuit whose simplification drops both inputs, used to
exhibit input dropping in `simplify_output`. -/
def xorPairAig : Aig :=
  ⟨7, [1, 2], [⟨7, true⟩],
   [⟨3, ⟨1, false⟩, ⟨2, false⟩⟩,
    ⟨4, ⟨1, false⟩, ⟨2, false⟩⟩,
    ⟨5, ⟨3, false⟩, ⟨4, true⟩⟩,
    ⟨6, ⟨3, true⟩, ⟨4, false⟩⟩,
    ⟨7, ⟨5, true⟩, ⟨6, true⟩⟩]⟩

/-- The OR of two inputs as an AIG: gate `3 = AND(¬1, ¬2)`, output `¬3`. -/
def or2Aig : Aig := ⟨3, [1, 2], [⟨3, true⟩], [⟨3, ⟨1, true⟩, ⟨2, true⟩⟩]⟩

/-- The OR of three inputs as an AIG: `4 = AND(¬1, ¬2)`,
`5 = AND(4, ¬3)`, output `¬5`. -/
def or3Aig : Aig :=
  ⟨5, [1, 2, 3], [⟨5, true⟩],
    [⟨4, ⟨1, true⟩, ⟨2, true⟩⟩, ⟨5, ⟨4, false⟩, ⟨3, true⟩⟩]⟩

/-- Scripted oracle for the C6 zero-result run: both sampled rows are
`x1 = 1`, so every ramp attempt hits the cap and the trial records
`(0, 0)`. -/
def c6RngA : RngOps ScriptState :=
  scriptRng (fun _ => ⟨[0, 1, 0, 1], [], [true, true]⟩)

/-- Options for the C6 zero-result run: pivot 1, one trial, one repeat. -/
def c6OptsA : CountOptions := ⟨0, 1, 1, some 1, false, 1⟩

/-- Scripted oracle for the C6 above-`2 ^ N` run: the deck is
`x1 = 1, x2 = 1`; both repeat decks are `x1 = 1, x1 = 1`, whose cells hit
the cap with count `pivot + 1 = 2`, pushing the median cell to 2 and the
estimate to `2 * 2 ^ 2 = 8 > 2 ^ N = 4`. -/
def c6RngB : RngOps ScriptState :=
  scriptRng (fun _ =>
    ⟨[0, 1, 1, 0, 0, 1, 0, 1, 0, 1, 0, 1], [],
      [true, true, true, true, true, true]⟩)

/-- Options for the C6 above-`2 ^ N` run: pivot 1, one trial, three
repeats. -/
def c6OptsB : CountOptions := ⟨0, 1, 1, some 1, false, 3⟩

/-- Scripted oracle for the C7 ramp run on the 3-input OR: all three
sampled rows are `x1 = 1`, so the attempts `m = 1` and `m = 2` both hit
the cap and the doubling jumps past `m = 3`. -/
def c7Rng : RngOps ScriptState :=
  scriptRng (fun _ => ⟨[0, 1, 1, 0, 1, 1, 0, 1, 1], [], [true, true, true]⟩)

/-- Options for the C7 run: pivot 1, one trial, one repeat. -/
def c7Opts : CountOptions := ⟨0, 1, 1, some 1, false, 1⟩

/-- The Tseitin encoding of the simplified 3-input OR (before the output
unit clause is asserted). -/
def c7Enc0 : TseitinCnf :=
  ((or3Aig.simplify_output 0).bind encode_aig).toOption.getD ⟨Cnf.new 0, [], [], 0⟩

/-- The base CNF of the C7 run: encoding plus the asserted output unit. -/
def c7Cnf : Cnf := c7Enc0.cnf.add_clause [c7Enc0.output_lits.headD ⟨0, true⟩]

/-- The projection (simplified-circuit inputs) of the C7 run. -/
def c7Proj : List Nat := c7Enc0.input_vars

/-- The C7 solver loaded with the base CNF. -/
def c7Base : DpllSolverBackend :=
  addClauses dpllOps (addNVars dpllOps DpllSolverBackend.new c7Cnf.num_vars)
    c7Cnf.clauses

/-- The C7 solver after the driver's exact attempt (which hits the cap). -/
def c7AfterExact : DpllSolverBackend :=
  ((projected_count_bounded_session dpllOps c7Base c7Proj 1 []).toOption.map
    Prod.snd).getD DpllSolverBackend.new

/-- The three XOR rows the driver samples in trial 0 of the C7 run. -/
def c7Rows : List XorConstraint :=
  ((sample_constraints c7Rng c7Proj 3 (some 1)
    (c7Rng.init (trialSeed 0 0))).toOption.map Prod.fst).getD []

/-- The C7 solver and activation deck after adding the trial rows. -/
def c7RowState : DpllSolverBackend × List Lit :=
  add_trial_rows dpllOps c7AfterExact c7Rows

/-- The solver state after the C7 ramp run. -/
def c7RampFinal : DpllSolverBackend :=
  ((rampLoopLog dpllOps c7Proj 1 c7RowState.2 3 4 c7RowState.1 0 4 1
    []).toOption.map (fun r => r.2.2.2)).getD DpllSolverBackend.new

/-- The report of the second C6 run. -/
def c6ReportB : CountReport :=
  (count_output_with_options dpllOps DpllSolverBackend.new c6RngB or2Aig 0
    c6OptsB).toOption.getD
    ⟨0, 0, 0, 0, 0, 0, 0, .Exact, 0, "", 0⟩

/-- The post-state of one `solve` call on `c10State`. -/
def c10After : DpllSolverBackend :=
  ((DpllSolverBackend.solveImpl c10State []).toOption.map Prod.fst).getD
    DpllSolverBackend.new

/-- Canonical shape of a circuit produced by `restrict_to_output` after a
`rewrite_single_output` pass: inputs are `1..k`, gate ids are consecutively
`k+1..k+m` in list order with smaller-id fanins, one output within range, and
every gate has nonzero, distinct, `AndKey`-normalized fanins with pairwise
distinct structural keys. -/
def CanonAig (aig : Aig) (k m : Nat) (out : AigLit) : Prop :=
  aig.inputs = List.range' 1 k ∧
  aig.ands.map (fun g => g.id) = List.range' (k + 1) m ∧
  aig.max_id = k + m ∧
  (∀ g ∈ aig.ands, g.a.id < g.id ∧ g.b.id < g.id) ∧
  aig.outputs = [out] ∧ out.id ≤ k + m ∧
  (∀ g ∈ aig.ands, g.a.id ≠ 0 ∧ g.b.id ≠ 0 ∧ g.a.id ≠ g.b.id ∧
    AndKey.new g.a g.b = (g.a, g.b)) ∧
  aig.ands.Pairwise (fun g1 g2 => (g1.a, g1.b) ≠ (g2.a, g2.b))

/-- Reachability through the gate-fanin map: the nodes the `coi` DFS is
meant to visit starting from `root`. -/
inductive Reach (F : Nat → Option (AigLit × AigLit)) (root : Nat) : Nat → Prop
  | base : Reach F root root
  | fanin_a {m : Nat} {a b : AigLit} : Reach F root m → F m = some (a, b) →
      Reach F root a.id
  | fanin_b {m : Nat} {a b : AigLit} : Reach F root m → F m = some (a, b) →
      Reach F root b.id

/-! ## Verification layer: helper lemmas and claim theorems -/

theorem unmarkedCount_setMask_lt {maxId id : Nat} {m : Nat → Bool}
    (hid : id ≤ maxId) (hm : m id = false) :
    unmarkedCount maxId (setMask m id) < unmarkedCount maxId m := by
  apply Finset.card_lt_card
  have hsub : (Finset.range (maxId + 1)).filter (fun i => setMask m id i = false) ⊆
      (Finset.range (maxId + 1)).filter (fun i => m i = false) := by
    intro x hx
    simp only [Finset.mem_filter, Finset.mem_range, setMask] at hx ⊢
    rcases hx with ⟨hr, hv⟩
    refine ⟨hr, ?_⟩
    by_cases hxi : x = id
    · simp [hxi] at hv
    · simpa [hxi] using hv
  rw [Finset.ssubset_iff_of_subset hsub]
  refine ⟨id, ?_, ?_⟩
  · simp [Finset.mem_filter, Finset.mem_range, hm, Nat.lt_succ_of_le hid]
  · simp [Finset.mem_filter, setMask]

theorem countNone_set_le {a : List (Option Bool)} {v : Nat} {s : Bool} :
    countNone (a.set v (some s)) ≤ countNone a := by
  induction a generalizing v with
  | nil => simp [countNone]
  | cons x rest ih =>
      cases v with
      | zero => cases x <;> simp [countNone, List.countP_cons, List.set] <;> omega
      | succ v =>
          simp only [List.set, countNone, List.countP_cons] at *
          have := @ih v
          omega

theorem countNone_set_lt {a : List (Option Bool)} {v : Nat} {s : Bool}
    (hv : v < a.length) (hnone : a.getD v none = none) :
    countNone (a.set v (some s)) < countNone a := by
  induction a generalizing v with
  | nil => simp at hv
  | cons x rest ih =>
      cases v with
      | zero =>
          have hx : x = none := by simpa [List.getD] using hnone
          subst hx
          simp [countNone, List.countP_cons, List.set]
      | succ v =>
          simp only [List.length_cons, Nat.succ_lt_succ_iff] at hv
          have hn : rest.getD v none = none := by simpa [List.getD] using hnone
          have := ih hv hn
          simp only [List.set, countNone, List.countP_cons] at *
          omega

theorem upPass_spec {cls : List (List Lit)} {a : List (Option Bool)} {ch : Bool}
    {a' : List (Option Bool)} {ch' : Bool}
    (h : upPass cls a ch = .ok (some (a', ch'))) :
    countNone a' ≤ countNone a ∧
      (ch = false → ch' = true → countNone a' < countNone a) ∧
      a'.length = a.length := by
  induction cls generalizing a ch with
  | nil =>
      simp only [upPass, Except.ok.injEq, Option.some.injEq, Prod.mk.injEq] at h
      obtain ⟨rfl, rfl⟩ := h
      refine ⟨le_refl _, ?_, rfl⟩
      intro h1 h2
      simp [h1] at h2
  | cons c rest ih =>
      rw [upPass] at h
      rcases hsc : scanClause a c 0 ⟨0, true⟩ with ⟨oc, lo, ht⟩
      rw [hsc] at h
      dsimp only at h
      by_cases hht : ht = true
      · rw [if_pos hht] at h
        exact ih h
      · rw [if_neg hht] at h
        by_cases hoc : oc = 0
        · rw [if_pos hoc] at h; cases h
        · rw [if_neg hoc] at h
          by_cases hoc1 : oc = 1
          · rw [if_pos hoc1] at h
            by_cases hlen : a.length ≤ lo.var
            · rw [if_pos hlen] at h; cases h
            · rw [if_neg hlen] at h
              rcases hgd : a.getD lo.var none with _ | v
              · rw [hgd] at h
                dsimp only at h
                have hset := @countNone_set_lt a lo.var lo.sign (by omega) hgd
                obtain ⟨h1, _, h3⟩ := ih h
                refine ⟨by omega, fun _ _ => by omega, ?_⟩
                rw [h3, List.length_set]
              · rw [hgd] at h
                dsimp only at h
                by_cases hv : v ≠ lo.sign
                · rw [if_pos hv] at h; cases h
                · rw [if_neg hv] at h; exact ih h
          · rw [if_neg hoc1] at h
            exact ih h

theorem upFix_spec {fuel : Nat} {cnf : Cnf} {a a1 : List (Option Bool)}
    (h : upFix fuel cnf a = .ok (some a1)) :
    countNone a1 ≤ countNone a ∧ a1.length = a.length := by
  induction fuel generalizing a with
  | zero => cases h
  | succ fuel ih =>
      rw [upFix] at h
      rcases hp : upPass cnf.clauses a false with e | o
      · rw [hp] at h; cases h
      · rcases o with _ | ⟨a', changed⟩
        · rw [hp] at h; cases h
        · rw [hp] at h
          dsimp only at h
          obtain ⟨h1, h2, h3⟩ := upPass_spec hp
          by_cases hch : changed = true
          · rw [if_pos hch] at h
            obtain ⟨g1, g2⟩ := ih h
            exact ⟨by omega, by omega⟩
          · rw [if_neg hch] at h
            cases h
            exact ⟨h1, h3⟩

theorem unit_propagate_spec {cnf : Cnf} {a a1 : List (Option Bool)}
    (h : unit_propagate cnf a = .ok (some a1)) :
    countNone a1 ≤ countNone a ∧ a1.length = a.length :=
  upFix_spec h

theorem first_unassigned_spec {a : List (Option Bool)} {v : Nat}
    (h : first_unassigned a = some v) :
    1 ≤ v ∧ v < a.length ∧ a.getD v none = none := by
  have hmem := List.mem_of_find?_eq_some h
  have hpred := List.find?_some h
  rw [List.mem_range'_1] at hmem
  obtain ⟨h1, h2⟩ := hmem
  have hlt : v < a.length := by omega
  refine ⟨h1, hlt, ?_⟩
  rw [List.getD_eq_getElem?_getD] at hpred ⊢
  rcases hgv : a[v]? with _ | x
  · rw [hgv] at hpred; simp at hpred
  · rw [hgv] at hpred
    rcases x with _ | b
    · simp
    · simp at hpred

/-- Core bound on the enumeration loop: starting at a count not above the
cap, the returned count stays within `cap + 1` and the cap flag is exact. -/
theorem boundedLoop_bounds {σ : Type} {ops : SolverOps σ} {proj : List Nat}
    {cap : Nat} {base : List Lit} {scope : Scope} {fuel : Nat} {s s' : σ}
    {count : Nat} {bc : BoundedCount}
    (hrun : boundedLoop ops proj cap base scope fuel s count = .ok (bc, s'))
    (hcount : count ≤ cap) :
    bc.count ≤ cap + 1 ∧ (bc.hit_cap = true ↔ cap < bc.count) := by
  induction fuel generalizing s count with
  | zero => cases hrun
  | succ fuel ih =>
      rw [boundedLoop] at hrun
      simp only [bind, Except.bind] at hrun
      rcases hs : ops.solve s (base ++ [scope.act]) with e | ⟨s1, r⟩
      · rw [hs] at hrun; cases hrun
      · rw [hs] at hrun
        rcases r with _ | _
        · -- Sat
          dsimp only at hrun
          by_cases hcap : cap < count + 1
          · rw [if_pos hcap] at hrun
            cases hrun
            exact ⟨by simp; omega, by simp; omega⟩
          · rw [if_neg hcap] at hrun
            rcases hb : mkBlock ops s1 proj with e | block
            · rw [hb] at hrun; cases hrun
            · rw [hb] at hrun
              dsimp only at hrun
              exact ih hrun (by omega)
        · -- Unsat
          dsimp only at hrun
          cases hrun
          exact ⟨by simp; omega, by simp; omega⟩

/-- Session-level version of the bound. -/
theorem session_bounds {σ : Type} {ops : SolverOps σ} {s s' : σ}
    {proj : List Nat} {cap : Nat} {base : List Lit} {bc : BoundedCount}
    (hrun : projected_count_bounded_session ops s proj cap base = .ok (bc, s')) :
    bc.count ≤ cap + 1 ∧ (bc.hit_cap = true ↔ cap < bc.count) := by
  rw [projected_count_bounded_session] at hrun
  by_cases hz : proj.any (fun v => v = 0)
  · rw [if_pos hz] at hrun; cases hrun
  · rw [if_neg hz] at hrun
    exact boundedLoop_bounds hrun (Nat.zero_le _)

/-- C2.  For every solver state, projection list, cap `K`, and base
assumptions, when `projected_count_bounded_session` returns
`Ok (count, hit_cap)`, the count is at most `K + 1` and `hit_cap` holds
exactly when the count exceeds `K`. -/
theorem c2_bounded_count_bounds {σ : Type} (ops : SolverOps σ) (s s' : σ)
    (proj : List Nat) (K : Nat) (base : List Lit) (bc : BoundedCount)
    (hrun : projected_count_bounded_session ops s proj K base = .ok (bc, s')) :
    bc.count ≤ K + 1 ∧ (bc.hit_cap = true ↔ K < bc.count) :=
  session_bounds hrun

/-- C2 witness: a concrete run of the session on the reference DPLL
backend loaded with the clause `(x1 ∨ x2)`, projected on `{1, 2}` with
cap 2: three projected models exist, so the count is 3 and the cap is
hit. -/
theorem c2_bounded_count_bounds_witness :
    (⟨3, true⟩ : BoundedCount).count ≤ 2 + 1 ∧
      ((⟨3, true⟩ : BoundedCount).hit_cap = true ↔ 2 < (⟨3, true⟩ : BoundedCount).count) :=
  c2_bounded_count_bounds dpllOps c2State c2Final [1, 2] 2 [] ⟨3, true⟩ (by rfl)

/-- C10.  The reference DPLL backend's `solve` never modifies the stored
base formula: the clause list and variable count after the call are
exactly those before it (assumptions go only into the private working
copy), and the statistics change only by bumping `solve_calls`; besides
those, only the last-model slot is updated. -/
theorem c10_dpll_solve_frame (s : DpllSolverBackend) (assumptions : List Lit)
    (s' : DpllSolverBackend) (r : SolveResult)
    (h : DpllSolverBackend.solveImpl s assumptions = .ok (s', r)) :
    s'.cnf = s.cnf ∧
      s'.stats = ⟨s.stats.solve_calls + 1, s.stats.decisions, s.stats.conflicts⟩ ∧
      ∃ lm, s' = ⟨s.cnf, lm,
        ⟨s.stats.solve_calls + 1, s.stats.decisions, s.stats.conflicts⟩⟩ := by
  rw [DpllSolverBackend.solveImpl] at h
  simp only [bind, Except.bind] at h
  rcases hm : Dpll.solve_model (assumptions.foldl (fun w a => w.add_clause [a]) s.cnf)
    with e | lm
  · rw [hm] at h; cases h
  · rw [hm] at h
    dsimp only at h
    cases h
    exact ⟨rfl, rfl, lm, rfl⟩

/-- C10 witness: one concrete `solve` call on a backend holding the unit
clause `(x1)`. -/
theorem c10_dpll_solve_frame_witness :
    c10After.cnf = c10State.cnf ∧
      c10After.stats = ⟨c10State.stats.solve_calls + 1, c10State.stats.decisions,
        c10State.stats.conflicts⟩ ∧
      ∃ lm, c10After = ⟨c10State.cnf, lm,
        ⟨c10State.stats.solve_calls + 1, c10State.stats.decisions,
          c10State.stats.conflicts⟩⟩ :=
  c10_dpll_solve_frame c10State [] c10After .Sat (by rfl)

/-! ### Sorting and deduplication lemmas -/

theorem insertLe_perm {α : Type} (le : α → α → Bool) (x : α) (l : List α) :
    List.Perm (insertLe le x l) (x :: l) := by
  induction l with
  | nil => simp [insertLe]
  | cons y rest ih =>
      rw [insertLe]
      by_cases hle : le y x = true
      · rw [if_pos hle]
        exact ((ih.cons y).trans (List.Perm.swap x y rest))
      · rw [if_neg hle]

theorem stableSortBy_perm {α : Type} (le : α → α → Bool) (l : List α) :
    List.Perm (stableSortBy le l) l := by
  have H : ∀ l acc, List.Perm (l.foldl (fun acc x => insertLe le x acc) acc)
      (acc ++ l) := by
    intro l
    induction l with
    | nil => simp
    | cons x rest ih =>
        intro acc
        rw [List.foldl_cons]
        refine (ih (insertLe le x acc)).trans ?_
        exact ((insertLe_perm le x acc).append_right rest).trans List.perm_middle.symm
  simpa [stableSortBy] using H l []

theorem mem_insertLe {α : Type} {le : α → α → Bool} {x z : α} {l : List α} :
    z ∈ insertLe le x l ↔ z = x ∨ z ∈ l := by
  rw [(insertLe_perm le x l).mem_iff]
  simp

theorem insertLe_sorted_nat {x : Nat} {l : List Nat}
    (hs : l.Pairwise (· ≤ ·)) :
    (insertLe (fun a b => decide (a ≤ b)) x l).Pairwise (· ≤ ·) := by
  induction l with
  | nil => simp [insertLe]
  | cons y rest ih =>
      rw [insertLe]
      rcases List.pairwise_cons.mp hs with ⟨hy, hrest⟩
      by_cases hle : (fun a b : Nat => decide (a ≤ b)) y x = true
      · rw [if_pos hle]
        refine List.pairwise_cons.mpr ⟨?_, ih hrest⟩
        intro z hz
        rcases mem_insertLe.mp hz with rfl | hz'
        · exact of_decide_eq_true hle
        · exact hy z hz'
      · rw [if_neg hle]
        simp only [decide_eq_true_eq] at hle
        refine List.pairwise_cons.mpr ⟨?_, hs⟩
        intro z hz
        rcases List.mem_cons.mp hz with rfl | hz'
        · omega
        · exact le_trans (by omega) (hy z hz')

theorem rustSort_sorted (l : List Nat) : (rustSort l).Pairwise (· ≤ ·) := by
  have H : ∀ (l acc : List Nat), acc.Pairwise (· ≤ ·) →
      (l.foldl (fun acc x => insertLe (fun a b => decide (a ≤ b)) x acc)
        acc).Pairwise (· ≤ ·) := by
    intro l
    induction l with
    | nil => intro acc h; simpa using h
    | cons x rest ih =>
        intro acc h
        rw [List.foldl_cons]
        exact ih _ (insertLe_sorted_nat h)
  simpa [rustSort, stableSortBy] using H l [] (by simp)

theorem rustSort_perm (l : List Nat) : List.Perm (rustSort l) l :=
  stableSortBy_perm _ l

theorem dedupAdj_subset {l : List Nat} : ∀ {a}, a ∈ dedupAdj l → a ∈ l := by
  induction l with
  | nil => intro a h; simpa [dedupAdj] using h
  | cons x rest ih =>
      intro a h
      match rest, h with
      | [], h => simpa [dedupAdj] using h
      | y :: rest', h =>
          rw [dedupAdj] at h
          split at h
          · exact List.mem_cons_of_mem _ (ih h)
          · rcases List.mem_cons.mp h with rfl | h'
            · exact List.mem_cons_self _ _
            · exact List.mem_cons_of_mem _ (ih h')

theorem dedupAdj_ne_nil {l : List Nat} (h : l ≠ []) : dedupAdj l ≠ [] := by
  match l with
  | [] => exact absurd rfl h
  | [x] => simp [dedupAdj]
  | x :: y :: rest =>
      rw [dedupAdj]
      split
      · exact dedupAdj_ne_nil (by simp)
      · simp

theorem dedupAdj_strict_sorted {l : List Nat} (hs : l.Pairwise (· ≤ ·)) :
    (dedupAdj l).Pairwise (· < ·) := by
  match l with
  | [] => simpa [dedupAdj]
  | [x] => simp [dedupAdj]
  | x :: y :: rest =>
      rcases List.pairwise_cons.mp hs with ⟨hx, hrest⟩
      rw [dedupAdj]
      split
      · exact dedupAdj_strict_sorted hrest
      · rename_i hxy
        refine List.pairwise_cons.mpr ⟨?_, dedupAdj_strict_sorted hrest⟩
        intro z hz
        have hzmem := dedupAdj_subset hz
        rcases List.mem_cons.mp hzmem with rfl | hz'
        · have := hx z (List.mem_cons_self _ _); omega
        · have h1 := hx y (List.mem_cons_self _ _)
          have h2 := (List.pairwise_cons.mp hrest).1 z hz'
          omega

/-! ### Claim C8: the sparse XOR sampler -/

theorem sampleRow_subset {ρ : Type} {R : RngOps ρ} {p : F64} :
    ∀ {vs : List Nat} {rng : ρ} {v : Nat},
      v ∈ (sampleRow R p vs rng).1 → v ∈ vs := by
  intro vs
  induction vs with
  | nil => intro rng v h; simpa [sampleRow] using h
  | cons x rest ih =>
      intro rng v h
      rw [sampleRow] at h
      dsimp only at h
      split at h
      · rcases List.mem_cons.mp h with rfl | h'
        · exact List.mem_cons_self _ _
        · exact List.mem_cons_of_mem _ (ih h')
      · exact List.mem_cons_of_mem _ (ih h)

/-- Shape of every row produced by the sampling loop: non-empty, strictly
sorted (hence duplicate-free), and drawn from `vars`. -/
theorem sampleLoop_rows_spec {ρ : Type} (R : RngOps ρ) (vars : List Nat)
    (p : F64) (hv : vars ≠ []) :
    ∀ (m : Nat) (rng : ρ), ∀ c ∈ (sampleLoop R vars p m rng).1,
      c.vars ≠ [] ∧ c.vars.Pairwise (· < ·) ∧ ∀ v ∈ c.vars, v ∈ vars := by
  intro m
  induction m with
  | zero => intro rng c hc; simp [sampleLoop] at hc
  | succ m ih =>
      intro rng c hc
      rw [sampleLoop] at hc
      dsimp only at hc
      rcases List.mem_cons.mp hc with rfl | hrest
      · -- the freshly produced row
        set picked0 := (sampleRow R p vars rng).1 with hp0
        have hbase : ∀ base : List Nat, base ≠ [] → (∀ v ∈ base, v ∈ vars) →
            dedupAdj (rustSort base) ≠ [] ∧
              (dedupAdj (rustSort base)).Pairwise (· < ·) ∧
              ∀ v ∈ dedupAdj (rustSort base), v ∈ vars := by
          intro base hne hsub
          have hperm := rustSort_perm base
          have hsne : rustSort base ≠ [] := by
            intro hnil
            have := hperm.length_eq
            rw [hnil] at this
            cases base with
            | nil => exact hne rfl
            | cons a l => simp at this
          refine ⟨dedupAdj_ne_nil hsne, dedupAdj_strict_sorted (rustSort_sorted base), ?_⟩
          intro v hvmem
          exact hsub v (hperm.mem_iff.mp (dedupAdj_subset hvmem))
        dsimp only
        split
        · -- empty picked set: fallback to one uniformly chosen variable
          have hlen : 0 < vars.length := by
            cases vars with
            | nil => exact absurd rfl hv
            | cons a l => simp
          have hidx := R.range_lt (sampleRow R p vars rng).2 vars.length hlen
          have hmem : vars.getD ((R.next_range (sampleRow R p vars rng).2
              vars.length).1) 0 ∈ vars := by
            rw [List.getD_eq_getElem?_getD, List.getElem?_eq_getElem hidx]
            exact List.getElem_mem hidx
          have := hbase [vars.getD ((R.next_range (sampleRow R p vars rng).2
              vars.length).1) 0] (by simp) (by simpa using hmem)
          simpa using this
        · -- non-empty picked set
          rename_i hemp
          have := hbase picked0 hemp (fun v hv' => sampleRow_subset hv')
          simpa using this
      · exact ih _ c hrest

/-- The error behaviour of `sample_constraints` on a non-empty variable
list: an error occurs exactly when the sparsity is NaN or outside
`(0, 1]`. -/
theorem sample_constraints_error_iff {ρ : Type} (R : RngOps ρ) (vars : List Nat)
    (m : Nat) (p : F64) (rng : ρ) (hv : vars ≠ []) :
    (∃ e, sample_constraints R vars m p rng = .error e) ↔
      (p = none ∨ ∃ q : ℚ, p = some q ∧ (q ≤ 0 ∨ 1 < q)) := by
  rw [sample_constraints, if_neg hv]
  rcases p with _ | q
  · rw [if_pos (by simp [f64_gt])]
    exact ⟨fun _ => Or.inl rfl, fun _ => ⟨_, rfl⟩⟩
  · by_cases hin : 0 < q ∧ q ≤ 1
    · rw [if_neg (by simp [f64_gt, f64_le, hin.1, hin.2])]
      constructor
      · rintro ⟨e, he⟩; cases he
      · rintro (h | ⟨q', hq', hr⟩)
        · cases h
        · injection hq' with hqq
          subst hqq
          rcases hr with h | h
          · exact absurd hin.1 (by linarith)
          · exact absurd hin.2 (by linarith)
    · rw [if_pos (by
        simp [f64_gt, f64_le]
        by_contra h
        push_neg at h
        exact hin ⟨h.1, h.2⟩)]
      constructor
      · intro _
        refine Or.inr ⟨q, rfl, ?_⟩
        by_cases h0 : 0 < q
        · refine Or.inr ?_
          by_contra h
          push_neg at h
          exact hin ⟨h0, h⟩
        · exact Or.inl (by linarith)
      · intro _
        exact ⟨_, rfl⟩

/-- C8 counterexample.  The claim says `sample_constraints` errors
whenever `p` lies outside `(0, 1]`, for every `vars` list; but the code
checks `vars.is_empty()` first, so `vars = []` with `p = 2` succeeds with
an empty row list even though `p = 2 > 1` is out of range. -/
theorem c8_sample_constraints_counterexample :
    sample_constraints unitRng [] 1 (some 2) () = .ok ([], ()) ∧
      ∃ q : ℚ, (some 2 : F64) = some q ∧ (q ≤ 0 ∨ 1 < q) := by
  refine ⟨rfl, 2, rfl, Or.inr (by norm_num)⟩

/-- C8 as amended: restricted to a non-empty `vars` list the claim holds:
the call errors exactly when the sparsity is outside `(0, 1]` (or NaN),
and on success every returned constraint has a non-empty, strictly
sorted, duplicate-free variable list drawn from `vars`; when `vars` is
empty the call succeeds with no constraints for every sparsity. -/
theorem c8_sample_constraints_amended {ρ : Type} (R : RngOps ρ) (vars : List Nat)
    (m : Nat) (p : F64) (rng : ρ) (hv : vars ≠ []) :
    ((∃ e, sample_constraints R vars m p rng = .error e) ↔
      (p = none ∨ ∃ q : ℚ, p = some q ∧ (q ≤ 0 ∨ 1 < q))) ∧
    (∀ rows rng', sample_constraints R vars m p rng = .ok (rows, rng') →
      ∀ c ∈ rows, c.vars ≠ [] ∧ c.vars.Pairwise (· < ·) ∧
        ∀ v ∈ c.vars, v ∈ vars) := by
  refine ⟨sample_constraints_error_iff R vars m p rng hv, ?_⟩
  intro rows rng' hok c hc
  rw [sample_constraints, if_neg hv] at hok
  split at hok
  · cases hok
  · injection hok with hpair
    have hrows : rows = (sampleLoop R vars p m rng).1 := by rw [hpair]
    subst hrows
    exact sampleLoop_rows_spec R vars p hv m rng c hc

/-- C8 witness: sampling two rows over `{1, 2}` with `p = 1` under the
trivial oracle; both error-free with well-formed rows. -/
theorem c8_sample_constraints_amended_witness :
    ¬((some 1 : F64) = none ∨ ∃ q : ℚ, (some 1 : F64) = some q ∧ (q ≤ 0 ∨ 1 < q)) ∧
      ∀ c ∈ ([⟨[1, 2], false⟩, ⟨[1, 2], false⟩] : List XorConstraint),
        c.vars ≠ [] ∧ c.vars.Pairwise (· < ·) ∧ ∀ v ∈ c.vars, v ∈ [1, 2] := by
  have h := c8_sample_constraints_amended unitRng [1, 2] 2 (some 1) () (by simp)
  refine ⟨?_, ?_⟩
  · intro hcontra
    have := h.1.mpr hcontra
    rcases this with ⟨e, he⟩
    rw [show sample_constraints unitRng [1, 2] 2 (some 1) () =
      .ok ([⟨[1, 2], false⟩, ⟨[1, 2], false⟩], ()) from rfl] at he
    cases he
  · exact h.2 [⟨[1, 2], false⟩, ⟨[1, 2], false⟩] () rfl

/-! ### Claim C5: the per-trial PRNG seed -/

/-- C5 counterexample.  The driver's per-trial seed expression
(`trialSeed`, the embedding of `opts.seed.wrapping_add(t as u64)` at
src/count/hash_count.rs line 128) differs from the claimed `seed ⊕ t` at
`seed = 1, t = 1`: wrapping addition yields 2, exclusive or yields 0. -/
theorem c5_trial_seed_counterexample :
    trialSeed 1 1 = 2 ∧ claimedTrialSeed 1 1 = 0 ∧
      trialSeed 1 1 ≠ claimedTrialSeed 1 1 := by
  refine ⟨rfl, rfl, by decide⟩

/-- C5 as amended: trial `t` seeds its PRNG from `seed + t` with `u64`
wrapping addition (not exclusive or); without wrap-around this is plain
addition, and consecutive trials use consecutive seeds. -/
theorem c5_trial_seed_amended (seed t : Nat) :
    trialSeed seed t = (seed + t) % 2 ^ 64 ∧
      (seed + t < 2 ^ 64 → trialSeed seed t = seed + t) ∧
      trialSeed seed (t + 1) = (trialSeed seed t + 1) % 2 ^ 64 := by
  refine ⟨rfl, fun h => Nat.mod_eq_of_lt h, ?_⟩
  simp only [trialSeed]
  omega

/-- C5 witness: at `seed = 2, t = 3` the trial seed is 5. -/
theorem c5_trial_seed_amended_witness : trialSeed 2 3 = 5 :=
  (c5_trial_seed_amended 2 3).2.1 (by norm_num)

/-! ### Claim C7: the ramp stage -/

/-- Forgetting the ghost log of `rampLoopLog` gives back the driver's
`rampLoop`. -/
theorem rampLoopLog_eq {σ : Type} (ops : SolverOps σ) (proj : List Nat)
    (pivot : Nat) (acts : List Lit) (max_m : Nat) :
    ∀ (fuel : Nat) (s : σ) (low high m : Nat) (log : List (Nat × Bool)),
      rampLoop ops proj pivot acts max_m fuel s low high m =
        (rampLoopLog ops proj pivot acts max_m fuel s low high m log).map
          (fun r => r.2) := by
  intro fuel
  induction fuel with
  | zero => intro s low high m log; rfl
  | succ fuel ih =>
      intro s low high m log
      rw [rampLoop, rampLoopLog]
      by_cases hm : m ≤ max_m
      · rw [if_pos hm, if_pos hm]
        simp only [bind, Except.bind]
        rcases cell_count_with_prefix ops s proj pivot acts m with e | ⟨c, s1⟩
        · rfl
        · dsimp only
          by_cases hc : c.hit_cap = true
          · rw [if_pos hc, if_pos hc]
            exact ih _ _ _ _ _
          · rw [if_neg hc, if_neg hc]
            rfl
      · rw [if_neg hm, if_neg hm]
        rfl

/-- Invariant of the logged ramp: the log holds powers of two not above
`max_m` (all hit-cap except possibly the last), the final `high` equals
`max_m + 1` exactly when every attempt hit the cap, and in that case
every power of two up to `max_m` was attempted. -/
theorem rampLoopLog_invariant {σ : Type} {ops : SolverOps σ} {proj : List Nat}
    {pivot : Nat} {acts : List Lit} {max_m : Nat} :
    ∀ {fuel : Nat} {s : σ} {low m : Nat} {log0 log : List (Nat × Bool)}
      {low' high' : Nat} {s' : σ},
      rampLoopLog ops proj pivot acts max_m fuel s low (max_m + 1) m log0 =
        .ok (log, low', high', s') →
      ((∃ j, m = 2 ^ j) ∨ max_m < m) →
      (∀ e ∈ log0, (∃ k, e.1 = 2 ^ k) ∧ e.1 ≤ max_m ∧ e.2 = true) →
      (∀ k, 2 ^ k < m → 2 ^ k ≤ max_m → (2 ^ k, true) ∈ log0) →
      ((∀ e ∈ log, (∃ k, e.1 = 2 ^ k) ∧ e.1 ≤ max_m) ∧
        (high' = max_m + 1 ↔ ∀ e ∈ log, e.2 = true) ∧
        (high' = max_m + 1 → ∀ k, 2 ^ k ≤ max_m → (2 ^ k, true) ∈ log)) := by
  intro fuel
  induction fuel with
  | zero => intro s low m log0 log low' high' s' hrun; cases hrun
  | succ fuel ih =>
      intro s low m log0 log low' high' s' hrun hpow hlog0 hcomplete
      rw [rampLoopLog] at hrun
      by_cases hm : m ≤ max_m
      · rw [if_pos hm] at hrun
        have hj : ∃ j, m = 2 ^ j := by
          rcases hpow with h | h
          · exact h
          · omega
        obtain ⟨j, rfl⟩ := hj
        simp only [bind, Except.bind] at hrun
        rcases hcell : cell_count_with_prefix ops s proj pivot acts (2 ^ j)
          with e | ⟨c, s1⟩
        · rw [hcell] at hrun; cases hrun
        · rw [hcell] at hrun
          dsimp only at hrun
          by_cases hc : c.hit_cap = true
          · rw [if_pos hc] at hrun
            refine ih hrun ?_ ?_ ?_
            · by_cases hup : 2 ^ j * 2 ≤ max_m + 1
              · exact Or.inl ⟨j + 1, by rw [min_eq_left hup, pow_succ]⟩
              · refine Or.inr ?_
                rw [min_eq_right (by omega)]
                omega
            · intro e he
              rcases List.mem_append.mp he with h | h
              · exact hlog0 e h
              · rcases List.mem_singleton.mp h with rfl
                exact ⟨⟨j, rfl⟩, hm, rfl⟩
            · intro k hk hkm
              have hk2 : 2 ^ k < 2 ^ (j + 1) := by
                calc 2 ^ k < min (2 ^ j * 2) (max_m + 1) := hk
                  _ ≤ 2 ^ j * 2 := min_le_left _ _
                  _ = 2 ^ (j + 1) := (pow_succ 2 j).symm
              have hkj : k ≤ j := by
                have := (Nat.pow_lt_pow_iff_right (by omega : 1 < 2)).mp hk2
                omega
              rcases Nat.lt_or_ge k j with hlt | hge
              · exact List.mem_append.mpr (Or.inl (hcomplete k
                  (by exact Nat.pow_lt_pow_right (by omega) hlt) hkm))
              · have : k = j := by omega
                subst this
                exact List.mem_append.mpr (Or.inr (List.mem_singleton.mpr rfl))
          · rw [if_neg hc] at hrun
            cases hrun
            refine ⟨?_, ?_, ?_⟩
            · intro e he
              rcases List.mem_append.mp he with h | h
              · exact ⟨(hlog0 e h).1, (hlog0 e h).2.1⟩
              · rcases List.mem_singleton.mp h with rfl
                exact ⟨⟨j, rfl⟩, hm⟩
            · constructor
              · intro h; omega
              · intro hall
                have := hall (2 ^ j, false)
                  (List.mem_append.mpr (Or.inr (List.mem_singleton.mpr rfl)))
                simp at this
            · intro h; omega
      · rw [if_neg hm] at hrun
        cases hrun
        refine ⟨?_, ?_, ?_⟩
        · intro e he
          exact ⟨(hlog0 e he).1, (hlog0 e he).2.1⟩
        · exact ⟨fun _ e he => (hlog0 e he).2.2, fun _ => rfl⟩
        · intro _ k hkm
          exact hcomplete k (by omega) hkm

/-- C7 counterexample.  On the 3-input OR with pivot 1 and a row deck of
three `x1 = 1` rows, the ramp attempts only `m = 1` and `m = 2` — the
doubling clips to `max_m + 1 = 4` and the loop exits without ever
attempting `m = N = 3` — records the trial as `(0, 0)`, and the driver
reports a Hash result of 0.  The claim's attempted sequence for `N = 3`
is `1, 2, min(4, 3) = 3`, which differs. -/
theorem c7_ramp_counterexample :
    ((rampLoopLog dpllOps c7Proj 1 c7RowState.2 3 4 c7RowState.1 0 4 1
      []).toOption.map (fun r => (r.1.map Prod.fst, r.2.2.1))) =
        some ([1, 2], 4) ∧
      claimedRampSeq 3 = [1, 2, 3] ∧
      ([1, 2] : List Nat) ≠ [1, 2, 3] ∧
      (count_output_with_options dpllOps DpllSolverBackend.new c7Rng or3Aig 0
        c7Opts).toOption.map (fun r => (r.mode, r.result, r.m_used, r.inputs_coi)) =
        some (.Hash, 0, 0, 3) :=
  ⟨by rfl, by rfl, by decide, by rfl⟩

/-- C7 as amended: starting from `m = 1`, every ramp attempt is a power of
two not exceeding `N = max_m` (so `N` itself is attempted only when it is
a power of two; when the doubling overshoots, the ramp ends without
attempting `N`), and the ramp exhausts — the path that records the trial
as `(0, 0)` — exactly when every attempted power of two hit the cap, in
which case every power of two up to `N` was attempted. -/
theorem c7_ramp_amended {σ : Type} (ops : SolverOps σ) (proj : List Nat)
    (pivot : Nat) (acts : List Lit) (max_m fuel : Nat) (s s' : σ)
    (log : List (Nat × Bool)) (low' high' : Nat)
    (hrun : rampLoopLog ops proj pivot acts max_m fuel s 0 (max_m + 1) 1 [] =
      .ok (log, low', high', s')) :
    (∀ e ∈ log, (∃ k, e.1 = 2 ^ k) ∧ e.1 ≤ max_m) ∧
      (high' = max_m + 1 ↔ ∀ e ∈ log, e.2 = true) ∧
      (high' = max_m + 1 → ∀ k, 2 ^ k ≤ max_m → (2 ^ k, true) ∈ log) := by
  refine rampLoopLog_invariant hrun (Or.inl ⟨0, rfl⟩) ?_ ?_
  · intro e he; cases he
  · intro k hk hkm
    exact absurd hk (by have := Nat.one_le_two_pow (n := k); omega)

/-- C7 witness: the amended characterization applied to the concrete C7
ramp run (attempts `[(1, hit), (2, hit)]`, high `4 = max_m + 1`). -/
theorem c7_ramp_amended_witness :
    (∀ e ∈ [((1 : Nat), true), (2, true)], (∃ k, e.1 = 2 ^ k) ∧ e.1 ≤ 3) ∧
      ((4 : Nat) = 3 + 1 ↔ ∀ e ∈ [((1 : Nat), true), (2, true)], e.2 = true) ∧
      ((4 : Nat) = 3 + 1 → ∀ k, 2 ^ k ≤ 3 → ((2 : Nat) ^ k, true) ∈
        [((1 : Nat), true), (2, true)]) :=
  c7_ramp_amended dpllOps c7Proj 1 c7RowState.2 3 4 c7RowState.1 c7RampFinal
    [(1, true), (2, true)] 2 4 (by rfl)

/-! ### Claim C6: range of a Hash-mode result -/

theorem encode_aig_input_vars {aig : Aig} {enc : TseitinCnf}
    (h : encode_aig aig = .ok enc) : enc.input_vars = aig.inputs := by
  rw [encode_aig] at h
  simp only [bind, Except.bind] at h
  split at h
  · cases h
  · rcases h1 : tseitinCheckInputs aig.max_id aig.inputs with e | u
    all_goals rw [h1] at h
    · cases h
    · rcases h2 : tseitinAnds aig.max_id (aig.max_id + 1) aig.ands
        ((Cnf.new (aig.max_id + 1)).add_clause [⟨aig.max_id + 1, false⟩]) with e | cnf
      all_goals rw [h2] at h
      · cases h
      · rcases h3 : tseitinOuts aig.max_id (aig.max_id + 1) aig.outputs with e | outs
        all_goals rw [h3] at h
        · cases h
        · cases h
          rfl

theorem cell_count_bounds {σ : Type} {ops : SolverOps σ} {s s' : σ}
    {proj : List Nat} {pivot : Nat} {acts : List Lit} {m : Nat}
    {c : BoundedCount}
    (h : cell_count_with_prefix ops s proj pivot acts m = .ok (c, s')) :
    c.count ≤ pivot + 1 ∧ (c.hit_cap = true ↔ pivot < c.count) :=
  session_bounds h

/-- The ramp's returned `high` either keeps its initial value or is an
attempted `m ≤ max_m`. -/
theorem rampLoop_high {σ : Type} {ops : SolverOps σ} {proj : List Nat}
    {pivot : Nat} {acts : List Lit} {max_m : Nat} :
    ∀ {fuel : Nat} {s s' : σ} {low high m low' high' : Nat},
      rampLoop ops proj pivot acts max_m fuel s low high m =
        .ok (low', high', s') →
      high' = high ∨ high' ≤ max_m := by
  intro fuel
  induction fuel with
  | zero => intro s s' low high m low' high' h; cases h
  | succ fuel ih =>
      intro s s' low high m low' high' h
      rw [rampLoop] at h
      by_cases hm : m ≤ max_m
      · rw [if_pos hm] at h
        simp only [bind, Except.bind] at h
        rcases hcell : cell_count_with_prefix ops s proj pivot acts m with e | ⟨c, s1⟩
        all_goals rw [hcell] at h
        · cases h
        · dsimp only at h
          by_cases hc : c.hit_cap = true
          · rw [if_pos hc] at h
            exact ih h
          · rw [if_neg hc] at h
            cases h
            exact Or.inr hm
      · rw [if_neg hm] at h
        cases h
        exact Or.inl rfl

/-- The binary search either keeps the incoming candidate or picks an
attempted midpoint `m ≤ hi` whose cell was a genuine (not-capped) count
within the pivot. -/
theorem binLoop_chosen {σ : Type} {ops : SolverOps σ} {proj : List Nat}
    {pivot : Nat} {acts : List Lit} :
    ∀ {fuel : Nat} {s s' : σ} {lo hi : Nat}
      {chosen chosen' : Option (Nat × BoundedCount)},
      binLoop ops proj pivot acts fuel s lo hi chosen = .ok (chosen', s') →
      chosen' = chosen ∨ ∃ m c, chosen' = some (m, c) ∧ m ≤ hi ∧
        c.count ≤ pivot + 1 := by
  intro fuel
  induction fuel with
  | zero => intro s s' lo hi chosen chosen' h; cases h
  | succ fuel ih =>
      intro s s' lo hi chosen chosen' h
      rw [binLoop] at h
      by_cases hlh : lo ≤ hi
      · rw [if_pos hlh] at h
        simp only [bind, Except.bind] at h
        rcases hcell : cell_count_with_prefix ops s proj pivot acts ((lo + hi) / 2)
          with e | ⟨c, s1⟩
        · rw [hcell] at h; cases h
        · rw [hcell] at h
          dsimp only at h
          have hmid : (lo + hi) / 2 ≤ hi := Nat.div_le_of_le_mul (by omega)
          have hcount := (cell_count_bounds hcell).1
          by_cases hc : c.hit_cap = true
          · rw [if_pos hc] at h
            exact ih h
          · rw [if_neg hc] at h
            by_cases h0 : c.count = 0
            · rw [if_pos h0] at h
              by_cases hz : (lo + hi) / 2 = 0
              · rw [if_pos hz] at h
                cases h
                exact Or.inl rfl
              · rw [if_neg hz] at h
                rcases ih h with h' | ⟨m', c', hm', hle, hb⟩
                · exact Or.inl h'
                · exact Or.inr ⟨m', c', hm', by omega, hb⟩
            · rw [if_neg h0] at h
              by_cases hz : (lo + hi) / 2 = 0
              · rw [if_pos hz] at h
                cases h
                exact Or.inr ⟨_, _, rfl, hmid, hcount⟩
              · rw [if_neg hz] at h
                rcases ih h with h' | ⟨m', c', hm', hle, hb⟩
                · exact Or.inr ⟨_, _, h', hmid, hcount⟩
                · exact Or.inr ⟨m', c', hm', by omega, hb⟩
      · rw [if_neg hlh] at h
        cases h
        exact Or.inl rfl

/-- Every cell count produced by the repeats loop is within `pivot + 1`,
and the incoming cells are preserved as a prefix. -/
theorem repLoop_cells {σ ρ : Type} {ops : SolverOps σ} {R : RngOps ρ}
    {proj : List Nat} {pivot : Nat} {p : F64} {m_pick : Nat} :
    ∀ {n : Nat} {s : σ} {rng : ρ} {cells0 cells : List Nat} {s' : σ} {rng' : ρ},
      repLoop ops R proj pivot p m_pick n s rng cells0 = .ok (cells, s', rng') →
      (∀ x ∈ cells0, x ≤ pivot + 1) →
      (∀ x ∈ cells, x ≤ pivot + 1) ∧ cells0.length ≤ cells.length := by
  intro n
  induction n with
  | zero =>
      intro s rng cells0 cells s' rng' h h0
      rw [repLoop] at h
      cases h
      exact ⟨h0, le_refl _⟩
  | succ n ih =>
      intro s rng cells0 cells s' rng' h h0
      rw [repLoop] at h
      simp only [bind, Except.bind] at h
      rcases hsamp : sample_constraints R proj m_pick p rng with e | ⟨rows, rng1⟩
      all_goals rw [hsamp] at h
      · cases h
      · dsimp only at h
        rcases hcell : cell_count_with_prefix ops
          (add_trial_rows ops s rows).1 proj pivot
          (add_trial_rows ops s rows).2 m_pick with e | ⟨c, s1⟩
        · rw [hcell] at h; cases h
        · rw [hcell] at h
          dsimp only at h
          have hb := (cell_count_bounds hcell).1
          have := ih h (by
            intro x hx
            rcases List.mem_append.mp hx with hx' | hx'
            · exact h0 x hx'
            · rcases List.mem_singleton.mp hx' with rfl
              exact hb)
          refine ⟨this.1, ?_⟩
          have := this.2
          simp only [List.length_append, List.length_singleton] at this
          omega

/-- Membership of the sorted-list median in the original list. -/
theorem stableSortBy_getD_mem {α : Type} (le : α → α → Bool) (l : List α)
    (d : α) (i : Nat) (h : i < l.length) :
    (stableSortBy le l).getD i d ∈ l := by
  have hperm := stableSortBy_perm le l
  have hlen : (stableSortBy le l).length = l.length := hperm.length_eq
  have hi : i < (stableSortBy le l).length := by omega
  rw [List.getD_eq_getElem?_getD, List.getElem?_eq_getElem hi]
  exact hperm.mem_iff.mp (List.getElem_mem hi)

/-- Every trial estimate `(value, m)` satisfies
`value ≤ (pivot + 1) * 2 ^ |proj|` and `m ≤ |proj|`, and each trial
appends exactly one estimate. -/
theorem trialsLoop_entries {σ ρ : Type} {ops : SolverOps σ} {R : RngOps ρ}
    {proj : List Nat} {opts : CountOptions} :
    ∀ {ts : List Nat} {s s' : σ} {est0 est : List (Nat × Nat)},
      trialsLoop ops R proj opts ts s est0 = .ok (est, s') →
      (∀ e ∈ est0, e.1 ≤ (opts.pivot + 1) * 2 ^ proj.length ∧ e.2 ≤ proj.length) →
      (∀ e ∈ est, e.1 ≤ (opts.pivot + 1) * 2 ^ proj.length ∧ e.2 ≤ proj.length) ∧
        est.length = est0.length + ts.length := by
  intro ts
  induction ts with
  | nil =>
      intro s s' est0 est h h0
      rw [trialsLoop] at h
      cases h
      exact ⟨h0, by simp⟩
  | cons t ts ih =>
      intro s s' est0 est h h0
      rw [trialsLoop] at h
      simp only [bind, Except.bind] at h
      rcases hsamp : sample_constraints R proj proj.length opts.sparsity
        (R.init (trialSeed opts.seed t)) with e | ⟨base_rows, rng1⟩
      all_goals rw [hsamp] at h
      · cases h
      · dsimp only at h
        rcases hramp : rampLoop ops proj opts.pivot
          (add_trial_rows ops s base_rows).2 proj.length (proj.length + 1)
          (add_trial_rows ops s base_rows).1 0 (proj.length + 1) 1
          with e | ⟨low, high, s1⟩
        all_goals rw [hramp] at h
        · cases h
        · dsimp only at h
          have happend : ∀ v m, v ≤ (opts.pivot + 1) * 2 ^ proj.length →
              m ≤ proj.length →
              ∀ e ∈ est0 ++ [(v, m)],
                e.1 ≤ (opts.pivot + 1) * 2 ^ proj.length ∧ e.2 ≤ proj.length := by
            intro v m hv hm e he
            rcases List.mem_append.mp he with h' | h'
            · exact h0 e h'
            · rcases List.mem_singleton.mp h' with rfl
              exact ⟨hv, hm⟩
          by_cases hhigh : high = proj.length + 1
          · rw [if_pos hhigh] at h
            have := ih h (happend 0 0 (by positivity) (by omega))
            refine ⟨this.1, ?_⟩
            have hl := this.2
            simp at hl ⊢
            omega
          · rw [if_neg hhigh] at h
            have hhigh_le : high ≤ proj.length := by
              rcases rampLoop_high hramp with h' | h'
              · exact absurd h' hhigh
              · exact h'
            rcases hbin : binLoop ops proj opts.pivot
              (add_trial_rows ops s base_rows).2 (high + 2 - (low + 1)) s1
              (low + 1) high none with e | ⟨chosen, s2⟩
            all_goals rw [hbin] at h
            · cases h
            · dsimp only at h
              rcases chosen with _ | ⟨m_pick, first_cell⟩
              · have := ih h (happend 0 0 (by positivity) (by omega))
                refine ⟨this.1, ?_⟩
                have hl := this.2
                simp at hl ⊢
                omega
              · have hchosen := binLoop_chosen hbin
                have hmc : m_pick ≤ high ∧ first_cell.count ≤ opts.pivot + 1 := by
                  rcases hchosen with h' | ⟨m', c', heq, hle, hb⟩
                  · cases h'
                  · injection heq with heq'
                    injection heq' with h1 h2
                    subst h1; subst h2
                    exact ⟨hle, hb⟩
                dsimp only at h
                rcases hrep : repLoop ops R proj opts.pivot opts.sparsity m_pick
                  (opts.repeats - 1) s2 rng1 [first_cell.count]
                  with e | ⟨cells, s3, rng2⟩
                all_goals rw [hrep] at h
                · cases h
                · dsimp only at h
                  have hcells := repLoop_cells hrep (by
                    intro x hx
                    rcases List.mem_singleton.mp hx with rfl
                    exact hmc.2)
                  by_cases h128 : 128 ≤ m_pick
                  · rw [if_pos h128] at h; cases h
                  · rw [if_neg h128] at h
                    have hlen1 : 1 ≤ cells.length := by
                      have := hcells.2; simpa using this
                    have hmed : (rustSort cells).getD ((rustSort cells).length / 2) 0
                        ∈ cells := by
                      have hl : (rustSort cells).length = cells.length :=
                        (rustSort_perm cells).length_eq
                      rw [rustSort]
                      exact stableSortBy_getD_mem _ cells 0 _ (by
                        rw [rustSort] at hl
                        omega)
                    have hmedb : (rustSort cells).getD ((rustSort cells).length / 2) 0
                        ≤ opts.pivot + 1 := hcells.1 _ hmed
                    have hentry : ((rustSort cells).getD ((rustSort cells).length / 2) 0
                        * 2 ^ m_pick) % 2 ^ 128 ≤
                        (opts.pivot + 1) * 2 ^ proj.length := by
                      calc ((rustSort cells).getD ((rustSort cells).length / 2) 0
                          * 2 ^ m_pick) % 2 ^ 128
                          ≤ (rustSort cells).getD ((rustSort cells).length / 2) 0
                            * 2 ^ m_pick := Nat.mod_le _ _
                        _ ≤ (opts.pivot + 1) * 2 ^ proj.length :=
                            Nat.mul_le_mul hmedb
                              (Nat.pow_le_pow_right (by omega) (by omega))
                    have := ih h (happend _ m_pick hentry (by omega))
                    refine ⟨this.1, ?_⟩
                    have hl := this.2
                    simp at hl ⊢
                    omega

/-- C6 counterexample.  Two concrete driver runs on the 2-input OR
circuit with pivot 1 (both on the reference DPLL backend, under scripted
PRNG oracles): the first trial records `(0, 0)` after an exhausted ramp
and the report is `mode = Hash, result = 0`, outside the claimed
`[1, 2 ^ N]`; in the second, capped repeat cells push the trial estimate
to `8 > 2 ^ N = 4`. -/
theorem c6_hash_range_counterexample :
    (count_output_with_options dpllOps DpllSolverBackend.new c6RngA or2Aig 0
      c6OptsA).toOption.map (fun r => (r.mode, r.result, r.inputs_coi)) =
        some (.Hash, 0, 2) ∧
      (count_output_with_options dpllOps DpllSolverBackend.new c6RngB or2Aig 0
        c6OptsB).toOption.map (fun r => (r.mode, r.result, r.inputs_coi)) =
        some (.Hash, 8, 2) ∧
      ¬(1 ≤ 0) ∧ 2 ^ 2 < 8 :=
  ⟨by rfl, by rfl, by decide, by decide⟩

/-- C6 as amended: a Hash-mode result lies in
`[0, (pivot + 1) * 2 ^ N]` with `m_used ≤ N`, where `N = inputs_coi`; the
result can be 0 (when the median trial recorded no estimate) and can
exceed `2 ^ N` (when capped repeat cells push the median cell to
`pivot + 1`), so neither of the claimed tighter bounds holds. -/
theorem c6_hash_result_amended {σ ρ : Type} (ops : SolverOps σ) (empty : σ)
    (R : RngOps ρ) (aig : Aig) (out_idx : Nat) (opts : CountOptions)
    (report : CountReport)
    (hrun : count_output_with_options ops empty R aig out_idx opts = .ok report)
    (hmode : report.mode = CountMode.Hash) :
    report.result ≤ (opts.pivot + 1) * 2 ^ report.inputs_coi ∧
      report.m_used ≤ report.inputs_coi := by
  rw [count_output_with_options] at hrun
  split at hrun
  · cases hrun
  · split at hrun
    · cases hrun
    · split at hrun
      · cases hrun
      · split at hrun
        · cases hrun
        · rename_i ht0 _ _ _
          simp only [bind, Except.bind] at hrun
          rcases hsimp : aig.simplify_output out_idx with e | simple
          all_goals rw [hsimp] at hrun
          · cases hrun
          · dsimp only at hrun
            rcases henc : encode_aig simple with e | enc
            all_goals rw [henc] at hrun
            · cases hrun
            · dsimp only at hrun
              rcases hhead : enc.output_lits.head? with _ | out_lit
              all_goals rw [hhead] at hrun
              · cases hrun
              · dsimp only at hrun
                rcases hex : projected_count_bounded_session ops
                  (addClauses ops (addNVars ops empty
                    (enc.cnf.add_clause [out_lit]).num_vars)
                    (enc.cnf.add_clause [out_lit]).clauses)
                  enc.input_vars opts.pivot [] with e | ⟨exact1, s1⟩
                all_goals rw [hex] at hrun
                · cases hrun
                · dsimp only at hrun
                  split at hrun
                  · cases hrun
                    cases hmode
                  · rcases htr : trialsLoop ops R enc.input_vars opts
                      (List.range opts.trials) s1 [] with e | ⟨trial_est, s2⟩
                    all_goals rw [htr] at hrun
                    · cases hrun
                    · dsimp only at hrun
                      have hentries := trialsLoop_entries htr (by intro e he; cases he)
                      have hlen : trial_est.length = opts.trials := by
                        have := hentries.2
                        simpa using this
                      have htpos : 0 < opts.trials := Nat.pos_of_ne_zero ht0
                      have hmid : (stableSortBy (fun a b => decide (a.1 ≤ b.1))
                          trial_est).getD
                          ((stableSortBy (fun a b => decide (a.1 ≤ b.1))
                            trial_est).length / 2) (0, 0) ∈ trial_est := by
                        have hl := (stableSortBy_perm
                          (fun a b : Nat × Nat => decide (a.1 ≤ b.1)) trial_est).length_eq
                        exact stableSortBy_getD_mem _ trial_est (0, 0) _ (by omega)
                      have hbound := hentries.1 _ hmid
                      cases hrun
                      have hproj : enc.input_vars = simple.inputs :=
                        encode_aig_input_vars henc
                      refine ⟨?_, ?_⟩
                      · have := hbound.1
                        simpa [hproj] using this
                      · have := hbound.2
                        simpa [hproj] using this

/-- C6 witness: the amended bound applied to the second counterexample
run, whose Hash result is `8 = (pivot + 1) * 2 ^ N` with
`m_used = 2 ≤ N = 2`. -/
theorem c6_hash_result_amended_witness :
    c6ReportB.result ≤ (c6OptsB.pivot + 1) * 2 ^ c6ReportB.inputs_coi ∧
      c6ReportB.m_used ≤ c6ReportB.inputs_coi :=
  c6_hash_result_amended dpllOps DpllSolverBackend.new c6RngB or2Aig 0 c6OptsB
    c6ReportB (by rfl) (by rfl)

/-! ### Claim C4: XOR block encoding -/

theorem fresh_var_spec (cnf : Cnf) (h : cnf.num_vars < U32MAX) :
    cnf.fresh_var = (⟨cnf.num_vars + 1, cnf.clauses⟩, cnf.num_vars + 1) := by
  rcases cnf with ⟨n, cls⟩
  simp only [Cnf.fresh_var]
  dsimp only at h ⊢
  have hmin : min (n + 1) U32MAX = n + 1 := by omega
  rw [hmin]

/-- The four Tseitin clauses of `z = x ⊕ y` are satisfied exactly when
the assignment computes the XOR. -/
theorem xor3_sat_iff (τ : Nat → Bool) (x y z : Nat) :
    clausesSat τ [[⟨x, true⟩, ⟨y, true⟩, ⟨z, false⟩],
      [⟨x, false⟩, ⟨y, false⟩, ⟨z, false⟩],
      [⟨x, true⟩, ⟨y, false⟩, ⟨z, true⟩],
      [⟨x, false⟩, ⟨y, true⟩, ⟨z, true⟩]] = true ↔
    τ z = xor (τ x) (τ y) := by
  cases hx : τ x <;> cases hy : τ y <;> cases hz : τ z <;>
    simp [clausesSat, clauseSat, litSat, hx, hy, hz]

theorem append_xor3_plain (cnf : Cnf) (x y z : Nat) :
    (append_xor3 cnf x y z none).num_vars = cnf.num_vars ∧
    (append_xor3 cnf x y z none).clauses = cnf.clauses ++
      [[⟨x, true⟩, ⟨y, true⟩, ⟨z, false⟩],
       [⟨x, false⟩, ⟨y, false⟩, ⟨z, false⟩],
       [⟨x, true⟩, ⟨y, false⟩, ⟨z, true⟩],
       [⟨x, false⟩, ⟨y, true⟩, ⟨z, true⟩]] := by
  simp [append_xor3, push_clause, Cnf.add_clause]

theorem foldl_xor_congr {τ τ' : Nat → Bool} {n : Nat} :
    ∀ {vars : List Nat}, (∀ v, v ≤ n → τ' v = τ v) → (∀ v ∈ vars, v ≤ n) →
      ∀ a, vars.foldl (fun acc v => xor acc (τ' v)) a =
        vars.foldl (fun acc v => xor acc (τ v)) a := by
  intro vars
  induction vars with
  | nil => intro _ _ a; rfl
  | cons v rest ih =>
      intro hagree hvars a
      rw [List.foldl_cons, List.foldl_cons,
        hagree v (hvars v (List.mem_cons_self _ _))]
      exact ih hagree (fun w hw => hvars w (List.mem_cons_of_mem _ hw)) _

/-- Structure of the auxiliary chain: one fresh variable per chained
input, clauses appended at the end, final accumulator bounded by the new
variable count. -/
theorem xorChain_struct :
    ∀ (rest : List Nat) (cnf : Cnf) (acc : Nat),
      cnf.num_vars + rest.length ≤ U32MAX →
      acc ≤ cnf.num_vars →
      (xorChain none rest cnf acc).1.num_vars = cnf.num_vars + rest.length ∧
        (xorChain none rest cnf acc).2 ≤ (xorChain none rest cnf acc).1.num_vars ∧
        ∃ app, (xorChain none rest cnf acc).1.clauses = cnf.clauses ++ app := by
  intro rest
  induction rest with
  | nil =>
      intro cnf acc hroom hacc
      exact ⟨by simp [xorChain], by simpa [xorChain] using hacc, [], by simp [xorChain]⟩
  | cons next rest ih =>
      intro cnf acc hroom hacc
      rw [xorChain]
      have hlt : cnf.num_vars < U32MAX := by
        have : rest.length + 1 = (next :: rest).length := by simp
        omega
      rw [fresh_var_spec cnf hlt]
      dsimp only
      set cnf2 := append_xor3 ⟨cnf.num_vars + 1, cnf.clauses⟩ acc next
        (cnf.num_vars + 1) none with hcnf2
      obtain ⟨hnv2, hcl2⟩ := append_xor3_plain ⟨cnf.num_vars + 1, cnf.clauses⟩
        acc next (cnf.num_vars + 1)
      have hroom2 : cnf2.num_vars + rest.length ≤ U32MAX := by
        rw [hnv2]; simp at hroom ⊢; omega
      have hacc2 : cnf.num_vars + 1 ≤ cnf2.num_vars := by rw [hnv2]
      obtain ⟨h1, h2, app, h3⟩ := ih cnf2 (cnf.num_vars + 1) hroom2 hacc2
      refine ⟨?_, h2, ?_⟩
      · rw [h1, hnv2]; simp; omega
      · refine ⟨(cnf2.clauses.drop cnf.clauses.length) ++ app, ?_⟩
        rw [h3, hcl2]
        simp [hcl2]

/-- Soundness of the chain: any assignment satisfying the appended chain
clauses computes the running XOR in the final accumulator. -/
theorem xorChain_sound :
    ∀ (rest : List Nat) (cnf : Cnf) (acc : Nat) (τ : Nat → Bool),
      cnf.num_vars + rest.length ≤ U32MAX →
      acc ≤ cnf.num_vars → (∀ v ∈ rest, v ≤ cnf.num_vars) →
      clausesSat τ ((xorChain none rest cnf acc).1.clauses.drop
        cnf.clauses.length) = true →
      τ ((xorChain none rest cnf acc).2) =
        rest.foldl (fun a v => xor a (τ v)) (τ acc) := by
  intro rest
  induction rest with
  | nil =>
      intro cnf acc τ _ _ _ _
      simp [xorChain]
  | cons next rest ih =>
      intro cnf acc τ hroom hacc hvars hsat
      rw [xorChain] at hsat ⊢
      have hlt : cnf.num_vars < U32MAX := by
        have : (next :: rest).length = rest.length + 1 := by simp
        omega
      rw [fresh_var_spec cnf hlt] at hsat ⊢
      dsimp only at hsat ⊢
      set out := cnf.num_vars + 1 with hout
      set cnf2 := append_xor3 ⟨cnf.num_vars + 1, cnf.clauses⟩ acc next out none
        with hcnf2
      obtain ⟨hnv2, hcl2⟩ := append_xor3_plain ⟨cnf.num_vars + 1, cnf.clauses⟩
        acc next out
      have hroom2 : cnf2.num_vars + rest.length ≤ U32MAX := by
        rw [hnv2]; simp at hroom ⊢; omega
      have hout2 : out ≤ cnf2.num_vars := by rw [hnv2]
      have hvars2 : ∀ v ∈ rest, v ≤ cnf2.num_vars := by
        intro v hv
        have := hvars v (List.mem_cons_of_mem _ hv)
        rw [hnv2]; simp; omega
      obtain ⟨h1, h2, app, h3⟩ := xorChain_struct rest cnf2 out hroom2 hout2
      -- split the satisfied clauses into the XOR3 block and the tail chain
      have hsplit : (xorChain none rest cnf2 out).1.clauses.drop
          cnf.clauses.length =
          [[⟨acc, true⟩, ⟨next, true⟩, ⟨out, false⟩],
           [⟨acc, false⟩, ⟨next, false⟩, ⟨out, false⟩],
           [⟨acc, true⟩, ⟨next, false⟩, ⟨out, true⟩],
           [⟨acc, false⟩, ⟨next, true⟩, ⟨out, true⟩]] ++ app := by
        rw [h3, hcl2]
        simp only [List.append_assoc]
        rw [List.drop_left]
      rw [hsplit] at hsat
      simp only [clausesSat, List.all_append] at hsat
      rcases Bool.and_eq_true_iff.mp hsat with ⟨hsat3, hsatrest⟩
      have hxor3 : τ out = xor (τ acc) (τ next) :=
        (xor3_sat_iff τ acc next out).mp (by
          simpa [clausesSat] using hsat3)
      have htail : clausesSat τ ((xorChain none rest cnf2 out).1.clauses.drop
          cnf2.clauses.length) = true := by
        have : (xorChain none rest cnf2 out).1.clauses.drop cnf2.clauses.length
            = app := by
          rw [h3, List.drop_left]
        rw [this]
        simpa [clausesSat] using hsatrest
      have := ih cnf2 out τ hroom2 hout2 hvars2 htail
      rw [this, hxor3]
      rfl

/-- Completeness of the chain: any assignment of the original variables
extends to the auxiliaries so that the chain clauses hold and the final
accumulator carries the running XOR. -/
theorem xorChain_complete :
    ∀ (rest : List Nat) (cnf : Cnf) (acc : Nat) (τ : Nat → Bool),
      cnf.num_vars + rest.length ≤ U32MAX →
      acc ≤ cnf.num_vars → (∀ v ∈ rest, v ≤ cnf.num_vars) →
      ∃ τ', (∀ v, v ≤ cnf.num_vars → τ' v = τ v) ∧
        clausesSat τ' ((xorChain none rest cnf acc).1.clauses.drop
          cnf.clauses.length) = true ∧
        τ' ((xorChain none rest cnf acc).2) =
          rest.foldl (fun a v => xor a (τ v)) (τ acc) := by
  intro rest
  induction rest with
  | nil =>
      intro cnf acc τ _ _ _
      exact ⟨τ, fun _ _ => rfl, by simp [xorChain, clausesSat], by simp [xorChain]⟩
  | cons next rest ih =>
      intro cnf acc τ hroom hacc hvars
      rw [xorChain]
      have hlt : cnf.num_vars < U32MAX := by
        have : (next :: rest).length = rest.length + 1 := by simp
        omega
      rw [fresh_var_spec cnf hlt]
      dsimp only
      set out := cnf.num_vars + 1 with hout
      set cnf2 := append_xor3 ⟨cnf.num_vars + 1, cnf.clauses⟩ acc next out none
        with hcnf2
      obtain ⟨hnv2, hcl2⟩ := append_xor3_plain ⟨cnf.num_vars + 1, cnf.clauses⟩
        acc next out
      have hroom2 : cnf2.num_vars + rest.length ≤ U32MAX := by
        rw [hnv2]; simp at hroom ⊢; omega
      have hout2 : out ≤ cnf2.num_vars := by rw [hnv2]
      have hvars2 : ∀ v ∈ rest, v ≤ cnf2.num_vars := by
        intro v hv
        have := hvars v (List.mem_cons_of_mem _ hv)
        rw [hnv2]; simp; omega
      -- extend τ with the value of the fresh auxiliary
      set τ1 := setValue τ out (xor (τ acc) (τ next)) with hτ1
      have hagree1 : ∀ v, v ≤ cnf.num_vars → τ1 v = τ v := by
        intro v hv
        simp only [hτ1, setValue]
        rw [if_neg (by omega)]
      obtain ⟨τ2, hagree2, hsat2, hfold2⟩ := ih cnf2 out τ1 hroom2 hout2 hvars2
      obtain ⟨h1, h2, app, h3⟩ := xorChain_struct rest cnf2 out hroom2 hout2
      refine ⟨τ2, ?_, ?_, ?_⟩
      · intro v hv
        rw [hagree2 v (by rw [hnv2]; simp; omega), hagree1 v hv]
      · have hsplit : (xorChain none rest cnf2 out).1.clauses.drop
            cnf.clauses.length =
            [[⟨acc, true⟩, ⟨next, true⟩, ⟨out, false⟩],
             [⟨acc, false⟩, ⟨next, false⟩, ⟨out, false⟩],
             [⟨acc, true⟩, ⟨next, false⟩, ⟨out, true⟩],
             [⟨acc, false⟩, ⟨next, true⟩, ⟨out, true⟩]] ++ app := by
          rw [h3, hcl2]
          simp only [List.append_assoc]
          rw [List.drop_left]
        have happ : (xorChain none rest cnf2 out).1.clauses.drop
            cnf2.clauses.length = app := by
          rw [h3, List.drop_left]
        rw [hsplit]
        simp only [clausesSat, List.all_append]
        refine Bool.and_eq_true_iff.mpr ⟨?_, ?_⟩
        · have hτ2out : τ2 out = xor (τ2 acc) (τ2 next) := by
            have e1 : τ2 out = τ1 out := hagree2 out (by rw [hnv2])
            have e2 : τ1 out = xor (τ acc) (τ next) := by
              simp [hτ1, setValue]
            have e3 : τ2 acc = τ acc := by
              rw [hagree2 acc (by rw [hnv2]; simp; omega), hagree1 acc hacc]
            have e4 : τ2 next = τ next := by
              have hnext := hvars next (List.mem_cons_self _ _)
              rw [hagree2 next (by rw [hnv2]; simp; omega), hagree1 next hnext]
            rw [e1, e2, e3, e4]
          have := (xor3_sat_iff τ2 acc next out).mpr hτ2out
          simpa [clausesSat] using this
        · rw [happ] at hsat2
          simpa [clausesSat] using hsat2
      · rw [hfold2]
        have e2 : τ1 out = xor (τ acc) (τ next) := by simp [hτ1, setValue]
        have hcongr := @foldl_xor_congr τ τ1 cnf.num_vars _
          hagree1 (fun v hv => hvars v (List.mem_cons_of_mem _ hv))
        rw [List.foldl_cons, e2, hcongr (xor (τ acc) (τ next))]

/-- C4.  The clauses appended by `append_xor_block` for a single
constraint (plain mode) are satisfiable by an extension of a given
assignment of the original variables exactly when that assignment
satisfies `v1 ⊕ ⋯ ⊕ vk = rhs`: the appended block's models, projected
onto the original variables, are exactly the XOR equation's solutions. -/
theorem c4_xor_block_models (cnf : Cnf) (c : XorConstraint) (τ : Nat → Bool)
    (hvars : ∀ v ∈ c.vars, v ≤ cnf.num_vars)
    (hroom : cnf.num_vars + c.vars.length ≤ U32MAX) :
    (∃ τ', (∀ v, v ≤ cnf.num_vars → τ' v = τ v) ∧
      clausesSat τ' ((append_xor_block cnf [c] XorBlockMode.Plain).1.clauses.drop
        cnf.clauses.length) = true) ↔
    xorEval τ c.vars = c.rhs := by
  have hblock : (append_xor_block cnf [c] XorBlockMode.Plain).1 =
    append_one cnf c none := rfl
  rw [hblock]
  rcases c with ⟨vars, rhs⟩
  dsimp only at hvars ⊢
  rcases vars with _ | ⟨v, _ | ⟨next, rest⟩⟩
  · -- empty constraint
    cases rhs
    · rw [show append_one cnf ⟨[], false⟩ none = cnf from rfl]
      rw [List.drop_length]
      simp only [clausesSat, List.all_nil, xorEval, List.foldl_nil]
      constructor
      · intro _; trivial
      · intro _; exact ⟨τ, fun _ _ => rfl, by trivial⟩
    · rw [show append_one cnf ⟨[], true⟩ none =
        cnf.add_clause [] from rfl]
      rw [show (cnf.add_clause []).clauses = cnf.clauses ++ [[]] from rfl]
      rw [List.drop_left]
      simp only [clausesSat, List.all_cons, List.all_nil, clauseSat, List.any_nil,
        Bool.false_and, xorEval, List.foldl_nil]
      constructor
      · rintro ⟨τ', _, h⟩; cases h
      · intro h; cases h
  · -- unit constraint
    rw [show append_one cnf ⟨[v], rhs⟩ none =
      cnf.add_clause [⟨v, rhs⟩] from rfl]
    rw [show (cnf.add_clause [⟨v, rhs⟩]).clauses =
      cnf.clauses ++ [[⟨v, rhs⟩]] from rfl]
    rw [List.drop_left]
    have hv : v ≤ cnf.num_vars := hvars v (List.mem_cons_self _ _)
    constructor
    · rintro ⟨τ', hagree, hsat⟩
      simp only [clausesSat, List.all_cons, List.all_nil, clauseSat, List.any_cons,
        List.any_nil, Bool.or_false, Bool.and_true, litSat] at hsat
      rw [hagree v hv] at hsat
      simp only [xorEval, List.foldl_cons, List.foldl_nil]
      cases rhs
      · simp only [if_neg (by simp : ¬(false = true))] at hsat
        simp only [Bool.false_xor]
        cases hτ : τ v
        · rfl
        · rw [hτ] at hsat; cases hsat
      · simp only [if_pos rfl] at hsat
        simp only [Bool.false_xor]
        exact hsat
    · intro hx
      refine ⟨τ, fun _ _ => rfl, ?_⟩
      simp only [xorEval, List.foldl_cons, List.foldl_nil, Bool.false_xor] at hx
      simp only [clausesSat, List.all_cons, List.all_nil, clauseSat, List.any_cons,
        List.any_nil, Bool.or_false, Bool.and_true, litSat]
      cases rhs
      · rw [if_neg (by simp : ¬(false = true)), hx]
        rfl
      · rw [if_pos rfl]
        exact hx
  · -- chained constraint (length at least two)
    have happ1 : append_one cnf ⟨v :: next :: rest, rhs⟩ none =
        push_clause (xorChain none (next :: rest) cnf v).1
          [⟨(xorChain none (next :: rest) cnf v).2, rhs⟩] none := rfl
    rw [happ1]
    have hvv : v ≤ cnf.num_vars := hvars v (List.mem_cons_self _ _)
    have hroom' : cnf.num_vars + (next :: rest).length ≤ U32MAX := by
      simp at hroom ⊢; omega
    have hvars' : ∀ w ∈ next :: rest, w ≤ cnf.num_vars := by
      intro w hw; exact hvars w (List.mem_cons_of_mem _ hw)
    obtain ⟨hnv1, hacc1, app, hcl1⟩ :=
      xorChain_struct (next :: rest) cnf v hroom' hvv
    have hdrop : (push_clause (xorChain none (next :: rest) cnf v).1
        [⟨(xorChain none (next :: rest) cnf v).2, rhs⟩] none).clauses.drop
        cnf.clauses.length =
        app ++ [[⟨(xorChain none (next :: rest) cnf v).2, rhs⟩]] := by
      rw [show (push_clause (xorChain none (next :: rest) cnf v).1
        [⟨(xorChain none (next :: rest) cnf v).2, rhs⟩] none).clauses =
        (xorChain none (next :: rest) cnf v).1.clauses ++
          [[⟨(xorChain none (next :: rest) cnf v).2, rhs⟩]] from rfl]
      rw [hcl1, List.append_assoc, List.drop_left]
    rw [hdrop]
    have hchainapp : (xorChain none (next :: rest) cnf v).1.clauses.drop
        cnf.clauses.length = app := by
      rw [hcl1, List.drop_left]
    have hxoreval : xorEval τ (v :: next :: rest) =
        (next :: rest).foldl (fun a w => xor a (τ w)) (τ v) := by
      simp [xorEval]
    constructor
    · rintro ⟨τ', hagree, hsat⟩
      simp only [clausesSat, List.all_append] at hsat
      rcases Bool.and_eq_true_iff.mp hsat with ⟨hsatapp, hsatunit⟩
      have hsound := xorChain_sound (next :: rest) cnf v τ' hroom' hvv hvars'
        (by rw [hchainapp]; simpa [clausesSat] using hsatapp)
      have hfoldeq : (next :: rest).foldl (fun a w => xor a (τ' w)) (τ' v) =
          (next :: rest).foldl (fun a w => xor a (τ w)) (τ v) := by
        rw [hagree v hvv]
        exact foldl_xor_congr (n := cnf.num_vars) hagree hvars' _
      rw [hxoreval, ← hfoldeq, ← hsound]
      simp only [List.all_cons, List.all_nil, clauseSat, List.any_cons, List.any_nil,
        Bool.or_false, Bool.and_true, litSat] at hsatunit
      cases rhs
      · cases hτ : τ' ((xorChain none (next :: rest) cnf v).2)
        · rfl
        · rw [if_neg (by simp : ¬(false = true)), hτ] at hsatunit
          cases hsatunit
      · rw [if_pos rfl] at hsatunit
        exact hsatunit
    · intro hx
      obtain ⟨τ', hagree, hsatapp, hfold⟩ :=
        xorChain_complete (next :: rest) cnf v τ hroom' hvv hvars'
      refine ⟨τ', hagree, ?_⟩
      simp only [clausesSat, List.all_append]
      refine Bool.and_eq_true_iff.mpr ⟨?_, ?_⟩
      · rw [hchainapp] at hsatapp
        simpa [clausesSat] using hsatapp
      · have hval : τ' ((xorChain none (next :: rest) cnf v).2) = rhs := by
          rw [hfold, ← hxoreval, hx]
        simp only [List.all_cons, List.all_nil, clauseSat, List.any_cons,
          List.any_nil, Bool.or_false, Bool.and_true, litSat]
        cases rhs
        · rw [if_neg (by simp : ¬(false = true)), hval]
          rfl
        · rw [if_pos rfl]
          exact hval

/-- C4 witness: the constraint `x1 ⊕ x2 = 1` over a two-variable CNF and
the assignment `x1 = 1, x2 = 0`, which satisfies the equation; the block
is satisfiable by an extension. -/
theorem c4_xor_block_models_witness :
    ∃ τ', (∀ v, v ≤ (Cnf.new 2).num_vars → τ' v = (fun v => decide (v = 1)) v) ∧
      clausesSat τ' ((append_xor_block (Cnf.new 2) [⟨[1, 2], true⟩]
        XorBlockMode.Plain).1.clauses.drop (Cnf.new 2).clauses.length) = true :=
  (c4_xor_block_models (Cnf.new 2) ⟨[1, 2], true⟩ (fun v => decide (v = 1))
    (by decide) (by decide)).mpr (by decide)

/-! ### Claim C3: partial-evaluation bridge lemmas -/

theorem getD_set_spec : ∀ (a : List (Option Bool)) (v w : Nat) (x : Option Bool),
    (a.set v x).getD w none = if v = w ∧ v < a.length then x else a.getD w none := by
  intro a
  induction a with
  | nil => intro v w x; simp
  | cons h t ih =>
      intro v w x
      cases v with
      | zero =>
          cases w with
          | zero => simp [List.set]
          | succ w => simp [List.set, List.getD_cons_succ]
      | succ v =>
          cases w with
          | zero => simp [List.set]
          | succ w =>
              simp only [List.set, List.getD_cons_succ, List.length_cons]
              rw [ih]
              by_cases hvw : v = w ∧ v < t.length
              · rw [if_pos hvw, if_pos ⟨by omega, by omega⟩]
              · rw [if_neg hvw, if_neg (by omega)]

theorem getD_map_getD (a : List (Option Bool)) (v : Nat) :
    (a.map (fun o => o.getD false)).getD v false = fill a v := by
  simp only [fill, List.getD_eq_getElem?_getD, List.getElem?_map]
  cases a[v]? <;> rfl

theorem agrees_fill (a : List (Option Bool)) : agrees (fill a) a := by
  intro v b h
  simp only [fill]
  rw [h]
  rfl

theorem agrees_set {τ : Nat → Bool} {a : List (Option Bool)} {v : Nat} {b : Bool}
    (hag : agrees τ a) (hb : τ v = b) :
    agrees τ (a.set v (some b)) := by
  intro w c hw
  rw [getD_set_spec] at hw
  split at hw
  · rename_i hc
    injection hw with hw
    rw [← hc.1, hb, hw]
  · exact hag w c hw

theorem eval_lit_some {l : Lit} {a : List (Option Bool)} {b : Bool}
    (h : eval_lit_part l a = some b) {τ : Nat → Bool} (hag : agrees τ a) :
    l.var < a.length ∧ litSat τ l = b := by
  rw [eval_lit_part] at h
  split at h
  · cases h
  · rename_i hlen
    refine ⟨by omega, ?_⟩
    rcases hg : a.getD l.var none with _ | v
    · rw [hg] at h; cases h
    · rw [hg] at h
      simp only [Option.map_some'] at h
      injection h with h
      rw [litSat, hag l.var v hg, h]

theorem eval_lit_none {l : Lit} {a : List (Option Bool)}
    (h : eval_lit_part l a = none) (hlen : l.var < a.length) :
    a.getD l.var none = none := by
  rw [eval_lit_part, if_neg (by omega)] at h
  rcases hg : a.getD l.var none with _ | v
  · rfl
  · rw [hg] at h; simp at h

theorem evalClauseGo_true {a : List (Option Bool)} :
    ∀ {cl : List Lit} {u : Bool}, evalClauseGo a cl u = some true →
      ∃ l ∈ cl, eval_lit_part l a = some true := by
  intro cl
  induction cl with
  | nil =>
      intro u h
      rw [evalClauseGo] at h
      split at h <;> simp_all
  | cons l rest ih =>
      intro u h
      rw [evalClauseGo] at h
      rcases he : eval_lit_part l a with _ | b
      · rw [he] at h
        obtain ⟨x, hx, hx2⟩ := ih h
        exact ⟨x, List.mem_cons_of_mem _ hx, hx2⟩
      · rcases b with _ | _
        · rw [he] at h
          obtain ⟨x, hx, hx2⟩ := ih h
          exact ⟨x, List.mem_cons_of_mem _ hx, hx2⟩
        · exact ⟨l, List.mem_cons_self _ _, he⟩

theorem evalClauseGo_unknown {a : List (Option Bool)} :
    ∀ {cl : List Lit}, evalClauseGo a cl true ≠ some false := by
  intro cl
  induction cl with
  | nil => rw [evalClauseGo]; simp
  | cons l rest ih =>
      rw [evalClauseGo]
      rcases he : eval_lit_part l a with _ | b
      · exact ih
      · rcases b with _ | _
        · exact ih
        · simp

theorem evalClauseGo_false {a : List (Option Bool)} :
    ∀ {cl : List Lit} {u : Bool}, evalClauseGo a cl u = some false →
      ∀ l ∈ cl, eval_lit_part l a = some false := by
  intro cl
  induction cl with
  | nil => intro u _; simp
  | cons l rest ih =>
      intro u h
      rw [evalClauseGo] at h
      rcases he : eval_lit_part l a with _ | b
      · rw [he] at h
        exact absurd h evalClauseGo_unknown
      · rcases b with _ | _
        · rw [he] at h
          intro x hx
          rcases List.mem_cons.mp hx with rfl | hx
          · exact he
          · exact ih h x hx
        · rw [he] at h
          exact absurd h (by simp)

theorem evalClauseGo_isnone {a : List (Option Bool)} :
    ∀ {cl : List Lit} {u : Bool}, evalClauseGo a cl u = none →
      u = true ∨ ∃ l ∈ cl, eval_lit_part l a = none := by
  intro cl
  induction cl with
  | nil =>
      intro u h
      rw [evalClauseGo] at h
      split at h
      · rename_i hu; left; exact hu
      · cases h
  | cons l rest ih =>
      intro u h
      rw [evalClauseGo] at h
      rcases he : eval_lit_part l a with _ | b
      · right; exact ⟨l, List.mem_cons_self _ _, he⟩
      · rcases b with _ | _
        · rw [he] at h
          rcases ih h with h1 | ⟨x, hx, hx2⟩
          · left; exact h1
          · right; exact ⟨x, List.mem_cons_of_mem _ hx, hx2⟩
        · rw [he] at h
          exact absurd h (by simp)

theorem evalFormulaGo_false_flag {a : List (Option Bool)} :
    ∀ {cls : List (List Lit)}, evalFormulaGo a cls false ≠ some true := by
  intro cls
  induction cls with
  | nil => rw [evalFormulaGo]; simp
  | cons c rest ih =>
      rw [evalFormulaGo]
      rcases he : eval_clause_part c a with _ | b
      · exact ih
      · rcases b with _ | _
        · simp
        · exact ih

theorem evalFormulaGo_true {a : List (Option Bool)} :
    ∀ {cls : List (List Lit)} {u : Bool}, evalFormulaGo a cls u = some true →
      ∀ c ∈ cls, eval_clause_part c a = some true := by
  intro cls
  induction cls with
  | nil => intro u _; simp
  | cons c rest ih =>
      intro u h
      rw [evalFormulaGo] at h
      rcases he : eval_clause_part c a with _ | b
      · rw [he] at h
        exact absurd h evalFormulaGo_false_flag
      · rcases b with _ | _
        · rw [he] at h
          exact absurd h (by simp)
        · rw [he] at h
          intro x hx
          rcases List.mem_cons.mp hx with rfl | hx
          · exact he
          · exact ih h x hx

theorem evalFormulaGo_some_false {a : List (Option Bool)} :
    ∀ {cls : List (List Lit)} {u : Bool}, evalFormulaGo a cls u = some false →
      ∃ c ∈ cls, eval_clause_part c a = some false := by
  intro cls
  induction cls with
  | nil =>
      intro u h
      rw [evalFormulaGo] at h
      split at h <;> simp_all
  | cons c rest ih =>
      intro u h
      rw [evalFormulaGo] at h
      rcases he : eval_clause_part c a with _ | b
      · rw [he] at h
        obtain ⟨x, hx, hx2⟩ := ih h
        exact ⟨x, List.mem_cons_of_mem _ hx, hx2⟩
      · rcases b with _ | _
        · exact ⟨c, List.mem_cons_self _ _, he⟩
        · rw [he] at h
          obtain ⟨x, hx, hx2⟩ := ih h
          exact ⟨x, List.mem_cons_of_mem _ hx, hx2⟩

theorem evalFormulaGo_none {a : List (Option Bool)} :
    ∀ {cls : List (List Lit)} {u : Bool}, evalFormulaGo a cls u = none →
      u = false ∨ ∃ c ∈ cls, eval_clause_part c a = none := by
  intro cls
  induction cls with
  | nil =>
      intro u h
      rw [evalFormulaGo] at h
      split at h
      · cases h
      · rename_i hu; left; simpa using hu
  | cons c rest ih =>
      intro u h
      rw [evalFormulaGo] at h
      rcases he : eval_clause_part c a with _ | b
      · right; exact ⟨c, List.mem_cons_self _ _, he⟩
      · rcases b with _ | _
        · rw [he] at h
          exact absurd h (by simp)
        · rw [he] at h
          rcases ih h with h1 | ⟨x, hx, hx2⟩
          · left; exact h1
          · right; exact ⟨x, List.mem_cons_of_mem _ hx, hx2⟩

theorem countP_two {α : Type} (p : α → Bool) :
    ∀ {l : List α} {x y : α}, x ∈ l → y ∈ l → x ≠ y → p x = true → p y = true →
      2 ≤ l.countP p := by
  intro l
  induction l with
  | nil => intro x y hx _ _ _ _; simp at hx
  | cons a t ih =>
      intro x y hx hy hxy hpx hpy
      rw [List.countP_cons]
      rcases List.mem_cons.mp hx with hxa | hx
      · rcases List.mem_cons.mp hy with hya | hy
        · exact absurd (hxa.trans hya.symm) hxy
        · have h1 : 0 < t.countP p := List.countP_pos_iff.mpr ⟨y, hy, hpy⟩
          have hpa : p a = true := by rw [← hxa]; exact hpx
          rw [if_pos hpa]
          omega
      · rcases List.mem_cons.mp hy with hya | hy
        · have h1 : 0 < t.countP p := List.countP_pos_iff.mpr ⟨x, hx, hpx⟩
          have hpa : p a = true := by rw [← hya]; exact hpy
          rw [if_pos hpa]
          omega
        · have := ih hx hy hxy hpx hpy
          omega

theorem scanClause_spec {a : List (Option Bool)} :
    ∀ {cl : List Lit} {oc0 : Nat} {lo0 lo : Lit} {oc : Nat},
      scanClause a cl oc0 lo0 = (oc, lo, false) →
      (∀ l ∈ cl, eval_lit_part l a ≠ some true) ∧
      oc = oc0 + cl.countP (fun l => (eval_lit_part l a).isNone) ∧
      ((cl.countP (fun l => (eval_lit_part l a).isNone) = 0 ∧ lo = lo0) ∨
        (lo ∈ cl ∧ eval_lit_part lo a = none)) := by
  intro cl
  induction cl with
  | nil =>
      intro oc0 lo0 lo oc h
      rw [scanClause] at h
      injection h with h1 h2
      injection h2 with h2 h3
      subst h1; subst h2
      exact ⟨by simp, by simp, Or.inl ⟨by simp, rfl⟩⟩
  | cons l rest ih =>
      intro oc0 lo0 lo oc h
      rw [scanClause] at h
      rcases he : eval_lit_part l a with _ | b
      · rw [he] at h
        obtain ⟨g1, g2, g3⟩ := ih h
        refine ⟨?_, ?_, ?_⟩
        · intro x hx
          rcases List.mem_cons.mp hx with rfl | hx
          · rw [he]; simp
          · exact g1 x hx
        · rw [List.countP_cons]
          simp [he]
          omega
        · rcases g3 with ⟨gc, rfl⟩ | ⟨gm, gn⟩
          · right; exact ⟨List.mem_cons_self _ _, he⟩
          · right; exact ⟨List.mem_cons_of_mem _ gm, gn⟩
      · rcases b with _ | _
        · rw [he] at h
          obtain ⟨g1, g2, g3⟩ := ih h
          refine ⟨?_, ?_, ?_⟩
          · intro x hx
            rcases List.mem_cons.mp hx with rfl | hx
            · rw [he]; simp
            · exact g1 x hx
          · rw [List.countP_cons]
            simp [he]
            omega
          · rcases g3 with ⟨gc, geq⟩ | ⟨gm, gn⟩
            · left
              refine ⟨?_, geq⟩
              rw [List.countP_cons, gc]
              simp [he]
            · right; exact ⟨List.mem_cons_of_mem _ gm, gn⟩
        · rw [he] at h
          injection h with h1 h2
          injection h2 with h2 h3
          exact absurd h3.symm (by simp)

theorem upPass_sem {τ : Nat → Bool} :
    ∀ {cls : List (List Lit)} {a : List (Option Bool)} {ch : Bool}
      {r : Option (List (Option Bool) × Bool)},
      upPass cls a ch = .ok r →
      agrees τ a → (∀ cl ∈ cls, clauseSat τ cl = true) →
      ∃ a' ch', r = some (a', ch') ∧ agrees τ a' := by
  intro cls
  induction cls with
  | nil =>
      intro a ch r h hag _
      rw [upPass] at h
      injection h with h
      exact ⟨a, ch, h.symm, hag⟩
  | cons cl rest ih =>
      intro a ch r h hag hsat
      rw [upPass] at h
      rcases hsc : scanClause a cl 0 ⟨0, true⟩ with ⟨oc, lo, ht⟩
      rw [hsc] at h
      dsimp only at h
      by_cases hht : ht = true
      · rw [if_pos hht] at h
        exact ih h hag (fun c hc => hsat c (List.mem_cons_of_mem _ hc))
      · rw [if_neg hht] at h
        have hht0 : ht = false := by revert hht; cases ht <;> simp
        subst hht0
        obtain ⟨hnt, hcount, hlo⟩ := scanClause_spec hsc
        have hsathead := hsat cl (List.mem_cons_self _ _)
        by_cases hoc : oc = 0
        · exfalso
          rw [clauseSat, List.any_eq_true] at hsathead
          obtain ⟨l, hl, hlsat⟩ := hsathead
          rcases hel : eval_lit_part l a with _ | b
          · have hpos : 0 < cl.countP (fun l => (eval_lit_part l a).isNone) :=
              List.countP_pos_iff.mpr ⟨l, hl, by rw [hel]; rfl⟩
            omega
          · rcases b with _ | _
            · have hls := (eval_lit_some hel hag).2
              rw [hls] at hlsat
              exact Bool.noConfusion hlsat
            · exact hnt l hl hel
        · rw [if_neg hoc] at h
          by_cases hoc1 : oc = 1
          · rw [if_pos hoc1] at h
            by_cases hlen : a.length ≤ lo.var
            · rw [if_pos hlen] at h; cases h
            · rw [if_neg hlen] at h
              have hcp : cl.countP (fun l => (eval_lit_part l a).isNone) = 1 := by
                omega
              have hlomem : lo ∈ cl ∧ eval_lit_part lo a = none := by
                rcases hlo with ⟨hz, _⟩ | hr
                · omega
                · exact hr
              rcases hgd : a.getD lo.var none with _ | v
              · rw [hgd] at h
                dsimp only at h
                have hforce : τ lo.var = lo.sign := by
                  rw [clauseSat, List.any_eq_true] at hsathead
                  obtain ⟨l, hl, hlsat⟩ := hsathead
                  by_cases hll : l = lo
                  · subst hll
                    cases hsgn : l.sign with
                    | false =>
                        rw [litSat, hsgn] at hlsat
                        simp at hlsat
                        exact hlsat
                    | true =>
                        rw [litSat, hsgn] at hlsat
                        simp at hlsat
                        exact hlsat
                  · rcases hel : eval_lit_part l a with _ | b
                    · exfalso
                      have := countP_two (fun x => (eval_lit_part x a).isNone)
                        hl hlomem.1 hll
                        (by show (eval_lit_part l a).isNone = true; rw [hel]; rfl)
                        (by show (eval_lit_part lo a).isNone = true
                            rw [hlomem.2]; rfl)
                      omega
                    · rcases b with _ | _
                      · exfalso
                        have hls := (eval_lit_some hel hag).2
                        rw [hls] at hlsat
                        exact Bool.noConfusion hlsat
                      · exact absurd hel (hnt l hl)
                exact ih h (agrees_set hag hforce)
                  (fun c hc => hsat c (List.mem_cons_of_mem _ hc))
              · exfalso
                have hnone := hlomem.2
                rw [eval_lit_part, if_neg hlen, hgd] at hnone
                exact Option.noConfusion hnone
          · rw [if_neg hoc1] at h
            exact ih h hag (fun c hc => hsat c (List.mem_cons_of_mem _ hc))

theorem upFix_sem {τ : Nat → Bool} {cnf : Cnf} :
    ∀ {fuel : Nat} {a : List (Option Bool)} {r : Option (List (Option Bool))},
      upFix fuel cnf a = .ok r → agrees τ a →
      (∀ cl ∈ cnf.clauses, clauseSat τ cl = true) →
      ∃ a', r = some a' ∧ agrees τ a' := by
  intro fuel
  induction fuel with
  | zero => intro a r h _ _; cases h
  | succ fuel ih =>
      intro a r h hag hsat
      rw [upFix] at h
      rcases hp : upPass cnf.clauses a false with e | o
      · rw [hp] at h; cases h
      · rw [hp] at h
        obtain ⟨a', ch', ho, hag'⟩ := upPass_sem hp hag hsat
        subst ho
        dsimp only at h
        by_cases hch : ch' = true
        · rw [if_pos hch] at h
          exact ih h hag' hsat
        · rw [if_neg hch] at h
          injection h with h
          exact ⟨a', h.symm, hag'⟩

theorem upPass_ok (n : Nat) :
    ∀ {cls : List (List Lit)} {a : List (Option Bool)} {ch : Bool},
      (∀ cl ∈ cls, ∀ l ∈ cl, 1 ≤ l.var ∧ l.var ≤ n) → n < a.length →
      ∃ r, upPass cls a ch = .ok r := by
  intro cls
  induction cls with
  | nil => intro a ch _ _; exact ⟨_, rfl⟩
  | cons cl rest ih =>
      intro a ch hws hlen
      rw [upPass]
      rcases hsc : scanClause a cl 0 ⟨0, true⟩ with ⟨oc, lo, ht⟩
      dsimp only
      by_cases hht : ht = true
      · rw [if_pos hht]
        exact ih (fun c hc => hws c (List.mem_cons_of_mem _ hc)) hlen
      · rw [if_neg hht]
        have hht0 : ht = false := by revert hht; cases ht <;> simp
        subst hht0
        by_cases hoc : oc = 0
        · rw [if_pos hoc]; exact ⟨_, rfl⟩
        · rw [if_neg hoc]
          by_cases hoc1 : oc = 1
          · rw [if_pos hoc1]
            obtain ⟨hnt, hcount, hlo⟩ := scanClause_spec hsc
            have hlomem : lo ∈ cl := by
              rcases hlo with ⟨hz, _⟩ | hr
              · omega
              · exact hr.1
            have hvar := hws cl (List.mem_cons_self _ _) lo hlomem
            rw [if_neg (by omega : ¬ a.length ≤ lo.var)]
            rcases hgd : a.getD lo.var none with _ | v
            · dsimp only
              exact ih (fun c hc => hws c (List.mem_cons_of_mem _ hc))
                (by rw [List.length_set]; exact hlen)
            · dsimp only
              by_cases hv : v ≠ lo.sign
              · rw [if_pos hv]; exact ⟨_, rfl⟩
              · rw [if_neg hv]
                exact ih (fun c hc => hws c (List.mem_cons_of_mem _ hc)) hlen
          · rw [if_neg hoc1]
            exact ih (fun c hc => hws c (List.mem_cons_of_mem _ hc)) hlen

theorem upFix_ok {n : Nat} {cnf : Cnf}
    (hws : ∀ cl ∈ cnf.clauses, ∀ l ∈ cl, 1 ≤ l.var ∧ l.var ≤ n) :
    ∀ (fuel : Nat) (a : List (Option Bool)), countNone a < fuel → n < a.length →
      ∃ r, upFix fuel cnf a = .ok r := by
  intro fuel
  induction fuel with
  | zero => intro a hfuel _; omega
  | succ fuel ih =>
      intro a hfuel hlen
      rw [upFix]
      obtain ⟨r0, hr0⟩ := upPass_ok n hws hlen
      rw [hr0]
      rcases r0 with _ | ⟨a', ch⟩
      · exact ⟨_, rfl⟩
      · dsimp only
        obtain ⟨h1, h2, h3⟩ := upPass_spec hr0
        by_cases hch : ch = true
        · rw [if_pos hch]
          have hlt : countNone a' < countNone a := h2 rfl hch
          exact ih a' (by omega) (by rw [h3]; exact hlen)
        · rw [if_neg hch]
          exact ⟨_, rfl⟩

theorem formula_true_sat {cnf : Cnf} {a : List (Option Bool)} {τ : Nat → Bool}
    (h : cnf.eval_formula_partial a = some true) (hag : agrees τ a) :
    ∀ cl ∈ cnf.clauses, clauseSat τ cl = true := by
  rw [Cnf.eval_formula_partial] at h
  intro cl hcl
  have hcl2 := evalFormulaGo_true h cl hcl
  rw [eval_clause_part] at hcl2
  obtain ⟨l, hl, hl2⟩ := evalClauseGo_true hcl2
  rw [clauseSat, List.any_eq_true]
  exact ⟨l, hl, (eval_lit_some hl2 hag).2⟩

theorem formula_false_contra {cnf : Cnf} {a : List (Option Bool)} {τ : Nat → Bool}
    (h : cnf.eval_formula_partial a = some false) (hag : agrees τ a)
    (hsat : ∀ cl ∈ cnf.clauses, clauseSat τ cl = true) : False := by
  rw [Cnf.eval_formula_partial] at h
  obtain ⟨cl, hcl, hcl2⟩ := evalFormulaGo_some_false h
  rw [eval_clause_part] at hcl2
  have hall := evalClauseGo_false hcl2
  have hsatcl := hsat cl hcl
  rw [clauseSat, List.any_eq_true] at hsatcl
  obtain ⟨l, hl, hlsat⟩ := hsatcl
  have hls := (eval_lit_some (hall l hl) hag).2
  rw [hls] at hlsat
  exact Bool.noConfusion hlsat

theorem getD_some_false_none {a : List (Option Bool)} {v : Nat}
    (hv : v < a.length) (h : a.getD v none = none) :
    a.getD v (some false) = none := by
  rw [List.getD_eq_getElem?_getD] at h ⊢
  rcases hg : a[v]? with _ | x
  · rw [List.getElem?_eq_none_iff] at hg
    omega
  · rw [hg] at h
    exact h

theorem searchGo_sat {cnf : Cnf} :
    ∀ {fuel : Nat} {a p : List (Option Bool)},
      searchGo fuel cnf a = .ok (true, p) →
      cnf.eval_formula_partial p = some true ∧ p.length = a.length := by
  intro fuel
  induction fuel with
  | zero => intro a p h; cases h
  | succ fuel ih =>
      intro a p h
      rw [searchGo] at h
      rcases hup : unit_propagate cnf a with e | o
      · rw [hup] at h; cases h
      · rw [hup] at h
        rcases o with _ | a1
        · dsimp only at h
          injection h with h
          injection h with h1 h2
          exact Bool.noConfusion h1
        · dsimp only at h
          have hlen1 : a1.length = a.length := (unit_propagate_spec hup).2
          rcases hev : cnf.eval_formula_partial a1 with _ | b
          · rw [hev] at h
            dsimp only at h
            rcases hfu : first_unassigned a1 with _ | var
            · rw [hfu] at h
              dsimp only at h
              injection h with h
              injection h with h1 h2
              exact Bool.noConfusion h1
            · rw [hfu] at h
              dsimp only at h
              rcases hr1 : searchGo fuel cnf (a1.set var (some true)) with e | ⟨f1, r1⟩
              · rw [hr1] at h; cases h
              · rw [hr1] at h
                rcases f1 with _ | _
                · dsimp only at h
                  rcases hr2 : searchGo fuel cnf (a1.set var (some false))
                    with e | ⟨f2, r2⟩
                  · rw [hr2] at h; cases h
                  · rw [hr2] at h
                    rcases f2 with _ | _
                    · dsimp only at h
                      injection h with h
                      injection h with h1 h2
                      exact Bool.noConfusion h1
                    · dsimp only at h
                      injection h with h
                      injection h with h1 h2
                      subst h2
                      obtain ⟨g1, g2⟩ := ih hr2
                      rw [List.length_set] at g2
                      exact ⟨g1, by rw [g2, hlen1]⟩
                · dsimp only at h
                  injection h with h
                  injection h with h1 h2
                  subst h2
                  obtain ⟨g1, g2⟩ := ih hr1
                  rw [List.length_set] at g2
                  exact ⟨g1, by rw [g2, hlen1]⟩
          · rcases b with _ | _
            · rw [hev] at h
              dsimp only at h
              injection h with h
              injection h with h1 h2
              exact Bool.noConfusion h1
            · rw [hev] at h
              dsimp only at h
              injection h with h
              injection h with h1 h2
              subst h2
              exact ⟨hev, hlen1⟩

theorem searchGo_ok {n : Nat} {cnf : Cnf}
    (hws : ∀ cl ∈ cnf.clauses, ∀ l ∈ cl, 1 ≤ l.var ∧ l.var ≤ n) :
    ∀ (fuel : Nat) (a : List (Option Bool)), countNone a < fuel → n < a.length →
      ∃ r, searchGo fuel cnf a = .ok r := by
  intro fuel
  induction fuel with
  | zero => intro a h _; omega
  | succ fuel ih =>
      intro a hfuel hlen
      rw [searchGo]
      obtain ⟨r0, hr0⟩ := upFix_ok hws (countNone a + 1) a (by omega) hlen
      have hr0' : unit_propagate cnf a = .ok r0 := hr0
      rw [hr0']
      rcases r0 with _ | a1
      · exact ⟨_, rfl⟩
      · dsimp only
        obtain ⟨hc1, hl1⟩ := unit_propagate_spec hr0'
        rcases hev : cnf.eval_formula_partial a1 with _ | b
        · dsimp only
          rcases hfu : first_unassigned a1 with _ | var
          · exact ⟨_, rfl⟩
          · dsimp only
            obtain ⟨hv1, hv2, hv3⟩ := first_unassigned_spec hfu
            have hlt : countNone (a1.set var (some true)) < countNone a1 :=
              countNone_set_lt hv2 hv3
            have hlt2 : countNone (a1.set var (some false)) < countNone a1 :=
              countNone_set_lt hv2 hv3
            obtain ⟨⟨f1, r1⟩, hr1⟩ := ih (a1.set var (some true)) (by omega)
              (by rw [List.length_set]; omega)
            rw [hr1]
            rcases f1 with _ | _
            · dsimp only
              obtain ⟨⟨f2, r2⟩, hr2⟩ := ih (a1.set var (some false)) (by omega)
                (by rw [List.length_set]; omega)
              rw [hr2]
              rcases f2 with _ | _
              · exact ⟨_, rfl⟩
              · exact ⟨_, rfl⟩
            · exact ⟨_, rfl⟩
        · rcases b with _ | _
          · exact ⟨_, rfl⟩
          · exact ⟨_, rfl⟩

theorem searchGo_unsat {n : Nat} {cnf : Cnf} {τ : Nat → Bool}
    (hws : ∀ cl ∈ cnf.clauses, ∀ l ∈ cl, 1 ≤ l.var ∧ l.var ≤ n)
    (hsat : ∀ cl ∈ cnf.clauses, clauseSat τ cl = true) :
    ∀ {fuel : Nat} {a p : List (Option Bool)},
      searchGo fuel cnf a = .ok (false, p) → agrees τ a → a.length = n + 1 →
      False := by
  intro fuel
  induction fuel with
  | zero => intro a p h _ _; cases h
  | succ fuel ih =>
      intro a p h hag hlen
      rw [searchGo] at h
      rcases hup : unit_propagate cnf a with e | o
      · rw [hup] at h; cases h
      · rw [hup] at h
        obtain ⟨a1, ho, hag1⟩ := upFix_sem hup hag hsat
        subst ho
        dsimp only at h
        have hlen2 : a1.length = n + 1 := by
          rw [(unit_propagate_spec hup).2]; exact hlen
        rcases hev : cnf.eval_formula_partial a1 with _ | b
        · rw [hev] at h
          dsimp only at h
          rcases hfu : first_unassigned a1 with _ | var
          · rw [Cnf.eval_formula_partial] at hev
            rcases evalFormulaGo_none hev with h1 | ⟨c, hc, hc2⟩
            · exact Bool.noConfusion h1
            · rw [eval_clause_part] at hc2
              rcases evalClauseGo_isnone hc2 with h1 | ⟨l, hl, hl2⟩
              · exact Bool.noConfusion h1
              · have hvar := hws c hc l hl
                have hvlen : l.var < a1.length := by omega
                have hslot := eval_lit_none hl2 hvlen
                rw [first_unassigned, List.find?_eq_none] at hfu
                have hmem : l.var ∈ List.range' 1 (a1.length - 1) := by
                  rw [List.mem_range'_1]
                  omega
                have hcontra := hfu _ hmem
                rw [getD_some_false_none hvlen hslot] at hcontra
                simp at hcontra
          · rw [hfu] at h
            dsimp only at h
            obtain ⟨hv1, hv2, hv3⟩ := first_unassigned_spec hfu
            rcases hr1 : searchGo fuel cnf (a1.set var (some true)) with e | ⟨f1, r1⟩
            · rw [hr1] at h; cases h
            · rw [hr1] at h
              rcases f1 with _ | _
              · dsimp only at h
                rcases hr2 : searchGo fuel cnf (a1.set var (some false))
                  with e | ⟨f2, r2⟩
                · rw [hr2] at h; cases h
                · rw [hr2] at h
                  rcases f2 with _ | _
                  · cases hτ : τ var with
                    | false =>
                        exact ih hr2 (agrees_set hag1 hτ)
                          (by rw [List.length_set]; exact hlen2)
                    | true =>
                        exact ih hr1 (agrees_set hag1 hτ)
                          (by rw [List.length_set]; exact hlen2)
                  · dsimp only at h
                    injection h with h
                    injection h with h1 h2
                    exact Bool.noConfusion h1
              · dsimp only at h
                injection h with h
                injection h with h1 h2
                exact Bool.noConfusion h1
        · rcases b with _ | _
          · exact formula_false_contra hev hag1 hsat
          · rw [hev] at h
            dsimp only at h
            injection h with h
            injection h with h1 h2
            exact Bool.noConfusion h1

theorem countNone_replicate : ∀ k : Nat, countNone (List.replicate k none) = k := by
  intro k
  induction k with
  | zero => rfl
  | succ k ih =>
      rw [List.replicate_succ, countNone, List.countP_cons]
      rw [countNone] at ih
      rw [ih]
      simp

theorem agrees_replicate (τ : Nat → Bool) (k : Nat) :
    agrees τ (List.replicate k none) := by
  intro v b h
  rw [List.getD_eq_getElem?_getD, List.getElem?_replicate] at h
  split at h
  · exact Option.noConfusion h
  · exact Option.noConfusion h

theorem dpll_solve_sat {cnf : Cnf} {m : List Bool}
    (h : Dpll.solve cnf = .ok (.Sat m)) :
    m.length = cnf.num_vars + 1 ∧
      clausesSat (fun v => m.getD v false) cnf.clauses = true := by
  rw [Dpll.solve] at h
  simp only [bind, Except.bind] at h
  rcases hs : search cnf (List.replicate (cnf.num_vars + 1) none) with e | ⟨f, p⟩
  · rw [hs] at h; cases h
  · rw [hs] at h
    rcases f with _ | _
    · dsimp only at h; cases h
    · dsimp only at h
      injection h with h
      injection h with h
      obtain ⟨g1, g2⟩ := searchGo_sat hs
      rw [List.length_replicate] at g2
      subst h
      refine ⟨by rw [List.length_map, g2], ?_⟩
      have hfun : (fun v => (p.map (fun v => v.getD false)).getD v false) = fill p :=
        funext (getD_map_getD p)
      rw [hfun, clausesSat, List.all_eq_true]
      intro cl hcl
      exact formula_true_sat g1 (agrees_fill p) cl hcl

theorem dpll_solve_unsat {cnf : Cnf} {τ : Nat → Bool}
    (h : Dpll.solve cnf = .ok .Unsat)
    (hws : ∀ cl ∈ cnf.clauses, ∀ l ∈ cl, 1 ≤ l.var ∧ l.var ≤ cnf.num_vars)
    (hsat : ∀ cl ∈ cnf.clauses, clauseSat τ cl = true) : False := by
  rw [Dpll.solve] at h
  simp only [bind, Except.bind] at h
  rcases hs : search cnf (List.replicate (cnf.num_vars + 1) none) with e | ⟨f, p⟩
  · rw [hs] at h; cases h
  · rw [hs] at h
    rcases f with _ | _
    · exact searchGo_unsat hws hsat hs (agrees_replicate τ _)
        (by rw [List.length_replicate])
    · dsimp only at h
      injection h with h
      exact SatResult.noConfusion h

theorem dpll_solve_ok {cnf : Cnf}
    (hws : ∀ cl ∈ cnf.clauses, ∀ l ∈ cl, 1 ≤ l.var ∧ l.var ≤ cnf.num_vars) :
    ∃ r, Dpll.solve cnf = .ok r := by
  rw [Dpll.solve]
  simp only [bind, Except.bind]
  obtain ⟨⟨f, p⟩, hr⟩ := searchGo_ok hws
    (countNone (List.replicate (cnf.num_vars + 1) none) + 1)
    (List.replicate (cnf.num_vars + 1) none)
    (by omega) (by rw [List.length_replicate]; omega)
  have hr' : search cnf (List.replicate (cnf.num_vars + 1) none) = .ok (f, p) := hr
  rw [hr']
  rcases f with _ | _
  · exact ⟨_, rfl⟩
  · exact ⟨_, rfl⟩

theorem extAssign_at (M w : Nat) (τ : Nat → Bool) : extAssign M w τ M = true := by
  simp [extAssign]

theorem extAssign_scope {M w : Nat} (τ : Nat → Bool) (h : w ≠ M) :
    extAssign M w τ w = false := by
  simp [extAssign, h]

theorem extAssign_low {M w v : Nat} (τ : Nat → Bool) (h1 : v ≠ M) (h2 : v ≠ w) :
    extAssign M w τ v = τ v := by
  simp only [extAssign]
  rw [if_neg h1, if_neg h2]

theorem dropAssign_at (w : Nat) (τ : Nat → Bool) : dropAssign w τ w = false := by
  simp [dropAssign]

theorem dropAssign_low {w v : Nat} (τ : Nat → Bool) (h : v ≠ w) :
    dropAssign w τ v = τ v := by
  simp only [dropAssign]
  rw [if_neg h]

theorem cutAssign_le {n v : Nat} (τ : Nat → Bool) (h : v ≤ n) :
    cutAssign n τ v = τ v := by
  simp only [cutAssign]
  rw [if_pos h]

theorem cutAssign_gt {n v : Nat} (τ : Nat → Bool) (h : n < v) :
    cutAssign n τ v = false := by
  simp only [cutAssign]
  rw [if_neg (by omega)]

theorem litSat_mk {τ : Nat → Bool} {v : Nat} {b : Bool} :
    litSat τ ⟨v, b⟩ = true ↔ τ v = b := by
  rw [litSat]
  cases b <;> simp

theorem map_eq_map_iff_mem {τ g : Nat → Bool} :
    ∀ {P : List Nat}, P.map τ = P.map g ↔ ∀ v ∈ P, τ v = g v := by
  intro P
  induction P with
  | nil => simp
  | cons v rest ih =>
      simp only [List.map_cons, List.cons.injEq, List.mem_cons]
      constructor
      · rintro ⟨h1, h2⟩ x hx
        rcases hx with rfl | hx
        · exact h1
        · exact ih.mp h2 x hx
      · intro h
        exact ⟨h v (Or.inl rfl), ih.mpr (fun x hx => h x (Or.inr hx))⟩

theorem clauseSat_congr {τ σ : Nat → Bool} :
    ∀ {cl : List Lit}, (∀ l ∈ cl, τ l.var = σ l.var) →
      clauseSat τ cl = clauseSat σ cl := by
  intro cl
  induction cl with
  | nil => intro _; rfl
  | cons l rest ih =>
      intro h
      rw [clauseSat, clauseSat, List.any_cons, List.any_cons]
      have h1 : litSat τ l = litSat σ l := by
        rw [litSat, litSat, h l (List.mem_cons_self _ _)]
      have h2 := ih (fun x hx => h x (List.mem_cons_of_mem _ hx))
      rw [clauseSat, clauseSat] at h2
      rw [h1, h2]

theorem clausesSat_congr {τ σ : Nat → Bool} :
    ∀ {cls : List (List Lit)}, (∀ cl ∈ cls, ∀ l ∈ cl, τ l.var = σ l.var) →
      clausesSat τ cls = clausesSat σ cls := by
  intro cls
  induction cls with
  | nil => intro _; rfl
  | cons c rest ih =>
      intro h
      rw [clausesSat, clausesSat, List.all_cons, List.all_cons]
      have h1 := clauseSat_congr (h c (List.mem_cons_self _ _))
      have h2 := ih (fun x hx => h x (List.mem_cons_of_mem _ hx))
      rw [clausesSat, clausesSat] at h2
      rw [h1, h2]

theorem all_litSat_congr {τ σ : Nat → Bool} :
    ∀ {A : List Lit}, (∀ l ∈ A, τ l.var = σ l.var) →
      A.all (litSat τ) = A.all (litSat σ) := by
  intro A
  induction A with
  | nil => intro _; rfl
  | cons l rest ih =>
      intro h
      rw [List.all_cons, List.all_cons]
      have h1 : litSat τ l = litSat σ l := by
        rw [litSat, litSat, h l (List.mem_cons_self _ _)]
      rw [h1, ih (fun x hx => h x (List.mem_cons_of_mem _ hx))]

theorem clausesSat_append {τ : Nat → Bool} {xs ys : List (List Lit)} :
    clausesSat τ (xs ++ ys) = (clausesSat τ xs && clausesSat τ ys) := by
  rw [clausesSat, clausesSat, clausesSat, List.all_append]

theorem clausesSat_units {τ : Nat → Bool} :
    ∀ {L : List Lit}, clausesSat τ (L.map (fun l => [l])) = L.all (litSat τ) := by
  intro L
  induction L with
  | nil => rfl
  | cons l rest ih =>
      rw [List.map_cons, clausesSat, List.all_cons, List.all_cons]
      rw [clausesSat] at ih
      rw [ih]
      have h1 : clauseSat τ [l] = litSat τ l := by
        rw [clauseSat, List.any_cons, List.any_nil, Bool.or_false]
      rw [h1]

theorem act_true_of_all {τ : Nat → Bool} {A : List Lit} {N : Nat}
    (hall : (A ++ [(⟨N, true⟩ : Lit)]).all (litSat τ) = true) : τ N = true := by
  rw [List.all_append, Bool.and_eq_true] at hall
  have h2 := hall.2
  rw [List.all_cons, List.all_nil, Bool.and_true] at h2
  exact litSat_mk.mp h2

theorem mem_projModels {cls : List (List Lit)} {A : List Lit} {P : List Nat}
    {n : Nat} {π : List Bool} :
    π ∈ projModels cls A P n ↔
      ∃ τ : Nat → Bool, (∀ v, n < v → τ v = false) ∧
        clausesSat τ cls = true ∧ A.all (litSat τ) = true ∧ π = P.map τ := by
  constructor
  · intro h
    rw [projModels, Finset.mem_image] at h
    obtain ⟨f, hf, hπ⟩ := h
    simp only [Finset.mem_filter] at hf
    refine ⟨truncAssign n f, ?_, hf.2.1, hf.2.2, hπ.symm⟩
    intro v hv
    simp only [truncAssign]
    rw [dif_neg (by omega)]
  · rintro ⟨τ, hob, hsat, hall, rfl⟩
    rw [projModels, Finset.mem_image]
    have he : truncAssign n (fun i : Fin (n + 1) => τ i.val) = τ := by
      funext v
      simp only [truncAssign]
      by_cases hv : v < n + 1
      · rw [dif_pos hv]
      · rw [dif_neg hv, hob v (by omega)]
    refine ⟨fun i : Fin (n + 1) => τ i.val, ?_, ?_⟩
    · simp only [Finset.mem_filter, he]
      exact ⟨Finset.mem_univ _, hsat, hall⟩
    · rw [he]

theorem block_clauseSat {τ : Nat → Bool} {N : Nat} {P : List Nat} {g : Nat → Bool}
    (hN : τ N = true) :
    clauseSat τ (⟨N, false⟩ :: P.map (fun v => Lit.mk v (g v))) = true
      ↔ ∃ v ∈ P, τ v = g v := by
  have hhead : litSat τ (⟨N, false⟩ : Lit) = false := by
    rw [litSat]
    simp [hN]
  rw [clauseSat, List.any_cons, hhead, Bool.false_or, List.any_eq_true]
  constructor
  · rintro ⟨x, hx, hl⟩
    rw [List.mem_map] at hx
    obtain ⟨v, hv, rfl⟩ := hx
    exact ⟨v, hv, litSat_mk.mp hl⟩
  · rintro ⟨v, hv, hl⟩
    exact ⟨⟨v, g v⟩, List.mem_map.mpr ⟨v, hv, rfl⟩, litSat_mk.mpr hl⟩

theorem projModels_erase {C B : List (List Lit)} {A : List Lit} {P : List Nat}
    {N : Nat} {g : Nat → Bool} :
    projModels (C ++ (B ++ [⟨N, false⟩ :: P.map (fun v => Lit.mk v (g v))]))
        (A ++ [⟨N, true⟩]) P N
      = (projModels (C ++ B) (A ++ [⟨N, true⟩]) P N).erase
          (P.map (fun v => !(g v))) := by
  apply Finset.ext
  intro π
  rw [Finset.mem_erase, mem_projModels, mem_projModels]
  constructor
  · rintro ⟨τ, hob, hsat, hall, rfl⟩
    have hact : τ N = true := act_true_of_all hall
    rw [← List.append_assoc, clausesSat_append, Bool.and_eq_true] at hsat
    obtain ⟨hsat1, hsat2⟩ := hsat
    rw [clausesSat, List.all_cons, List.all_nil, Bool.and_true] at hsat2
    obtain ⟨v, hv, hveq⟩ := (block_clauseSat hact).mp hsat2
    refine ⟨?_, τ, hob, hsat1, hall, rfl⟩
    intro hcontra
    rw [map_eq_map_iff_mem] at hcontra
    have hcv := hcontra v hv
    rw [hveq] at hcv
    simp at hcv
  · rintro ⟨hne, τ, hob, hsat, hall, rfl⟩
    have hact : τ N = true := act_true_of_all hall
    refine ⟨τ, hob, ?_, hall, rfl⟩
    rw [← List.append_assoc, clausesSat_append, Bool.and_eq_true]
    refine ⟨hsat, ?_⟩
    rw [clausesSat, List.all_cons, List.all_nil, Bool.and_true]
    rw [block_clauseSat hact]
    by_contra hno
    push_neg at hno
    apply hne
    rw [map_eq_map_iff_mem]
    intro v hv
    have h2 := hno v hv
    cases hg : g v
    · rw [hg] at h2
      simp at h2 ⊢
      exact h2
    · rw [hg] at h2
      simp at h2 ⊢
      exact h2

theorem projModels_scope_nil {C : List (List Lit)} {A : List Lit} {P : List Nat}
    {n M : Nat} (hM : n < M)
    (hC : WS n C) (hA : ∀ l ∈ A, 1 ≤ l.var ∧ l.var ≤ n)
    (hP : ∀ v ∈ P, 1 ≤ v ∧ v ≤ n) :
    projModels C (A ++ [⟨M, true⟩]) P M = projModels C A P n := by
  apply Finset.ext
  intro π
  rw [mem_projModels, mem_projModels]
  constructor
  · rintro ⟨τ, hob, hsat, hall, rfl⟩
    rw [List.all_append, Bool.and_eq_true] at hall
    refine ⟨cutAssign n τ, fun v hv => cutAssign_gt τ hv, ?_, ?_, ?_⟩
    · rw [← hsat]
      apply clausesSat_congr
      intro cl hcl l hl
      exact cutAssign_le τ (hC cl hcl l hl).2
    · rw [← hall.1]
      apply all_litSat_congr
      intro l hl
      exact cutAssign_le τ (hA l hl).2
    · rw [map_eq_map_iff_mem]
      intro v hv
      exact (cutAssign_le τ (hP v hv).2).symm
  · rintro ⟨τ, hob, hsat, hall, rfl⟩
    refine ⟨extAssign M M τ, ?_, ?_, ?_, ?_⟩
    · intro v hv
      rw [extAssign_low τ (by omega) (by omega)]
      exact hob v (by omega)
    · rw [← hsat]
      apply clausesSat_congr
      intro cl hcl l hl
      have hv := hC cl hcl l hl
      exact extAssign_low τ (by omega) (by omega)
    · rw [List.all_append, Bool.and_eq_true]
      constructor
      · rw [← hall]
        apply all_litSat_congr
        intro l hl
        have hv := hA l hl
        exact extAssign_low τ (by omega) (by omega)
      · rw [List.all_cons, List.all_nil, Bool.and_true]
        exact litSat_mk.mpr (extAssign_at M M τ)
    · rw [map_eq_map_iff_mem]
      intro v hv
      have h := hP v hv
      exact (extAssign_low τ (by omega) (by omega)).symm

theorem projModels_scope_blocks {C B : List (List Lit)} {A : List Lit}
    {P : List Nat} {n w M : Nat} (hw : n < w) (hwM : w < M)
    (hC : WS n C) (hA : ∀ l ∈ A, 1 ≤ l.var ∧ l.var ≤ n)
    (hP : ∀ v ∈ P, 1 ≤ v ∧ v ≤ n) (hB : ScopedBlocks w P B) :
    projModels (C ++ B) (A ++ [⟨M, true⟩]) P M = projModels C A P n := by
  apply Finset.ext
  intro π
  rw [mem_projModels, mem_projModels]
  constructor
  · rintro ⟨τ, hob, hsat, hall, rfl⟩
    rw [clausesSat_append, Bool.and_eq_true] at hsat
    rw [List.all_append, Bool.and_eq_true] at hall
    refine ⟨cutAssign n τ, fun v hv => cutAssign_gt τ hv, ?_, ?_, ?_⟩
    · rw [← hsat.1]
      apply clausesSat_congr
      intro cl hcl l hl
      exact cutAssign_le τ (hC cl hcl l hl).2
    · rw [← hall.1]
      apply all_litSat_congr
      intro l hl
      exact cutAssign_le τ (hA l hl).2
    · rw [map_eq_map_iff_mem]
      intro v hv
      exact (cutAssign_le τ (hP v hv).2).symm
  · rintro ⟨τ, hob, hsat, hall, rfl⟩
    refine ⟨extAssign M w τ, ?_, ?_, ?_, ?_⟩
    · intro v hv
      rw [extAssign_low τ (by omega) (by omega)]
      exact hob v (by omega)
    · rw [clausesSat_append, Bool.and_eq_true]
      constructor
      · rw [← hsat]
        apply clausesSat_congr
        intro cl hcl l hl
        have hv := hC cl hcl l hl
        exact extAssign_low τ (by omega) (by omega)
      · rw [clausesSat, List.all_eq_true]
        intro cl hcl
        obtain ⟨g, hg⟩ := hB cl hcl
        subst hg
        rw [clauseSat, List.any_cons]
        have hhead : litSat (extAssign M w τ) (⟨w, false⟩ : Lit) = true := by
          rw [litSat]
          simp [extAssign_scope τ (by omega : w ≠ M)]
        rw [hhead, Bool.true_or]
    · rw [List.all_append, Bool.and_eq_true]
      constructor
      · rw [← hall]
        apply all_litSat_congr
        intro l hl
        have hv := hA l hl
        exact extAssign_low τ (by omega) (by omega)
      · rw [List.all_cons, List.all_nil, Bool.and_true]
        exact litSat_mk.mpr (extAssign_at M w τ)
    · rw [map_eq_map_iff_mem]
      intro v hv
      have h := hP v hv
      exact (extAssign_low τ (by omega) (by omega)).symm

theorem projModels_drop_blocks {C B : List (List Lit)} {A : List Lit}
    {P : List Nat} {n w M : Nat} (hw : n < w) (hwM : w ≤ M) (hnM : n < M)
    (hC : WS n C) (hA : ∀ l ∈ A, 1 ≤ l.var ∧ l.var ≤ n)
    (hP : ∀ v ∈ P, 1 ≤ v ∧ v ≤ n) (hB : ScopedBlocks w P B) :
    projModels (C ++ B) A P M = projModels C A P n := by
  apply Finset.ext
  intro π
  rw [mem_projModels, mem_projModels]
  constructor
  · rintro ⟨τ, hob, hsat, hall, rfl⟩
    rw [clausesSat_append, Bool.and_eq_true] at hsat
    refine ⟨cutAssign n τ, fun v hv => cutAssign_gt τ hv, ?_, ?_, ?_⟩
    · rw [← hsat.1]
      apply clausesSat_congr
      intro cl hcl l hl
      exact cutAssign_le τ (hC cl hcl l hl).2
    · rw [← hall]
      apply all_litSat_congr
      intro l hl
      exact cutAssign_le τ (hA l hl).2
    · rw [map_eq_map_iff_mem]
      intro v hv
      exact (cutAssign_le τ (hP v hv).2).symm
  · rintro ⟨τ, hob, hsat, hall, rfl⟩
    refine ⟨dropAssign w τ, ?_, ?_, ?_, ?_⟩
    · intro v hv
      rw [dropAssign_low τ (by omega)]
      exact hob v (by omega)
    · rw [clausesSat_append, Bool.and_eq_true]
      constructor
      · rw [← hsat]
        apply clausesSat_congr
        intro cl hcl l hl
        have hv := hC cl hcl l hl
        exact dropAssign_low τ (by omega)
      · rw [clausesSat, List.all_eq_true]
        intro cl hcl
        obtain ⟨g, hg⟩ := hB cl hcl
        subst hg
        rw [clauseSat, List.any_cons]
        have hhead : litSat (dropAssign w τ) (⟨w, false⟩ : Lit) = true := by
          rw [litSat]
          simp [dropAssign_at w τ]
        rw [hhead, Bool.true_or]
    · rw [← hall]
      apply all_litSat_congr
      intro l hl
      have hv := hA l hl
      exact dropAssign_low τ (by omega)
    · rw [map_eq_map_iff_mem]
      intro v hv
      have h := hP v hv
      exact (dropAssign_low τ (by omega)).symm

theorem foldl_add_clause :
    ∀ (L : List Lit) (cnf : Cnf),
      L.foldl (fun w a => w.add_clause [a]) cnf
        = ⟨cnf.num_vars, cnf.clauses ++ L.map (fun a => [a])⟩ := by
  intro L
  induction L with
  | nil =>
      intro cnf
      cases cnf
      simp
  | cons l rest ih =>
      intro cnf
      rw [List.foldl_cons, ih]
      simp [Cnf.add_clause]

theorem solveImpl_sem (s : DpllSolverBackend) {asms : List Lit}
    (hws : WS s.cnf.num_vars s.cnf.clauses)
    (hA : ∀ l ∈ asms, 1 ≤ l.var ∧ l.var ≤ s.cnf.num_vars) :
    ∃ (lm : Option (List Bool)) (r : SolveResult),
      DpllSolverBackend.solveImpl s asms
        = .ok (⟨s.cnf, lm, ⟨s.stats.solve_calls + 1, s.stats.decisions,
            s.stats.conflicts⟩⟩, r) ∧
      ((∃ m, lm = some m ∧ r = .Sat ∧ m.length = s.cnf.num_vars + 1 ∧
          clausesSat (fun v => m.getD v false) s.cnf.clauses = true ∧
          asms.all (litSat (fun v => m.getD v false)) = true) ∨
       (lm = none ∧ r = .Unsat ∧ ∀ τ : Nat → Bool,
          clausesSat τ s.cnf.clauses = true → asms.all (litSat τ) = true →
          False)) := by
  have hwork := foldl_add_clause asms s.cnf
  have hwws : ∀ cl ∈ (asms.foldl (fun w a => w.add_clause [a]) s.cnf).clauses,
      ∀ l ∈ cl, 1 ≤ l.var ∧
        l.var ≤ (asms.foldl (fun w a => w.add_clause [a]) s.cnf).num_vars := by
    rw [hwork]
    intro cl hcl l hl
    rcases List.mem_append.mp hcl with hcl | hcl
    · exact hws cl hcl l hl
    · rw [List.mem_map] at hcl
      obtain ⟨x, hx, rfl⟩ := hcl
      rcases List.mem_cons.mp hl with rfl | hl
      · exact hA l hx
      · simp at hl
  obtain ⟨r0, hr0⟩ := dpll_solve_ok hwws
  rcases r0 with m | _
  · -- Sat
    have hsm : Dpll.solve_model (asms.foldl (fun w a => w.add_clause [a]) s.cnf)
        = .ok (some m) := by
      rw [Dpll.solve_model]
      simp only [bind, Except.bind]
      rw [hr0]
    have heq : DpllSolverBackend.solveImpl s asms
        = .ok (⟨s.cnf, some m, ⟨s.stats.solve_calls + 1, s.stats.decisions,
            s.stats.conflicts⟩⟩, .Sat) := by
      rw [DpllSolverBackend.solveImpl]
      simp only [bind, Except.bind]
      rw [hsm]
      rfl
    obtain ⟨g1, g2⟩ := dpll_solve_sat hr0
    rw [hwork] at g1 g2
    dsimp only at g1 g2
    rw [clausesSat_append, Bool.and_eq_true] at g2
    refine ⟨some m, .Sat, heq, Or.inl ⟨m, rfl, rfl, g1, g2.1, ?_⟩⟩
    rw [← clausesSat_units]
    exact g2.2
  · -- Unsat
    have hsm : Dpll.solve_model (asms.foldl (fun w a => w.add_clause [a]) s.cnf)
        = .ok none := by
      rw [Dpll.solve_model]
      simp only [bind, Except.bind]
      rw [hr0]
    have heq : DpllSolverBackend.solveImpl s asms
        = .ok (⟨s.cnf, none, ⟨s.stats.solve_calls + 1, s.stats.decisions,
            s.stats.conflicts⟩⟩, .Unsat) := by
      rw [DpllSolverBackend.solveImpl]
      simp only [bind, Except.bind]
      rw [hsm]
      rfl
    refine ⟨none, .Unsat, heq, Or.inr ⟨rfl, rfl, ?_⟩⟩
    intro τ hsat hall
    apply dpll_solve_unsat hr0 hwws
    intro cl hcl
    rw [hwork] at hcl
    dsimp only at hcl
    rcases List.mem_append.mp hcl with hcl | hcl
    · rw [clausesSat, List.all_eq_true] at hsat
      exact hsat cl hcl
    · have hus : clausesSat τ (asms.map (fun a => [a])) = true := by
        rw [clausesSat_units]
        exact hall
      rw [clausesSat, List.all_eq_true] at hus
      exact hus cl hcl

theorem mkBlock_dpll (s : DpllSolverBackend) (m : List Bool)
    (hs : s.last_model = some m) :
    ∀ {P : List Nat}, (∀ v ∈ P, v < m.length) →
      mkBlock dpllOps s P
        = .ok (P.map (fun v => Lit.mk v (!(m.getD v false)))) := by
  intro P
  induction P with
  | nil => intro _; rfl
  | cons v rest ih =>
      intro hP
      rw [mkBlock]
      have hmv : dpllOps.model_value s v = some (m.getD v false) := by
        show DpllSolverBackend.modelValue s v = _
        rw [DpllSolverBackend.modelValue, hs]
        show (if v < m.length then some (m.getD v false) else none) = _
        rw [if_pos (hP v (List.mem_cons_self _ _))]
      rw [hmv]
      simp only [bind, Except.bind]
      rw [ih (fun x hx => hP x (List.mem_cons_of_mem _ hx))]
      rfl

theorem dpllOps_solve_eq : dpllOps.solve = DpllSolverBackend.solveImpl := rfl

theorem add_scoped_dpll_act (s : DpllSolverBackend) (N : Nat) (clause : List Lit) :
    add_scoped_clause dpllOps s ⟨⟨N, true⟩⟩ clause
      = ⟨s.cnf.add_clause (⟨N, false⟩ :: clause), s.last_model, s.stats⟩ := rfl

/-- Exact semantics of the bounded enumeration loop on the reference DPLL
backend: it returns the number of still-unblocked projected models of the
loaded clauses under the base assumptions and the scope literal, clipped at
`cap + 1`, and extends the clause list only by scoped blocking clauses. -/
theorem boundedLoop_run {N : Nat} {C : List (List Lit)} {A : List Lit}
    {P : List Nat}
    (hC : ∀ cl ∈ C, ∀ l ∈ cl, 1 ≤ l.var ∧ l.var ≤ N)
    (hA : ∀ l ∈ A, 1 ≤ l.var ∧ l.var ≤ N)
    (hP : ∀ v ∈ P, 1 ≤ v ∧ v ≤ N)
    (hN : 1 ≤ N) :
    ∀ (cap fuel : Nat) (B : List (List Lit)) (lm : Option (List Bool))
      (stats : SolverStats) (count : Nat),
      ScopedBlocks N P B → count ≤ cap → fuel + count = cap + 1 →
      ∃ (sfin : DpllSolverBackend) (B2 : List (List Lit)),
        boundedLoop dpllOps P cap A ⟨⟨N, true⟩⟩ fuel ⟨⟨N, C ++ B⟩, lm, stats⟩ count
          = .ok (⟨min (count
                   + (projModels (C ++ B) (A ++ [⟨N, true⟩]) P N).card) (cap + 1),
                 decide (cap < count
                   + (projModels (C ++ B) (A ++ [⟨N, true⟩]) P N).card)⟩, sfin) ∧
        sfin.cnf = ⟨N, C ++ B2⟩ ∧ ScopedBlocks N P B2 := by
  intro cap fuel
  induction fuel with
  | zero => intro B lm stats count _ h1 h2; omega
  | succ fuel ih =>
      intro B lm stats count hB hcount hfuel
      have hwsstate : WS N (C ++ B) := by
        intro cl hcl l hl
        rcases List.mem_append.mp hcl with hcl | hcl
        · exact hC cl hcl l hl
        · obtain ⟨g, hg⟩ := hB cl hcl
          subst hg
          rcases List.mem_cons.mp hl with rfl | hl
          · exact ⟨hN, le_refl N⟩
          · rw [List.mem_map] at hl
            obtain ⟨v, hv, rfl⟩ := hl
            exact hP v hv
      have hA2 : ∀ l ∈ A ++ [(⟨N, true⟩ : Lit)], 1 ≤ l.var ∧ l.var ≤ N := by
        intro l hl
        rcases List.mem_append.mp hl with hl | hl
        · exact hA l hl
        · rcases List.mem_cons.mp hl with rfl | hl
          · exact ⟨hN, le_refl N⟩
          · simp at hl
      obtain ⟨lm1, r, hsolve, hcases⟩ :=
        solveImpl_sem ⟨⟨N, C ++ B⟩, lm, stats⟩ hwsstate hA2
      have hsolve2 : DpllSolverBackend.solveImpl ⟨⟨N, C ++ B⟩, lm, stats⟩
          (A ++ [(⟨N, true⟩ : Lit)])
          = .ok (⟨⟨N, C ++ B⟩, lm1, ⟨stats.solve_calls + 1, stats.decisions,
              stats.conflicts⟩⟩, r) := hsolve
      rw [boundedLoop]
      simp only [bind, Except.bind]
      rw [dpllOps_solve_eq, hsolve2]
      dsimp only
      rcases hcases with ⟨m, hlm, hr, hmlen, hmsat, hmall⟩ | ⟨hlm, hr, hτ⟩
      · subst hr
        subst hlm
        dsimp only
        have hmlen2 : m.length = N + 1 := hmlen
        have hτm : ∀ v, N < v → (fun v => m.getD v false) v = false := by
          intro v hv
          dsimp only
          rw [List.getD_eq_getElem?_getD,
            List.getElem?_eq_none_iff.mpr (by omega : m.length ≤ v)]
          rfl
        have hsplit : clausesSat (fun v => m.getD v false) (C ++ B) = true := hmsat
        have hall2 : (A ++ [(⟨N, true⟩ : Lit)]).all
            (litSat (fun v => m.getD v false)) = true := hmall
        have hπ : (P.map (fun v => m.getD v false))
            ∈ projModels (C ++ B) (A ++ [⟨N, true⟩]) P N :=
          mem_projModels.mpr ⟨_, hτm, hsplit, hall2, rfl⟩
        have hcard : 1 ≤ (projModels (C ++ B) (A ++ [⟨N, true⟩]) P N).card :=
          Finset.card_pos.mpr ⟨_, hπ⟩
        by_cases hcap : cap < count + 1
        · rw [if_pos hcap]
          have h1 : min (count
              + (projModels (C ++ B) (A ++ [(⟨N, true⟩ : Lit)]) P N).card) (cap + 1)
              = count + 1 := by omega
          have h2 : decide (cap < count
              + (projModels (C ++ B) (A ++ [(⟨N, true⟩ : Lit)]) P N).card)
              = true := by
            simp only [decide_eq_true_eq]
            omega
          rw [h1, h2]
          exact ⟨_, B, rfl, rfl, hB⟩
        · rw [if_neg hcap]
          have hmb := mkBlock_dpll ⟨⟨N, C ++ B⟩, some m,
              ⟨stats.solve_calls + 1, stats.decisions, stats.conflicts⟩⟩ m rfl
            (fun v hv => by have := hP v hv; omega)
          rw [hmb]
          dsimp only
          rw [add_scoped_dpll_act]
          dsimp only
          rw [Cnf.add_clause]
          dsimp only
          rw [List.append_assoc]
          have hnew : ScopedBlocks N P (B ++ [⟨N, false⟩
              :: P.map (fun v => Lit.mk v (!(m.getD v false)))]) := by
            intro cl hcl
            rcases List.mem_append.mp hcl with hcl | hcl
            · exact hB cl hcl
            · rcases List.mem_cons.mp hcl with rfl | hcl
              · exact ⟨fun v => !(m.getD v false), rfl⟩
              · simp at hcl
          obtain ⟨sfin, B2, hrun, hcnf, hsb⟩ := ih
            (B ++ [⟨N, false⟩ :: P.map (fun v => Lit.mk v (!(m.getD v false)))])
            (some m) ⟨stats.solve_calls + 1, stats.decisions, stats.conflicts⟩
            (count + 1) hnew (by omega) (by omega)
          rw [projModels_erase] at hrun
          have hgg : (fun v => !(!(m.getD v false))) = (fun v => m.getD v false) :=
            funext (fun v => Bool.not_not _)
          rw [hgg] at hrun
          rw [Finset.card_erase_of_mem hπ] at hrun
          have e1 : count + 1
              + ((projModels (C ++ B) (A ++ [(⟨N, true⟩ : Lit)]) P N).card - 1)
              = count + (projModels (C ++ B) (A ++ [(⟨N, true⟩ : Lit)]) P N).card := by
            omega
          rw [e1] at hrun
          exact ⟨sfin, B2, hrun, hcnf, hsb⟩
      · subst hr
        subst hlm
        dsimp only
        have hSempty : projModels (C ++ B) (A ++ [(⟨N, true⟩ : Lit)]) P N = ∅ := by
          rw [Finset.eq_empty_iff_forall_not_mem]
          intro π hπ
          rw [mem_projModels] at hπ
          obtain ⟨τ, hob, hsat, hall, _⟩ := hπ
          exact hτ τ hsat hall
        rw [hSempty, Finset.card_empty]
        simp only [Nat.add_zero]
        have h1 : min count (cap + 1) = count := by omega
        have h2 : decide (cap < count) = false := by
          rw [decide_eq_false_iff_not]
          omega
        rw [h1, h2]
        exact ⟨_, B, rfl, rfl, hB⟩

/-- Exact semantics of a bounded-count session on the reference DPLL
backend: the returned count is the number of projected models of the stored
clauses under the base assumptions, clipped at `cap + 1`. -/
theorem session_run {n : Nat} (st : DpllSolverBackend) (P : List Nat) (cap : Nat)
    (A : List Lit)
    (hnv : st.cnf.num_vars = n) (hU : n + 1 ≤ U32MAX)
    (hcls : WS n st.cnf.clauses)
    (hP : ∀ v ∈ P, 1 ≤ v ∧ v ≤ n)
    (hA : ∀ l ∈ A, 1 ≤ l.var ∧ l.var ≤ n) :
    ∃ (sfin : DpllSolverBackend) (B2 : List (List Lit)),
      projected_count_bounded_session dpllOps st P cap A
        = .ok (⟨min (projModels st.cnf.clauses A P n).card (cap + 1),
               decide (cap < (projModels st.cnf.clauses A P n).card)⟩, sfin) ∧
      sfin.cnf = ⟨n + 1, st.cnf.clauses ++ B2⟩ ∧ ScopedBlocks (n + 1) P B2 := by
  obtain ⟨⟨nv0, cls0⟩, lm0, stats0⟩ := st
  dsimp only at hnv hcls ⊢
  subst nv0
  rw [projected_count_bounded_session]
  have hz : P.any (fun v => decide (v = 0)) = false := by
    rw [List.any_eq_false]
    intro v hv
    have := hP v hv
    simp only [decide_eq_true_eq]
    omega
  rw [if_neg (by rw [hz]; simp)]
  have hns : new_scope dpllOps ⟨⟨n, cls0⟩, lm0, stats0⟩
      = (⟨⟨min (n + 1) U32MAX, cls0⟩, lm0, stats0⟩,
         ⟨⟨min (n + 1) U32MAX, true⟩⟩) := rfl
  have hmin : min (n + 1) U32MAX = n + 1 := min_eq_left hU
  rw [hmin] at hns
  rw [hns]
  dsimp only
  rw [projected_count_bounded_in_scope]
  have hC1 : ∀ cl ∈ cls0, ∀ l ∈ cl, 1 ≤ l.var ∧ l.var ≤ n + 1 := by
    intro cl hcl l hl
    have := hcls cl hcl l hl
    omega
  have hP1 : ∀ v ∈ P, 1 ≤ v ∧ v ≤ n + 1 := by
    intro v hv
    have := hP v hv
    omega
  have hA1 : ∀ l ∈ A, 1 ≤ l.var ∧ l.var ≤ n + 1 := by
    intro l hl
    have := hA l hl
    omega
  obtain ⟨sfin, B2, hrun, hcnf, hsb⟩ := boundedLoop_run hC1 hA1 hP1 (by omega)
    cap (cap + 1) [] lm0 stats0 0 (fun cl hcl => by simp at hcl)
    (by omega) (by omega)
  rw [List.append_nil] at hrun
  rw [projModels_scope_nil (by omega) hcls hA hP] at hrun
  simp only [Nat.zero_add] at hrun
  exact ⟨sfin, B2, hrun, hcnf, hsb⟩

/-- C3.  Two consecutive `projected_count_bounded_session` calls with
identical arguments on the same reference-DPLL solver state return the same
`(count, hit_cap)` result, and both runs complete without error: every
blocking clause added by the first call is guarded by that call's scope
activation literal, which the second call leaves free, so the first call's
blocking clauses do not constrain the second call.  Side conditions: the
stored clauses, the projection, and the base assumptions are well-scoped in
the solver's variables, and the `u32` variable allocator does not
saturate. -/
theorem c3_session_idempotent (st : DpllSolverBackend) (P : List Nat) (cap : Nat)
    (A : List Lit)
    (hU : st.cnf.num_vars + 2 ≤ U32MAX)
    (hcls : WS st.cnf.num_vars st.cnf.clauses)
    (hP : ∀ v ∈ P, 1 ≤ v ∧ v ≤ st.cnf.num_vars)
    (hA : ∀ l ∈ A, 1 ≤ l.var ∧ l.var ≤ st.cnf.num_vars) :
    ∃ bc st1 st2,
      projected_count_bounded_session dpllOps st P cap A = .ok (bc, st1) ∧
      projected_count_bounded_session dpllOps st1 P cap A = .ok (bc, st2) := by
  obtain ⟨st1, B1, hrun1, hcnf1, hsb1⟩ :=
    session_run st P cap A rfl (by omega) hcls hP hA
  have hnv1 : st1.cnf.num_vars = st.cnf.num_vars + 1 := by rw [hcnf1]
  have hcls1 : WS (st.cnf.num_vars + 1) st1.cnf.clauses := by
    rw [hcnf1]
    intro cl hcl l hl
    rcases List.mem_append.mp hcl with hcl | hcl
    · have := hcls cl hcl l hl
      omega
    · obtain ⟨g, hg⟩ := hsb1 cl hcl
      subst hg
      rcases List.mem_cons.mp hl with rfl | hl
      · dsimp only
        omega
      · rw [List.mem_map] at hl
        obtain ⟨v, hv, rfl⟩ := hl
        have := hP v hv
        dsimp only
        omega
  have hP1 : ∀ v ∈ P, 1 ≤ v ∧ v ≤ st.cnf.num_vars + 1 := by
    intro v hv
    have := hP v hv
    omega
  have hA1 : ∀ l ∈ A, 1 ≤ l.var ∧ l.var ≤ st.cnf.num_vars + 1 := by
    intro l hl
    have := hA l hl
    omega
  obtain ⟨st2, B2, hrun2, hcnf2, hsb2⟩ :=
    session_run st1 P cap A hnv1 (by omega) hcls1 hP1 hA1
  have hdrop : projModels st1.cnf.clauses A P (st.cnf.num_vars + 1)
      = projModels st.cnf.clauses A P st.cnf.num_vars := by
    rw [hcnf1]
    exact projModels_drop_blocks (by omega) (le_refl _) (by omega) hcls hA hP hsb1
  rw [hdrop] at hrun2
  exact ⟨_, st1, st2, hrun1, hrun2⟩

/-- C3 witness: two consecutive cap-2 sessions on the reference DPLL
backend loaded with the clause `(x1 ∨ x2)`, projected on `{1, 2}`. -/
theorem c3_session_idempotent_witness :
    ∃ bc st1 st2,
      projected_count_bounded_session dpllOps c2State [1, 2] 2 [] = .ok (bc, st1) ∧
      projected_count_bounded_session dpllOps st1 [1, 2] 2 [] = .ok (bc, st2) :=
  c3_session_idempotent c2State [1, 2] 2 [] (by decide)
    (by unfold WS; decide) (by decide) (by decide)

/-! ### Claim C1: evaluation of the simplified circuit -/

/-- C1 counterexample.  On `xorPairAig` (a well-formed two-input AIG whose
output is constantly false) with output index 0 and input assignment
`[false, false]`: the original circuit evaluates to `[false]`, the cone
`COI(0)` contains both inputs, so the claimed projection keeps both bits,
but `simplify_output` reduces the circuit to a constant with NO inputs, so
evaluating it on the claimed 2-bit projection fails the input-arity
assertion (modelled as `none`) instead of yielding `false`. -/
theorem c1_eval_projection_counterexample :
    xorPairAig.eval [false, false] = some [false] ∧
    (xorPairAig.coi 0).map (fun c => c.input_ids) = .ok [1, 2] ∧
    claimedProj xorPairAig 0 [false, false] = .ok [false, false] ∧
    xorPairAig.simplify_output 0 = .ok ⟨0, [], [⟨0, false⟩], []⟩ ∧
    (⟨0, [], [⟨0, false⟩], []⟩ : Aig).eval [false, false] = none :=
  ⟨by decide, by rfl, by rfl, by rfl, by decide⟩

theorem setValue_at (f : Nat → Bool) (id : Nat) (v : Bool) : setValue f id v id = v := by
  simp [setValue]

theorem setValue_ne (f : Nat → Bool) {id w : Nat} (v : Bool) (h : w ≠ id) :
    setValue f id v w = f w := by
  simp [setValue, h]

theorem setInputs_notmem :
    ∀ {pairs : List (Nat × Bool)} {f : Nat → Bool} {v : Nat},
      (∀ p ∈ pairs, p.1 ≠ v) → setInputs pairs f v = f v := by
  intro pairs
  induction pairs with
  | nil => intro f v _; rfl
  | cons p rest ih =>
      intro f v h
      rcases p with ⟨a, c⟩
      rw [setInputs]
      rw [ih (fun q hq => h q (List.mem_cons_of_mem _ hq))]
      exact setValue_ne f c (fun he => h (a, c) (List.mem_cons_self _ _) he.symm)

theorem setInputs_mem_nodup :
    ∀ {pairs : List (Nat × Bool)} {f : Nat → Bool} {v : Nat} {b : Bool},
      (pairs.map Prod.fst).Nodup → (v, b) ∈ pairs → setInputs pairs f v = b := by
  intro pairs
  induction pairs with
  | nil => intro f v b _ h; simp at h
  | cons p rest ih =>
      intro f v b hnd hmem
      rcases p with ⟨a, c⟩
      rw [List.map_cons, List.nodup_cons] at hnd
      rw [setInputs]
      rcases List.mem_cons.mp hmem with heq | hmem
      · injection heq with h1 h2
        subst h1
        subst h2
        rw [setInputs_notmem ?hnm]
        case hnm =>
          intro q hq heq2
          have hmm2 := List.mem_map_of_mem Prod.fst hq
          rw [heq2] at hmm2
          exact hnd.1 hmm2
        exact setValue_at f v b
      · exact ih hnd.2 hmem

theorem evalAnds_append (xs ys : List AndGate) (f : Nat → Bool) :
    evalAnds (xs ++ ys) f = evalAnds ys (evalAnds xs f) := by
  induction xs generalizing f with
  | nil => rfl
  | cons g rest ih => rw [List.cons_append, evalAnds, evalAnds, ih]

theorem evalAnds_stable :
    ∀ {gates : List AndGate} {f : Nat → Bool} {v : Nat},
      (∀ g ∈ gates, g.id ≠ v) → evalAnds gates f v = f v := by
  intro gates
  induction gates with
  | nil => intro f v _; rfl
  | cons g rest ih =>
      intro f v h
      rw [evalAnds]
      rw [ih (fun q hq => h q (List.mem_cons_of_mem _ hq))]
      exact setValue_ne f _ (fun he => h g (List.mem_cons_self _ _) he.symm)

theorem lit_value_congr {l : AigLit} {f h : Nat → Bool} (he : f l.id = h l.id) :
    lit_value l f = lit_value l h := by
  simp only [lit_value]
  rw [he]

theorem evalAnds_gate :
    ∀ {gates : List AndGate} {f : Nat → Bool},
      gates.Pairwise (fun g1 g2 => g1.id < g2.id) →
      (∀ g ∈ gates, g.a.id < g.id ∧ g.b.id < g.id) →
      ∀ g ∈ gates, evalAnds gates f g.id
        = (lit_value g.a (evalAnds gates f) && lit_value g.b (evalAnds gates f)) := by
  intro gates
  induction gates with
  | nil => intro f _ _ g hg; simp at hg
  | cons g0 rest ih =>
      intro f hpw hfan g hg
      rw [List.pairwise_cons] at hpw
      rcases List.mem_cons.mp hg with rfl | hg
      · have hfa := (hfan g (List.mem_cons_self _ _)).1
        have hfb := (hfan g (List.mem_cons_self _ _)).2
        have hgt : ∀ q ∈ rest, q.id ≠ g.id := by
          intro q hq
          have := hpw.1 q hq
          omega
      -- the final value of a fanin is its base value
        have hsa : f g.a.id = evalAnds (g :: rest) f g.a.id := by
          rw [evalAnds]
          rw [evalAnds_stable (fun q hq => by have := hpw.1 q hq; omega)]
          rw [setValue_ne f _ (by omega)]
        have hsb : f g.b.id = evalAnds (g :: rest) f g.b.id := by
          rw [evalAnds]
          rw [evalAnds_stable (fun q hq => by have := hpw.1 q hq; omega)]
          rw [setValue_ne f _ (by omega)]
        have hval : evalAnds (g :: rest) f g.id
            = (lit_value g.a f && lit_value g.b f) := by
          rw [evalAnds]
          rw [evalAnds_stable hgt]
          exact setValue_at f g.id _
        rw [hval, lit_value_congr hsa, lit_value_congr hsb]
      · rw [evalAnds]
        exact ih hpw.2 (fun q hq => hfan q (List.mem_cons_of_mem _ hq)) g hg

theorem map_fst_zip_sublist {α β : Type} :
    ∀ (l : List α) (l2 : List β), ((l.zip l2).map Prod.fst).Sublist l := by
  intro l
  induction l with
  | nil => intro l2; simp
  | cons a rest ih =>
      intro l2
      cases l2 with
      | nil => simp
      | cons b rest2 =>
          rw [List.zip_cons_cons, List.map_cons]
          exact List.Sublist.cons₂ a (ih rest2)

theorem values_input {aig : Aig} (x : List Bool) (hwf : WfAig aig) {v : Nat} {b : Bool}
    (hmem : (v, b) ∈ aig.inputs.zip x) :
    aig.values x v = b := by
  obtain ⟨hin, hnd, hdisj, hpw, hgw⟩ := hwf
  have hvin : v ∈ aig.inputs := (List.of_mem_zip hmem).1
  rw [Aig.values]
  rw [evalAnds_stable (fun g hgm => hdisj v hvin g hgm)]
  exact setInputs_mem_nodup (hnd.sublist (map_fst_zip_sublist _ _)) hmem

theorem values_gate {aig : Aig} (x : List Bool) (hwf : WfAig aig) {g : AndGate}
    (hg : g ∈ aig.ands) :
    aig.values x g.id
      = (lit_value g.a (aig.values x) && lit_value g.b (aig.values x)) := by
  obtain ⟨hin, hnd, hdisj, hpw, hgw⟩ := hwf
  exact evalAnds_gate hpw (fun q hq => ⟨(hgw q hq).2.2.1, (hgw q hq).2.2.2⟩) g hg

theorem is_false_eq {x : AigLit} : is_false x = true ↔ x = ⟨0, false⟩ := by
  rcases x with ⟨id, neg⟩
  cases neg <;> simp [is_false, AigLit.mk.injEq]

theorem is_true_eq {x : AigLit} : is_true x = true ↔ x = ⟨0, true⟩ := by
  rcases x with ⟨id, neg⟩
  cases neg <;> simp [is_true, AigLit.mk.injEq]

theorem lit_value_const0 (neg : Bool) (W : Nat → Bool) :
    lit_value ⟨0, neg⟩ W = neg := by
  cases neg <;> rfl

theorem apply_neg_value (x : AigLit) (s : Bool) (W : Nat → Bool) :
    lit_value (apply_neg x s) W = (if s then !(lit_value x W) else lit_value x W) := by
  cases s
  · simp [apply_neg]
  · simp only [apply_neg, if_pos, lit_value]
    cases hx : x.neg <;> simp

theorem lit_value_negate {x y : AigLit} {W : Nat → Bool} (hid : y.id = x.id)
    (hneg : y.neg = !x.neg) :
    lit_value y W = !(lit_value x W) := by
  rcases x with ⟨ix, nx⟩
  rcases y with ⟨iy, ny⟩
  simp only at hid hneg
  subst hid
  subst hneg
  simp only [lit_value]
  cases nx <;> simp

theorem fold_and_value {a b lit : AigLit} (h : fold_and a b = some lit)
    (W : Nat → Bool) :
    lit_value lit W = (lit_value a W && lit_value b W) := by
  rw [fold_and] at h
  split_ifs at h with h1 h2 h3 h4 h5
  · injection h with h
    subst h
    rw [Bool.or_eq_true] at h1
    rcases h1 with hf | hf
    · rw [is_false_eq.mp hf, false_lit, lit_value_const0]
      simp
    · rw [is_false_eq.mp hf, false_lit, lit_value_const0]
      simp
  · injection h with h
    subst h
    rw [is_true_eq.mp h2, lit_value_const0]
    simp
  · injection h with h
    subst h
    rw [is_true_eq.mp h3, lit_value_const0]
    simp
  · injection h with h
    subst h
    rw [← h4]
    simp
  · injection h with h
    subst h
    simp only [Bool.and_eq_true, decide_eq_true_eq] at h5
    obtain ⟨h5a, h5b⟩ := h5
    have hneg2 : b.neg = !a.neg := by
      cases ha : a.neg <;> cases hb : b.neg <;> simp_all
    rw [false_lit, lit_value_const0]
    rw [lit_value_negate h5a.symm hneg2]
    simp

theorem andKey_value (a b : AigLit) (W : Nat → Bool) :
    (lit_value (AndKey.new a b).1 W && lit_value (AndKey.new a b).2 W)
      = (lit_value a W && lit_value b W) := by
  rw [AndKey.new]
  split
  · rfl
  · exact Bool.and_comm _ _

theorem filter_zip_fst (q : Nat → Bool) :
    ∀ (l : List Nat) (x : List Bool), l.length = x.length →
      ((l.zip x).filter (fun p => q p.1)).map Prod.fst = l.filter q := by
  intro l
  induction l with
  | nil => intro x _; simp
  | cons a rest ih =>
      intro x hlen
      cases x with
      | nil => simp at hlen
      | cons b xs =>
          rw [List.zip_cons_cons, List.filter_cons, List.filter_cons]
          simp only [List.length_cons] at hlen
          by_cases hq : q a
          · rw [if_pos (by simpa using hq), if_pos hq, List.map_cons,
              ih xs (by omega)]
          · rw [if_neg (by simpa using hq), if_neg hq, ih xs (by omega)]

theorem restrictInputs_spec (coi : CoiInfo) (maxId : Nat) :
    ∀ (inputs : List Nat) (remap : Nat → Option Nat) (next : Nat) (acc : List Nat),
      (restrictInputs coi maxId inputs remap next acc).2.1
        = next + (inputs.filter
            (fun id => decide (id ≤ maxId) && coi.contains_node id)).length ∧
      (restrictInputs coi maxId inputs remap next acc).2.2
        = acc ++ List.range' next (inputs.filter
            (fun id => decide (id ≤ maxId) && coi.contains_node id)).length ∧
      (∀ o, o ∉ inputs.filter (fun id => decide (id ≤ maxId) && coi.contains_node id) →
        (restrictInputs coi maxId inputs remap next acc).1 o = remap o) ∧
      (inputs.Nodup →
        ∀ j (hj : j < (inputs.filter
            (fun id => decide (id ≤ maxId) && coi.contains_node id)).length),
          (restrictInputs coi maxId inputs remap next acc).1
            ((inputs.filter
              (fun id => decide (id ≤ maxId) && coi.contains_node id)).get ⟨j, hj⟩)
            = some (next + j)) := by
  intro inputs
  induction inputs with
  | nil =>
      intro remap next acc
      refine ⟨by simp [restrictInputs], by simp [restrictInputs], ?_, ?_⟩
      · intro o _
        rfl
      · intro _ j hj
        simp at hj
  | cons id rest ih =>
      intro remap next acc
      rw [restrictInputs, List.filter_cons]
      by_cases hk : (decide (id ≤ maxId) && coi.contains_node id) = true
      · rw [if_pos hk, if_pos hk]
        obtain ⟨ih1, ih2, ih3, ih4⟩ := ih (updFn remap id next) (next + 1) (acc ++ [next])
        refine ⟨?_, ?_, ?_, ?_⟩
        · rw [ih1, List.length_cons]
          omega
        · rw [ih2, List.length_cons, List.append_assoc]
          have hr : List.range' next (rest.filter
              (fun id => decide (id ≤ maxId) && coi.contains_node id)).length.succ
              = next :: List.range' (next + 1) (rest.filter
                (fun id => decide (id ≤ maxId) && coi.contains_node id)).length := rfl
          rw [hr]
          rfl
        · intro o ho
          rw [List.mem_cons] at ho
          push_neg at ho
          rw [ih3 o ho.2]
          rw [updFn]
          rw [if_neg ho.1]
        · intro hnd j hj
          rw [List.nodup_cons] at hnd
          cases j with
          | zero =>
              have hget : ((id :: rest.filter
                  (fun id => decide (id ≤ maxId) && coi.contains_node id)).get
                    ⟨0, hj⟩) = id := rfl
              rw [hget]
              have hnm : id ∉ rest.filter
                  (fun id => decide (id ≤ maxId) && coi.contains_node id) :=
                fun hmem => hnd.1 (List.mem_of_mem_filter hmem)
              rw [ih3 id hnm, updFn, if_pos rfl]
              rfl
          | succ j =>
              have hj2 : j < (rest.filter
                  (fun id => decide (id ≤ maxId) && coi.contains_node id)).length := by
                simp at hj
                omega
              have hget : ((id :: rest.filter
                  (fun id => decide (id ≤ maxId) && coi.contains_node id)).get
                    ⟨j + 1, hj⟩)
                  = (rest.filter
                    (fun id => decide (id ≤ maxId) && coi.contains_node id)).get
                      ⟨j, hj2⟩ := rfl
              rw [hget]
              rw [ih4 hnd.2 j hj2]
              have : next + 1 + j = next + (j + 1) := by omega
              rw [this]
      · rw [if_neg hk, if_neg hk]
        obtain ⟨ih1, ih2, ih3, ih4⟩ := ih remap next acc
        refine ⟨ih1, ih2, ih3, ?_⟩
        · intro hnd j hj
          rw [List.nodup_cons] at hnd
          exact ih4 hnd.2 j hj

theorem lit_sem_bridge {o n : Nat} {s : Bool} {Wn Wo : Nat → Bool}
    (h : (if n = 0 then false else Wn n) = (if o = 0 then false else Wo o)) :
    lit_value ⟨n, s⟩ Wn = lit_value ⟨o, s⟩ Wo := by
  simp only [lit_value]
  rw [h]

theorem restrictAnds_master {coi : CoiInfo} {maxId : Nat} {VFold V0new : Nat → Bool} :
    ∀ {gates : List AndGate} {remap : Nat → Option Nat} {next : Nat}
      {acc : List AndGate} {out : (Nat → Option Nat) × Nat × List AndGate},
      restrictAnds coi maxId gates remap next acc = .ok out →
      (∀ g ∈ gates, 1 ≤ g.id ∧
        VFold g.id = (lit_value g.a VFold && lit_value g.b VFold)) →
      1 ≤ next →
      (∀ o n, remap o = some n → n < next) →
      (∀ o n, remap o = some n →
        (if n = 0 then false else evalAnds acc V0new n)
          = (if o = 0 then false else VFold o)) →
      (∀ g ∈ acc, g.id < next ∧ g.a.id < g.id ∧ g.b.id < g.id ∧ 1 ≤ g.id) →
      acc.Pairwise (fun g1 g2 => g1.id < g2.id) →
      (next ≤ out.2.1 ∧
       (∀ o n, out.1 o = some n → n < out.2.1) ∧
       (∀ o n, out.1 o = some n →
         (if n = 0 then false else evalAnds out.2.2 V0new n)
           = (if o = 0 then false else VFold o)) ∧
       (∀ g ∈ out.2.2, g.id < out.2.1 ∧ g.a.id < g.id ∧ g.b.id < g.id ∧ 1 ≤ g.id) ∧
       out.2.2.Pairwise (fun g1 g2 => g1.id < g2.id) ∧
       ∃ tail, out.2.2 = acc ++ tail ∧ ∀ g ∈ tail, next ≤ g.id) := by
  intro gates
  induction gates with
  | nil =>
      intro remap next acc out h hg hnext hmap hsem hacc hpw
      rw [restrictAnds] at h
      injection h with h
      subst h
      refine ⟨le_refl _, hmap, hsem, hacc, hpw, [], ?_, ?_⟩
      · rw [List.append_nil]
      · intro g hg2
        simp at hg2
  | cons g rest ih =>
      intro remap next acc out h hg hnext hmap hsem hacc hpw
      rw [restrictAnds] at h
      by_cases hcn : coi.contains_node g.id = true
      · rw [if_neg (by rw [hcn]; simp)] at h
        by_cases hfan : maxId < g.a.id ∨ maxId < g.b.id
        · rw [if_pos hfan] at h
          cases h
        · rw [if_neg hfan] at h
          simp only [bind, Except.bind] at h
          rw [rewrite_lit] at h
          rcases hra : remap g.a.id with _ | na
          · rw [hra] at h
            cases h
          · rw [hra] at h
            dsimp only at h
            rw [rewrite_lit] at h
            rcases hrb : remap g.b.id with _ | nb
            · rw [hrb] at h
              cases h
            · rw [hrb] at h
              dsimp only at h
              have hga := hg g (List.mem_cons_self _ _)
              have hW : evalAnds (acc ++ [⟨next, ⟨na, g.a.neg⟩, ⟨nb, g.b.neg⟩⟩]) V0new
                  = setValue (evalAnds acc V0new) next
                      (lit_value ⟨na, g.a.neg⟩ (evalAnds acc V0new) &&
                        lit_value ⟨nb, g.b.neg⟩ (evalAnds acc V0new)) := by
                rw [evalAnds_append]
                rfl
              have hva : lit_value ⟨na, g.a.neg⟩ (evalAnds acc V0new)
                  = lit_value g.a VFold := by
                have := lit_sem_bridge (s := g.a.neg) (hsem g.a.id na hra)
                rw [this]
              have hvb : lit_value ⟨nb, g.b.neg⟩ (evalAnds acc V0new)
                  = lit_value g.b VFold := by
                have := lit_sem_bridge (s := g.b.neg) (hsem g.b.id nb hrb)
                rw [this]
              have hmap2 : ∀ o n, updFn remap g.id next o = some n → n < next + 1 := by
                intro o n ho
                rw [updFn] at ho
                split at ho
                · injection ho with ho
                  omega
                · have := hmap o n ho
                  omega
              have hsem2 : ∀ o n, updFn remap g.id next o = some n →
                  (if n = 0 then false
                    else evalAnds (acc ++ [⟨next, ⟨na, g.a.neg⟩, ⟨nb, g.b.neg⟩⟩]) V0new n)
                    = (if o = 0 then false else VFold o) := by
                intro o n ho
                rw [updFn] at ho
                split at ho
                · rename_i hoid
                  subst hoid
                  injection ho with ho
                  subst ho
                  rw [if_neg (by omega), if_neg (by omega)]
                  rw [hW, setValue_at, hva, hvb]
                  exact hga.2.symm
                · have hold := hsem o n ho
                  have hlt := hmap o n ho
                  by_cases hn0 : n = 0
                  · rw [if_pos hn0] at hold ⊢
                    exact hold
                  · rw [if_neg hn0] at hold ⊢
                    rw [hW, setValue_ne _ _ (by omega)]
                    exact hold
              have hacc2 : ∀ g2 ∈ acc ++ [⟨next, ⟨na, g.a.neg⟩, ⟨nb, g.b.neg⟩⟩],
                  g2.id < next + 1 ∧ g2.a.id < g2.id ∧ g2.b.id < g2.id ∧ 1 ≤ g2.id := by
                intro g2 hg2
                rcases List.mem_append.mp hg2 with hg2 | hg2
                · have := hacc g2 hg2
                  exact ⟨by omega, this.2.1, this.2.2.1, this.2.2.2⟩
                · rcases List.mem_cons.mp hg2 with rfl | hg2
                  · have hna := hmap g.a.id na hra
                    have hnb := hmap g.b.id nb hrb
                    dsimp only
                    exact ⟨by omega, by omega, by omega, by omega⟩
                  · simp at hg2
              have hpw2 : (acc ++ [(⟨next, ⟨na, g.a.neg⟩, ⟨nb, g.b.neg⟩⟩ : AndGate)]).Pairwise
                  (fun g1 g2 => g1.id < g2.id) := by
                rw [List.pairwise_append]
                refine ⟨hpw, by simp, ?_⟩
                intro a2 ha2 b2 hb2
                rcases List.mem_cons.mp hb2 with rfl | hb2
                · exact (hacc a2 ha2).1
                · simp at hb2
              obtain ⟨c1, c2, c3, c4, c5, tail, c6, c7⟩ := ih h
                (fun q hq => hg q (List.mem_cons_of_mem _ hq)) (by omega)
                hmap2 hsem2 hacc2 hpw2
              refine ⟨by omega, c2, c3, c4, c5,
                ⟨next, ⟨na, g.a.neg⟩, ⟨nb, g.b.neg⟩⟩ :: tail, ?_, ?_⟩
              · rw [c6, List.append_assoc]
                rfl
              · intro g2 hg2
                rcases List.mem_cons.mp hg2 with rfl | hg2
                · exact le_refl _
                · have := c7 g2 hg2
                  omega
      · have hcn2 : coi.contains_node g.id = false := by
          cases hb : coi.contains_node g.id
          · rfl
          · exact absurd hb hcn
        rw [if_pos (by rw [hcn2]; rfl)] at h
        obtain ⟨c1, c2, c3, c4, c5, tail, c6, c7⟩ := ih h
          (fun q hq => hg q (List.mem_cons_of_mem _ hq)) hnext hmap hsem hacc hpw
        exact ⟨c1, c2, c3, c4, c5, tail, c6, c7⟩

theorem projectCone_fst (c : CoiInfo) (maxId : Nat) :
    ∀ (l : List Nat) (x : List Bool), l.length = x.length →
      ((l.zip x).filter
          (fun p => decide (p.1 ≤ maxId) && c.contains_node p.1)).map Prod.fst
        = l.filter (fun id => decide (id ≤ maxId) && c.contains_node id) := by
  intro l
  induction l with
  | nil => intro x _; simp
  | cons a rest ih =>
      intro x hlen
      cases x with
      | nil => simp at hlen
      | cons b xs =>
          rw [List.zip_cons_cons, List.filter_cons, List.filter_cons]
          simp only [List.length_cons] at hlen
          by_cases hq : (decide (a ≤ maxId) && c.contains_node a) = true
          · rw [if_pos (by simpa using hq), if_pos hq, List.map_cons,
              ih xs (by omega)]
          · rw [if_neg (by simpa using hq), if_neg hq, ih xs (by omega)]

theorem setInputs_range' :
    ∀ (x2 : List Bool) (s j : Nat) (hj : j < x2.length) (base : Nat → Bool),
      setInputs ((List.range' s x2.length).zip x2) base (s + j) = x2.get ⟨j, hj⟩ := by
  intro x2
  induction x2 with
  | nil => intro s j hj base; simp at hj
  | cons b rest ih =>
      intro s j hj base
      have hr : List.range' s (b :: rest).length = s :: List.range' (s + 1) rest.length :=
        rfl
      rw [hr, List.zip_cons_cons, setInputs]
      cases j with
      | zero =>
          rw [setInputs_notmem ?hnm]
          case hnm =>
            intro p hp hep
            have hmm := List.mem_map_of_mem Prod.fst hp
            have hsub := (map_fst_zip_sublist (List.range' (s + 1) rest.length) rest).subset
            have := hsub hmm
            rw [List.mem_range'_1] at this
            omega
          rw [Nat.add_zero]
          exact setValue_at base s b
      | succ j =>
          simp only [List.length_cons, Nat.succ_lt_succ_iff] at hj
          have harith : s + (j + 1) = (s + 1) + j := by omega
          rw [harith]
          exact ih (s + 1) j hj (setValue base s b)

theorem restrict_spec (aig : Aig) (i : Nat) {aig2 : Aig}
    (hwf : WfAig aig) (hr : aig.restrict_to_output i = .ok aig2) :
    ∃ c, aig.coi i = .ok c ∧
      aig2.inputs = List.range' 1 (aig.inputs.filter
        (fun id => decide (id ≤ aig.max_id) && c.contains_node id)).length ∧
      WfAig aig2 ∧
      aig2.outputs.length = 1 ∧
      ∀ x, x.length = aig.inputs.length →
        aig2.eval (projectCone c aig.max_id (aig.inputs.zip x))
          = some [lit_value (aig.outputs.getD i ⟨0, false⟩) (aig.values x)] := by
  have hwin := hwf.1
  have hnd := hwf.2.1
  have hgw := hwf.2.2.2.2
  rw [Aig.restrict_to_output] at hr
  simp only [bind, Except.bind] at hr
  rcases hcoi : aig.coi i with e | c
  · rw [hcoi] at hr; cases hr
  · rw [hcoi] at hr
    dsimp only at hr
    rcases hri : restrictInputs c aig.max_id aig.inputs (updFn (fun _ => none) 0 0) 1 []
      with ⟨remap1, next1, new_inputs⟩
    rw [hri] at hr
    dsimp only at hr
    rcases hra : restrictAnds c aig.max_id aig.ands remap1 next1 []
      with e | ⟨remap2, next2, new_ands⟩
    · rw [hra] at hr; cases hr
    · rw [hra] at hr
      dsimp only at hr
      rw [rewrite_lit] at hr
      rcases hro : remap2 (aig.outputs.getD i ⟨0, false⟩).id with _ | no
      · rw [hro] at hr; cases hr
      · rw [hro] at hr
        dsimp only at hr
        injection hr with hr
        subst hr
        obtain ⟨hs1, hs2, hs3, hs4⟩ := restrictInputs_spec c aig.max_id aig.inputs
          (updFn (fun _ => none) 0 0) 1 []
        rw [hri] at hs1 hs2 hs3 hs4
        dsimp only at hs1 hs2 hs3 hs4
        rw [List.nil_append] at hs2
        have hklen : ∀ x : List Bool, x.length = aig.inputs.length →
            (projectCone c aig.max_id (aig.inputs.zip x)).length
              = (aig.inputs.filter
                (fun id => decide (id ≤ aig.max_id) && c.contains_node id)).length := by
          intro x hx
          rw [projectCone, List.length_map, ← projectCone_fst c aig.max_id aig.inputs x
            hx.symm, List.length_map]
        have hmap1 : ∀ o n, remap1 o = some n → n < next1 := by
          intro o n ho
          by_cases hmem : o ∈ aig.inputs.filter
              (fun id => decide (id ≤ aig.max_id) && c.contains_node id)
          · obtain ⟨⟨j, hj⟩, hge⟩ := List.mem_iff_get.mp hmem
            have h4 := hs4 hnd j hj
            rw [hge] at h4
            rw [h4] at ho
            injection ho with ho
            omega
          · rw [hs3 o hmem, updFn] at ho
            split at ho
            · injection ho with ho
              omega
            · cases ho
        have hsem1 : ∀ (x : List Bool), x.length = aig.inputs.length →
            ∀ o n, remap1 o = some n →
              (if n = 0 then false
                else setInputs (new_inputs.zip
                  (projectCone c aig.max_id (aig.inputs.zip x))) (fun _ => false) n)
                = (if o = 0 then false else aig.values x o) := by
          intro x hx o n ho
          by_cases hmem : o ∈ aig.inputs.filter
              (fun id => decide (id ≤ aig.max_id) && c.contains_node id)
          · obtain ⟨⟨j, hj⟩, hge⟩ := List.mem_iff_get.mp hmem
            have h4 := hs4 hnd j hj
            rw [hge] at h4
            rw [h4] at ho
            injection ho with ho
            subst ho
            have hoin : o ∈ aig.inputs := List.mem_of_mem_filter hmem
            have ho1 : 1 ≤ o := (hwin o hoin).1
            rw [if_neg (by omega), if_neg (by omega)]
            have hx2l := hklen x hx
            have hjx : j < (projectCone c aig.max_id (aig.inputs.zip x)).length := by
              omega
            have hnew : setInputs (new_inputs.zip
                (projectCone c aig.max_id (aig.inputs.zip x))) (fun _ => false) (1 + j)
                = (projectCone c aig.max_id (aig.inputs.zip x)).get ⟨j, hjx⟩ := by
              rw [hs2, ← hx2l]
              exact setInputs_range' _ 1 j hjx (fun _ => false)
            rw [hnew]
            -- identify the j-th kept pair
            have hfst := projectCone_fst c aig.max_id aig.inputs x hx.symm
            have hq1 : (((aig.inputs.zip x).filter
                (fun p => decide (p.1 ≤ aig.max_id) && c.contains_node p.1))[j]?).map
                  Prod.fst = some o := by
              rw [← List.getElem?_map, hfst]
              rw [List.getElem?_eq_getElem hj]
              rw [← hge]
              rfl
            have hq2 : (((aig.inputs.zip x).filter
                (fun p => decide (p.1 ≤ aig.max_id) && c.contains_node p.1))[j]?).map
                  Prod.snd
                = some ((projectCone c aig.max_id (aig.inputs.zip x)).get ⟨j, hjx⟩) := by
              rw [← List.getElem?_map]
              rw [show ((aig.inputs.zip x).filter
                  (fun p => decide (p.1 ≤ aig.max_id) && c.contains_node p.1)).map
                    Prod.snd = projectCone c aig.max_id (aig.inputs.zip x) from rfl]
              rw [List.getElem?_eq_getElem hjx]
              rfl
            rcases hKj : ((aig.inputs.zip x).filter
                (fun p => decide (p.1 ≤ aig.max_id) && c.contains_node p.1))[j]?
              with _ | p
            · rw [hKj] at hq1
              cases hq1
            · rw [hKj] at hq1 hq2
              simp only [Option.map_some'] at hq1 hq2
              injection hq1 with hq1
              injection hq2 with hq2
              have hpmem : p ∈ (aig.inputs.zip x).filter
                  (fun q => decide (q.1 ≤ aig.max_id) && c.contains_node q.1) := by
                have := List.getElem?_mem hKj
                exact this
              have hpz : (p.1, p.2) ∈ aig.inputs.zip x := by
                have := List.mem_of_mem_filter hpmem
                exact this
              have hval := values_input x hwf hpz
              rw [hq1] at hval
              rw [← hq2, hval]
          · rw [hs3 o hmem, updFn] at ho
            split at ho
            · rename_i h0
              injection ho with ho
              subst h0
              rw [if_pos ho.symm, if_pos rfl]
            · cases ho
        -- master instantiation, once per input vector
        have hrun : ∀ (x : List Bool), x.length = aig.inputs.length →
            (next1 ≤ next2 ∧
             (∀ o n, remap2 o = some n → n < next2) ∧
             (∀ o n, remap2 o = some n →
               (if n = 0 then false
                 else evalAnds new_ands (setInputs (new_inputs.zip
                   (projectCone c aig.max_id (aig.inputs.zip x)))
                     (fun _ => false)) n)
                 = (if o = 0 then false else aig.values x o)) ∧
             (∀ g ∈ new_ands, g.id < next2 ∧ g.a.id < g.id ∧ g.b.id < g.id ∧ 1 ≤ g.id) ∧
             new_ands.Pairwise (fun g1 g2 => g1.id < g2.id) ∧
             ∃ tail, new_ands = [] ++ tail ∧ ∀ g ∈ tail, next1 ≤ g.id) := by
          intro x hx
          refine restrictAnds_master hra ?_ (by omega) hmap1 (hsem1 x hx) ?_ ?_
          · intro g hg
            exact ⟨(hgw g hg).1, values_gate x hwf hg⟩
          · intro g hg
            simp at hg
          · exact List.Pairwise.nil
        have h0 := hrun (List.replicate aig.inputs.length false)
          (List.length_replicate _ _)
        obtain ⟨c1, c2, -, c4, c5, c6⟩ := h0
        obtain ⟨tail, htail, htail2⟩ := c6
        rw [List.nil_append] at htail
        refine ⟨c, rfl, hs2, ?_, rfl, ?_⟩
        · -- well-formedness of the result
          refine ⟨?_, ?_, ?_, c5, ?_⟩
          · intro id hid
            rw [hs2, List.mem_range'_1] at hid
            have hno := c2 _ _ hro
            dsimp only
            omega
          · rw [hs2]
            dsimp only
            exact List.nodup_range' _ _
          · intro id hid g hg
            rw [hs2, List.mem_range'_1] at hid
            have := htail2 g (htail ▸ hg)
            omega
          · intro g hg
            have h4 := c4 g hg
            dsimp only
            omega
        · intro x hx
          obtain ⟨d1, d2, d3, d4, d5, d6⟩ := hrun x hx
          rw [Aig.eval]
          dsimp only
          rw [if_pos (by rw [hklen x hx, hs2]; simp)]
          rw [List.map_cons, List.map_nil]
          rw [Aig.values]
          dsimp only
          rw [lit_sem_bridge (d3 _ _ hro)]

theorem apply_neg_id (x : AigLit) (s : Bool) : (apply_neg x s).id = x.id := by
  rw [apply_neg]
  split <;> rfl

theorem fold_and_id {a b lit : AigLit} (h : fold_and a b = some lit) :
    lit.id = 0 ∨ lit = a ∨ lit = b := by
  rw [fold_and] at h
  split_ifs at h with h1 h2 h3 h4 h5
  · injection h with h
    subst h
    left
    rfl
  · injection h with h
    subst h
    right
    right
    rfl
  · injection h with h
    subst h
    right
    left
    rfl
  · injection h with h
    subst h
    right
    left
    rfl
  · injection h with h
    subst h
    left
    rfl

theorem andKey_eq (a b : AigLit) :
    AndKey.new a b = (a, b) ∨ AndKey.new a b = (b, a) := by
  rw [AndKey.new]
  split
  · left
    rfl
  · right
    rfl

theorem mapped_lit_value (o : Nat) (s : Bool) (lit : AigLit) (Wn Wo : Nat → Bool)
    (h : lit_value lit Wn = (if o = 0 then false else Wo o)) :
    lit_value (apply_neg lit s) Wn = lit_value ⟨o, s⟩ Wo := by
  rw [apply_neg_value, h]
  cases s
  · simp [lit_value]
  · simp [lit_value]

theorem rewriteInputs_spec (maxId : Nat) :
    ∀ (inputs : List Nat) (mapped : Nat → Option AigLit) (next : Nat) (acc : List Nat),
      (∀ id ∈ inputs, 1 ≤ id ∧ id ≤ maxId) →
      ∃ mapped1,
        rewriteInputs maxId inputs mapped next acc
          = .ok (mapped1, next + inputs.length, acc ++ List.range' next inputs.length) ∧
        (∀ o, o ∉ inputs → mapped1 o = mapped o) ∧
        (inputs.Nodup → ∀ j (hj : j < inputs.length),
          mapped1 (inputs.get ⟨j, hj⟩) = some ⟨next + j, false⟩) := by
  intro inputs
  induction inputs with
  | nil =>
      intro mapped next acc _
      refine ⟨mapped, ?_, fun o _ => rfl, ?_⟩
      · rw [rewriteInputs]
        simp
      · intro _ j hj
        simp at hj
  | cons id rest ih =>
      intro mapped next acc hids
      have hid := hids id (List.mem_cons_self _ _)
      obtain ⟨mapped1, heq, hnm, hget⟩ := ih (updFn mapped id ⟨next, false⟩) (next + 1)
        (acc ++ [next]) (fun q hq => hids q (List.mem_cons_of_mem _ hq))
      refine ⟨mapped1, ?_, ?_, ?_⟩
      · rw [rewriteInputs, if_neg (by omega), heq]
        simp only [List.length_cons]
        have h2 : (acc ++ [next]) ++ List.range' (next + 1) rest.length
            = acc ++ List.range' next (rest.length + 1) := by
          rw [List.append_assoc]
          rfl
        have h1 : next + 1 + rest.length = next + (rest.length + 1) := by omega
        rw [h2, h1]
      · intro o ho
        rw [List.mem_cons] at ho
        push_neg at ho
        rw [hnm o ho.2, updFn, if_neg ho.1]
      · intro hnd j hj
        rw [List.nodup_cons] at hnd
        cases j with
        | zero =>
            have hget0 : ((id :: rest).get ⟨0, hj⟩) = id := rfl
            rw [hget0, hnm id hnd.1, updFn, if_pos rfl]
            rfl
        | succ j =>
            have hj2 : j < rest.length := by
              simp at hj
              omega
            have hgets : ((id :: rest).get ⟨j + 1, hj⟩) = rest.get ⟨j, hj2⟩ := rfl
            rw [hgets, hget hnd.2 j hj2]
            have : next + 1 + j = next + (j + 1) := by omega
            rw [this]

theorem rewriteAnds_master {maxId : Nat} {VFold V0new : Nat → Bool} :
    ∀ {gates : List AndGate} {mapped : Nat → Option AigLit} {next : Nat}
      {acc : List AndGate} {hash : AigLit × AigLit → Option AigLit}
      {out : (Nat → Option AigLit) × Nat × List AndGate ×
        (AigLit × AigLit → Option AigLit)},
      rewriteAnds maxId gates mapped next acc hash = .ok out →
      (∀ g ∈ gates, 1 ≤ g.id ∧
        VFold g.id = (lit_value g.a VFold && lit_value g.b VFold)) →
      1 ≤ next →
      (∀ o lit, mapped o = some lit → lit.id < next ∧
        lit_value lit (evalAnds acc V0new) = (if o = 0 then false else VFold o)) →
      (∀ k lit, hash k = some lit → lit.id < next ∧ k.1.id < next ∧ k.2.id < next ∧
        lit_value lit (evalAnds acc V0new)
          = (lit_value k.1 (evalAnds acc V0new) &&
             lit_value k.2 (evalAnds acc V0new))) →
      (∀ g ∈ acc, g.id < next ∧ g.a.id < g.id ∧ g.b.id < g.id ∧ 1 ≤ g.id) →
      acc.Pairwise (fun g1 g2 => g1.id < g2.id) →
      (next ≤ out.2.1 ∧
       (∀ o lit, out.1 o = some lit → lit.id < out.2.1 ∧
         lit_value lit (evalAnds out.2.2.1 V0new)
           = (if o = 0 then false else VFold o)) ∧
       (∀ g ∈ out.2.2.1, g.id < out.2.1 ∧ g.a.id < g.id ∧ g.b.id < g.id ∧ 1 ≤ g.id) ∧
       out.2.2.1.Pairwise (fun g1 g2 => g1.id < g2.id) ∧
       ∃ tail, out.2.2.1 = acc ++ tail ∧ ∀ g ∈ tail, next ≤ g.id) := by
  intro gates
  induction gates with
  | nil =>
      intro mapped next acc hash out h hg hnext hmap hhash hacc hpw
      rw [rewriteAnds] at h
      injection h with h
      subst h
      refine ⟨le_refl _, hmap, hacc, hpw, [], ?_, ?_⟩
      · rw [List.append_nil]
      · intro g hg2
        simp at hg2
  | cons g rest ih =>
      intro mapped next acc hash out h hg hnext hmap hhash hacc hpw
      rw [rewriteAnds] at h
      by_cases hbad : g.id = 0 ∨ maxId < g.id
      · rw [if_pos hbad] at h
        cases h
      · rw [if_neg hbad] at h
        by_cases hfan : maxId < g.a.id ∨ maxId < g.b.id
        · rw [if_pos hfan] at h
          cases h
        · rw [if_neg hfan] at h
          rcases hma : mapped g.a.id with _ | a_base
          · rw [hma] at h
            rcases hmb : mapped g.b.id with _ | b_base
            · rw [hmb] at h
              cases h
            · rw [hmb] at h
              cases h
          · rw [hma] at h
            rcases hmb : mapped g.b.id with _ | b_base
            · rw [hmb] at h
              cases h
            · rw [hmb] at h
              dsimp only at h
              have hga := hg g (List.mem_cons_self _ _)
              obtain ⟨halt, hav⟩ := hmap g.a.id a_base hma
              obtain ⟨hblt, hbv⟩ := hmap g.b.id b_base hmb
              have hva : lit_value (apply_neg a_base g.a.neg) (evalAnds acc V0new)
                  = lit_value g.a VFold :=
                mapped_lit_value g.a.id g.a.neg a_base _ VFold hav
              have hvb : lit_value (apply_neg b_base g.b.neg) (evalAnds acc V0new)
                  = lit_value g.b VFold :=
                mapped_lit_value g.b.id g.b.neg b_base _ VFold hbv
              have haid : (apply_neg a_base g.a.neg).id < next := by
                rw [apply_neg_id]
                exact halt
              have hbid : (apply_neg b_base g.b.neg).id < next := by
                rw [apply_neg_id]
                exact hblt
              rcases hf : fold_and (apply_neg a_base g.a.neg)
                  (apply_neg b_base g.b.neg) with _ | flit
              · -- folding failed: consult the structural-hash table
                rw [hf] at h
                dsimp only at h
                rcases hh : hash (AndKey.new (apply_neg a_base g.a.neg)
                    (apply_neg b_base g.b.neg)) with _ | hlit
                · -- fresh gate
                  rw [hh] at h
                  dsimp only at h
                  set k2 := AndKey.new (apply_neg a_base g.a.neg)
                    (apply_neg b_base g.b.neg) with hk2
                  have hk1lt : k2.1.id < next ∧ k2.2.id < next := by
                    rcases andKey_eq (apply_neg a_base g.a.neg)
                        (apply_neg b_base g.b.neg) with hk | hk
                    · rw [hk2, hk]
                      exact ⟨haid, hbid⟩
                    · rw [hk2, hk]
                      exact ⟨hbid, haid⟩
                  have hkval : (lit_value k2.1 (evalAnds acc V0new) &&
                      lit_value k2.2 (evalAnds acc V0new))
                      = (lit_value g.a VFold && lit_value g.b VFold) := by
                    rw [hk2, andKey_value, hva, hvb]
                  have hW : evalAnds (acc ++ [⟨next, k2.1, k2.2⟩]) V0new
                      = setValue (evalAnds acc V0new) next
                          (lit_value k2.1 (evalAnds acc V0new) &&
                            lit_value k2.2 (evalAnds acc V0new)) := by
                    rw [evalAnds_append]
                    rfl
                  have hstab : ∀ lit : AigLit, lit.id < next →
                      lit_value lit (evalAnds (acc ++ [⟨next, k2.1, k2.2⟩]) V0new)
                        = lit_value lit (evalAnds acc V0new) := by
                    intro lit hlt
                    refine lit_value_congr ?_
                    rw [hW]
                    exact setValue_ne _ _ (by omega)
                  have hnv : lit_value ⟨next, false⟩
                      (evalAnds (acc ++ [⟨next, k2.1, k2.2⟩]) V0new)
                      = (lit_value k2.1 (evalAnds acc V0new) &&
                          lit_value k2.2 (evalAnds acc V0new)) := by
                    have hbase : lit_value ⟨next, false⟩
                        (evalAnds (acc ++ [⟨next, k2.1, k2.2⟩]) V0new)
                        = if next = 0 then false
                          else evalAnds (acc ++ [⟨next, k2.1, k2.2⟩]) V0new next := rfl
                    rw [hbase, if_neg (by omega), hW, setValue_at]
                  have hmap2 : ∀ o lit, updFn mapped g.id ⟨next, false⟩ o = some lit →
                      lit.id < next + 1 ∧
                      lit_value lit (evalAnds (acc ++ [⟨next, k2.1, k2.2⟩]) V0new)
                        = (if o = 0 then false else VFold o) := by
                    intro o lit ho
                    rw [updFn] at ho
                    split at ho
                    · rename_i hoid
                      subst hoid
                      injection ho with ho
                      subst ho
                      refine ⟨by dsimp only; omega, ?_⟩
                      rw [if_neg (by omega), hnv, hkval]
                      exact hga.2.symm
                    · obtain ⟨hlt, hval⟩ := hmap o lit ho
                      refine ⟨by omega, ?_⟩
                      rw [hstab lit hlt]
                      exact hval
                  have hhash2 : ∀ k lit, updFn hash k2 ⟨next, false⟩ k = some lit →
                      lit.id < next + 1 ∧ k.1.id < next + 1 ∧ k.2.id < next + 1 ∧
                      lit_value lit (evalAnds (acc ++ [⟨next, k2.1, k2.2⟩]) V0new)
                        = (lit_value k.1
                            (evalAnds (acc ++ [⟨next, k2.1, k2.2⟩]) V0new) &&
                           lit_value k.2
                            (evalAnds (acc ++ [⟨next, k2.1, k2.2⟩]) V0new)) := by
                    intro k lit hk
                    rw [updFn] at hk
                    split at hk
                    · rename_i hkid
                      subst hkid
                      injection hk with hk
                      subst hk
                      refine ⟨by dsimp only; omega, by omega, by omega, ?_⟩
                      rw [hnv, hstab k2.1 hk1lt.1, hstab k2.2 hk1lt.2]
                    · obtain ⟨q1, q2, q3, q4⟩ := hhash k lit hk
                      refine ⟨by omega, by omega, by omega, ?_⟩
                      rw [hstab lit q1, hstab k.1 q2, hstab k.2 q3]
                      exact q4
                  have hacc2 : ∀ g2 ∈ acc ++ [(⟨next, k2.1, k2.2⟩ : AndGate)],
                      g2.id < next + 1 ∧ g2.a.id < g2.id ∧ g2.b.id < g2.id ∧
                        1 ≤ g2.id := by
                    intro g2 hg2
                    rcases List.mem_append.mp hg2 with hg2 | hg2
                    · have := hacc g2 hg2
                      exact ⟨by omega, this.2.1, this.2.2.1, this.2.2.2⟩
                    · rcases List.mem_cons.mp hg2 with rfl | hg2
                      · dsimp only
                        exact ⟨by omega, hk1lt.1, hk1lt.2, by omega⟩
                      · simp at hg2
                  have hpw2 : (acc ++ [(⟨next, k2.1, k2.2⟩ : AndGate)]).Pairwise
                      (fun g1 g2 => g1.id < g2.id) := by
                    rw [List.pairwise_append]
                    refine ⟨hpw, by simp, ?_⟩
                    intro a2 ha2 b2 hb2
                    rcases List.mem_cons.mp hb2 with rfl | hb2
                    · exact (hacc a2 ha2).1
                    · simp at hb2
                  obtain ⟨c1, c2, c3, c4, tail, c6, c7⟩ := ih h
                    (fun q hq => hg q (List.mem_cons_of_mem _ hq)) (by omega)
                    hmap2 hhash2 hacc2 hpw2
                  refine ⟨by omega, c2, c3, c4, ⟨next, k2.1, k2.2⟩ :: tail, ?_, ?_⟩
                  · rw [c6, List.append_assoc]
                    rfl
                  · intro g2 hg2
                    rcases List.mem_cons.mp hg2 with rfl | hg2
                    · exact le_refl _
                    · have := c7 g2 hg2
                      omega
                · -- hash hit: reuse the existing literal
                  rw [hh] at h
                  dsimp only at h
                  obtain ⟨hh1, hh2, hh3, hh4⟩ := hhash _ hlit hh
                  have hmap2 : ∀ o lit, updFn mapped g.id hlit o = some lit →
                      lit.id < next ∧ lit_value lit (evalAnds acc V0new)
                        = (if o = 0 then false else VFold o) := by
                    intro o lit ho
                    rw [updFn] at ho
                    split at ho
                    · rename_i hoid
                      subst hoid
                      injection ho with ho
                      subst ho
                      refine ⟨hh1, ?_⟩
                      rw [if_neg (by omega)]
                      rw [hh4, andKey_value, hva, hvb]
                      exact hga.2.symm
                    · exact hmap o lit ho
                  exact ih h (fun q hq => hg q (List.mem_cons_of_mem _ hq)) hnext
                    hmap2 hhash hacc hpw
              · -- constant/identity folding succeeded
                rw [hf] at h
                dsimp only at h
                have hfv := fold_and_value hf (evalAnds acc V0new)
                have hfid : flit.id < next := by
                  rcases fold_and_id hf with h0 | rfl | rfl
                  · omega
                  · exact haid
                  · exact hbid
                have hmap2 : ∀ o lit, updFn mapped g.id flit o = some lit →
                    lit.id < next ∧ lit_value lit (evalAnds acc V0new)
                      = (if o = 0 then false else VFold o) := by
                  intro o lit ho
                  rw [updFn] at ho
                  split at ho
                  · rename_i hoid
                    subst hoid
                    injection ho with ho
                    subst ho
                    refine ⟨hfid, ?_⟩
                    rw [if_neg (by omega)]
                    rw [hfv, hva, hvb]
                    exact hga.2.symm
                  · exact hmap o lit ho
                exact ih h (fun q hq => hg q (List.mem_cons_of_mem _ hq)) hnext
                  hmap2 hhash hacc hpw

theorem rewrite_spec (aig : Aig) {aig3 : Aig}
    (hwf : WfAig aig) (hr : aig.rewrite_single_output = .ok aig3) :
    aig3.inputs = List.range' 1 aig.inputs.length ∧
    WfAig aig3 ∧
    aig3.outputs.length = 1 ∧
    ∀ x, x.length = aig.inputs.length →
      aig3.eval x = some [lit_value (aig.outputs.getD 0 ⟨0, false⟩)
        (aig.values x)] := by
  have hwin := hwf.1
  have hnd := hwf.2.1
  have hgw := hwf.2.2.2.2
  rw [Aig.rewrite_single_output] at hr
  by_cases hlen1 : aig.outputs.length ≠ 1
  · rw [if_pos hlen1] at hr
    cases hr
  · rw [if_neg hlen1] at hr
    simp only [bind, Except.bind] at hr
    obtain ⟨mapped1, heqI, hnmI, hgetI⟩ := rewriteInputs_spec aig.max_id aig.inputs
      (updFn (fun _ => none) 0 false_lit) 1 [] hwin
    rw [heqI] at hr
    dsimp only at hr
    rw [List.nil_append] at hr
    rcases hra0 : rewriteAnds aig.max_id aig.ands mapped1 (1 + aig.inputs.length) []
        (fun _ => none) with e | ⟨mapped2, next2, new_ands, hash2⟩
    · rw [hra0] at hr
      cases hr
    · rw [hra0] at hr
      dsimp only at hr
      by_cases hob : aig.max_id < (aig.outputs.getD 0 ⟨0, false⟩).id
      · rw [if_pos hob] at hr
        cases hr
      · rw [if_neg hob] at hr
        rcases hm2 : mapped2 (aig.outputs.getD 0 ⟨0, false⟩).id with _ | out_base
        · rw [hm2] at hr
          cases hr
        · rw [hm2] at hr
          dsimp only at hr
          injection hr with hr
          subst hr
          have hrun : ∀ (x : List Bool), x.length = aig.inputs.length →
              (1 + aig.inputs.length ≤ next2 ∧
               (∀ o lit, mapped2 o = some lit → lit.id < next2 ∧
                 lit_value lit (evalAnds new_ands
                   (setInputs ((List.range' 1 aig.inputs.length).zip x)
                     (fun _ => false)))
                   = (if o = 0 then false else aig.values x o)) ∧
               (∀ g ∈ new_ands, g.id < next2 ∧ g.a.id < g.id ∧ g.b.id < g.id ∧
                 1 ≤ g.id) ∧
               new_ands.Pairwise (fun g1 g2 => g1.id < g2.id) ∧
               ∃ tail, new_ands = [] ++ tail ∧
                 ∀ g ∈ tail, 1 + aig.inputs.length ≤ g.id) := by
            intro x hx
            refine rewriteAnds_master hra0 ?_ (by omega) ?_ ?_ ?_ List.Pairwise.nil
            · intro g hg
              exact ⟨(hgw g hg).1, values_gate x hwf hg⟩
            · intro o lit ho
              by_cases hmem : o ∈ aig.inputs
              · obtain ⟨⟨j, hj⟩, hge⟩ := List.mem_iff_get.mp hmem
                have hgj := hgetI hnd j hj
                rw [hge] at hgj
                rw [hgj] at ho
                injection ho with ho
                subst ho
                have ho1 : 1 ≤ o := (hwin o hmem).1
                refine ⟨by dsimp only; omega, ?_⟩
                have hjx : j < x.length := by omega
                have hlit : lit_value ⟨1 + j, false⟩
                    (evalAnds []
                      (setInputs ((List.range' 1 aig.inputs.length).zip x)
                        (fun _ => false)))
                    = if 1 + j = 0 then false
                      else setInputs ((List.range' 1 aig.inputs.length).zip x)
                        (fun _ => false) (1 + j) := rfl
                rw [hlit, if_neg (by omega), if_neg (by omega)]
                have hset : setInputs ((List.range' 1 aig.inputs.length).zip x)
                    (fun _ => false) (1 + j) = x.get ⟨j, hjx⟩ := by
                  rw [← hx]
                  exact setInputs_range' x 1 j hjx (fun _ => false)
                rw [hset]
                have hjz : j < (aig.inputs.zip x).length := by
                  rw [List.length_zip]
                  omega
                have hzmem : (o, x.get ⟨j, hjx⟩) ∈ aig.inputs.zip x := by
                  have hzel : (aig.inputs.zip x)[j] = (aig.inputs[j], x[j]) :=
                    List.getElem_zip
                  have hmm := List.getElem_mem hjz
                  rw [hzel] at hmm
                  have hofst : aig.inputs[j] = o := hge
                  rw [hofst] at hmm
                  exact hmm
                rw [values_input x hwf hzmem]
              · rw [hnmI o hmem, updFn] at ho
                split at ho
                · rename_i h0
                  injection ho with ho
                  subst h0
                  subst ho
                  refine ⟨by dsimp only [false_lit]; omega, ?_⟩
                  rw [if_pos rfl]
                  rfl
                · cases ho
            · intro k lit hk
              cases hk
            · intro g hg
              exact absurd hg (List.not_mem_nil g)
          have h0 := hrun (List.replicate aig.inputs.length false)
            (List.length_replicate _ _)
          obtain ⟨c1, -, c3, c4, c5⟩ := h0
          obtain ⟨tail, htail, htail2⟩ := c5
          rw [List.nil_append] at htail
          refine ⟨rfl, ?_, rfl, ?_⟩
          · refine ⟨?_, ?_, ?_, c4, ?_⟩
            · intro id hid
              rw [List.mem_range'_1] at hid
              dsimp only
              omega
            · dsimp only
              exact List.nodup_range' _ _
            · intro id hid g hg
              rw [List.mem_range'_1] at hid
              have := htail2 g (htail ▸ hg)
              omega
            · intro g hg
              have h4 := c3 g hg
              dsimp only
              omega
          · intro x hx
            obtain ⟨d1, d2, d3, d4, d5⟩ := hrun x hx
            rw [Aig.eval]
            dsimp only
            rw [if_pos (by rw [hx, List.length_range'])]
            rw [List.map_cons, List.map_nil]
            rw [Aig.values]
            dsimp only
            rw [mapped_lit_value (aig.outputs.getD 0 ⟨0, false⟩).id
              (aig.outputs.getD 0 ⟨0, false⟩).neg out_base _ (aig.values x)
              (d2 _ _ hm2).2]

/-- **C1** (amended).  For every well-formed AIG, valid output index `i`, and
input assignment `x` of matching length, when `simplify_output i` succeeds the
original circuit and its simplification agree — with the inputs of the
simplified circuit fed the *surviving-input projection* `simplify_proj` (the
COI projection of the first restriction pass composed with the cone projection
of the final restriction pass), rather than the plain COI projection of the
original circuit: `aig.eval x` at index `i` equals
`simple.eval (simplify_proj i x)` at index `0`. -/
theorem c1_simplify_eval_amended (aig : Aig) (i : Nat) {simple : Aig}
    (hwf : WfAig aig) (hi : i < aig.outputs.length)
    (hs : aig.simplify_output i = .ok simple)
    (x : List Bool) (hx : x.length = aig.inputs.length) :
    ∃ xp ys, aig.simplify_proj i x = .ok xp ∧ aig.eval x = some ys ∧
      simple.eval xp = some [ys.getD i false] := by
  rw [Aig.simplify_output] at hs
  simp only [bind, Except.bind] at hs
  rcases hr1 : aig.restrict_to_output i with e | red
  · rw [hr1] at hs
    cases hs
  · rw [hr1] at hs
    dsimp only at hs
    rcases hr2 : red.rewrite_single_output with e | rw3
    · rw [hr2] at hs
      cases hs
    · rw [hr2] at hs
      dsimp only at hs
      obtain ⟨c1, hc1, hin1, hwf1, hout1, hev1⟩ := restrict_spec aig i hwf hr1
      obtain ⟨hin2, hwf2, hout2, hev2⟩ := rewrite_spec red hwf1 hr2
      obtain ⟨c2, hc2, hin3, hwf3, hout3, hev3⟩ := restrict_spec rw3 0 hwf2 hs
      have hx1len : (projectCone c1 aig.max_id (aig.inputs.zip x)).length
          = red.inputs.length := by
        rw [hin1, List.length_range']
        rw [projectCone, List.length_map,
          ← projectCone_fst c1 aig.max_id aig.inputs x hx.symm, List.length_map]
      have hx1len2 : (projectCone c1 aig.max_id (aig.inputs.zip x)).length
          = rw3.inputs.length := by
        rw [hin2, List.length_range']
        exact hx1len
      obtain ⟨ro, hro⟩ := List.length_eq_one.mp hout1
      obtain ⟨wo, hwo⟩ := List.length_eq_one.mp hout2
      have hred : lit_value ro
          (red.values (projectCone c1 aig.max_id (aig.inputs.zip x)))
          = lit_value (aig.outputs.getD i ⟨0, false⟩) (aig.values x) := by
        have h1 := hev1 x hx
        rw [Aig.eval, if_pos hx1len, hro] at h1
        simp only [List.map_cons, List.map_nil] at h1
        injection h1 with h1
        injection h1 with h1a h1b
      have hrw3 : lit_value wo
          (rw3.values (projectCone c1 aig.max_id (aig.inputs.zip x)))
          = lit_value (aig.outputs.getD i ⟨0, false⟩) (aig.values x) := by
        have h2 := hev2 (projectCone c1 aig.max_id (aig.inputs.zip x)) hx1len
        rw [Aig.eval, if_pos hx1len2, hwo] at h2
        simp only [List.map_cons, List.map_nil] at h2
        have hgd : red.outputs.getD 0 ⟨0, false⟩ = ro := by
          rw [hro]
          rfl
        rw [hgd, hred] at h2
        injection h2 with h2
        injection h2 with h2a h2b
      have hfin := hev3 (projectCone c1 aig.max_id (aig.inputs.zip x)) hx1len2
      have hgd3 : rw3.outputs.getD 0 ⟨0, false⟩ = wo := by
        rw [hwo]
        rfl
      rw [hgd3, hrw3] at hfin
      have hproj : aig.simplify_proj i x = .ok (projectCone c2 rw3.max_id
          (rw3.inputs.zip (projectCone c1 aig.max_id (aig.inputs.zip x)))) := by
        rw [Aig.simplify_proj]
        simp only [bind, Except.bind]
        rw [hc1]
        dsimp only
        rw [hr1]
        dsimp only
        rw [hr2]
        dsimp only
        rw [hc2]
      have hys : ((aig.outputs.map
            (fun lit => lit_value lit (aig.values x))).getD i false)
          = lit_value (aig.outputs.getD i ⟨0, false⟩) (aig.values x) := by
        have e1 : (aig.outputs.map
              (fun lit => lit_value lit (aig.values x))).getD i false
            = ((aig.outputs.map
              (fun lit => lit_value lit (aig.values x)))[i]?).getD false :=
          List.getD_eq_getElem?_getD _ _ _
        have e2 : aig.outputs.getD i ⟨0, false⟩
            = (aig.outputs[i]?).getD ⟨0, false⟩ :=
          List.getD_eq_getElem?_getD _ _ _
        rw [e1, e2, List.getElem?_map, List.getElem?_eq_getElem hi]
        rfl
      refine ⟨_, aig.outputs.map (fun lit => lit_value lit (aig.values x)),
        hproj, ?_, ?_⟩
      · rw [Aig.eval, if_pos hx]
      · rw [hfin, hys]

theorem c1_simplify_eval_amended_witness :
    (WfAig or2Aig ∧ 0 < or2Aig.outputs.length ∧
      or2Aig.simplify_output 0
        = .ok ⟨3, [1, 2], [⟨3, true⟩], [⟨3, ⟨1, true⟩, ⟨2, true⟩⟩]⟩ ∧
      ([true, false] : List Bool).length = or2Aig.inputs.length) ∧
    (∃ xp ys, or2Aig.simplify_proj 0 [true, false] = .ok xp ∧
      or2Aig.eval [true, false] = some ys ∧
      Aig.eval ⟨3, [1, 2], [⟨3, true⟩], [⟨3, ⟨1, true⟩, ⟨2, true⟩⟩]⟩ xp
        = some [ys.getD 0 false]) :=
  ⟨⟨by unfold WfAig; decide, by decide, by rfl, by rfl⟩,
    c1_simplify_eval_amended or2Aig 0 (by unfold WfAig; decide) (by decide) (by rfl)
      [true, false] (by rfl)⟩

theorem buildInputMask_spec (maxId : Nat) :
    ∀ (inputs : List Nat) (mask : Nat → Bool),
      (∀ id ∈ inputs, id ≤ maxId) →
      ∃ M, buildInputMask maxId inputs mask = .ok M ∧
        ∀ n, M n = (mask n || decide (n ∈ inputs)) := by
  intro inputs
  induction inputs with
  | nil =>
      intro mask _
      refine ⟨mask, rfl, ?_⟩
      intro n
      simp
  | cons id rest ih =>
      intro mask hids
      obtain ⟨M, hM, hMn⟩ := ih (setMask mask id)
        (fun q hq => hids q (List.mem_cons_of_mem _ hq))
      refine ⟨M, ?_, ?_⟩
      · rw [buildInputMask,
          if_neg (by have := hids id (List.mem_cons_self _ _); omega)]
        exact hM
      · intro n
        rw [hMn n]
        by_cases hn : n = id
        · subst hn
          simp [setMask]
        · simp [setMask, hn]

theorem buildGateFanins_spec (maxId : Nat) :
    ∀ (gates : List AndGate) (init : Nat → Option (AigLit × AigLit)),
      (∀ g ∈ gates, 1 ≤ g.id ∧ g.id ≤ maxId ∧ g.a.id ≤ maxId ∧ g.b.id ≤ maxId) →
      gates.Pairwise (fun g1 g2 => g1.id < g2.id) →
      ∃ F, buildGateFanins maxId gates init = .ok F ∧
        (∀ g ∈ gates, F g.id = some (g.a, g.b)) ∧
        (∀ n, (∀ g ∈ gates, g.id ≠ n) → F n = init n) := by
  intro gates
  induction gates with
  | nil =>
      intro init _ _
      exact ⟨init, rfl, fun g hg => absurd hg (List.not_mem_nil g), fun n _ => rfl⟩
  | cons g rest ih =>
      intro init hb hpw
      have hg := hb g (List.mem_cons_self _ _)
      rw [List.pairwise_cons] at hpw
      obtain ⟨F, hF, hF1, hF2⟩ := ih (updFn init g.id (g.a, g.b))
        (fun q hq => hb q (List.mem_cons_of_mem _ hq)) hpw.2
      refine ⟨F, ?_, ?_, ?_⟩
      · rw [buildGateFanins, if_neg (by omega), if_neg (by omega)]
        exact hF
      · intro q hq
        rcases List.mem_cons.mp hq with rfl | hq
        · rw [hF2 q.id (fun g2 hg2 => ne_of_gt (hpw.1 g2 hg2)), updFn, if_pos rfl]
        · exact hF1 q hq
      · intro n hn
        rw [hF2 n (fun g2 hg2 => hn g2 (List.mem_cons_of_mem _ hg2)), updFn,
          if_neg (Ne.symm (hn g (List.mem_cons_self _ _)))]

theorem unmarkedCount_le (maxId : Nat) (m : Nat → Bool) :
    unmarkedCount maxId m ≤ maxId + 1 := by
  rw [unmarkedCount]
  calc ((Finset.range (maxId + 1)).filter (fun i => m i = false)).card
      ≤ (Finset.range (maxId + 1)).card := Finset.card_filter_le _ _
    _ = maxId + 1 := Finset.card_range _

theorem coiLoop_master {maxId : Nat} {mask : Nat → Bool}
    {F : Nat → Option (AigLit × AigLit)} {R : Nat → Prop}
    (hG : ∀ n a b, F n = some (a, b) →
      (a.id ≤ maxId ∧ (a.id = 0 ∨ (F a.id ≠ none ∨ mask a.id = true))) ∧
      (b.id ≤ maxId ∧ (b.id = 0 ∨ (F b.id ≠ none ∨ mask b.id = true))))
    (hR : ∀ m a b, R m → F m = some (a, b) → R a.id ∧ R b.id) :
    ∀ (fuel : Nat) (stack : List Nat) (mark : Nat → Bool),
      2 * unmarkedCount maxId mark + stack.length ≤ fuel →
      (∀ s ∈ stack, s = 0 ∨ (s ≤ maxId ∧ (F s ≠ none ∨ mask s = true))) →
      (∀ s ∈ stack, R s) →
      (∀ n, mark n = true → R n ∧ n ≠ 0 ∧ n ≤ maxId ∧ (F n ≠ none ∨ mask n = true)) →
      (∀ n a b, mark n = true → F n = some (a, b) →
        (a.id = 0 ∨ mark a.id = true ∨ a.id ∈ stack) ∧
        (b.id = 0 ∨ mark b.id = true ∨ b.id ∈ stack)) →
      ∃ M, coiLoop maxId mask F fuel stack mark = .ok M ∧
        (∀ n, mark n = true → M n = true) ∧
        (∀ n, M n = true → R n ∧ n ≠ 0 ∧ n ≤ maxId ∧ (F n ≠ none ∨ mask n = true)) ∧
        (∀ n a b, M n = true → F n = some (a, b) →
          (a.id = 0 ∨ M a.id = true) ∧ (b.id = 0 ∨ M b.id = true)) ∧
        (∀ s ∈ stack, s = 0 ∨ M s = true) := by
  intro fuel
  induction fuel with
  | zero =>
      intro stack mark hfuel hsv hsr hmk hcl
      have hstack : stack = [] := by
        cases stack with
        | nil => rfl
        | cons s rest => simp at hfuel
      subst hstack
      refine ⟨mark, rfl, fun n h => h, hmk, ?_, ?_⟩
      · intro n a b hn hF
        have := hcl n a b hn hF
        rcases this with ⟨ha, hb⟩
        constructor
        · rcases ha with h | h | h
          · left; exact h
          · right; exact h
          · simp at h
        · rcases hb with h | h | h
          · left; exact h
          · right; exact h
          · simp at h
      · intro s hs
        simp at hs
  | succ fuel ih =>
      intro stack mark hfuel hsv hsr hmk hcl
      cases stack with
      | nil =>
          refine ⟨mark, rfl, fun n h => h, hmk, ?_, ?_⟩
          · intro n a b hn hF
            have := hcl n a b hn hF
            rcases this with ⟨ha, hb⟩
            constructor
            · rcases ha with h | h | h
              · left; exact h
              · right; exact h
              · simp at h
            · rcases hb with h | h | h
              · left; exact h
              · right; exact h
              · simp at h
          · intro s hs
            simp at hs
      | cons v rest =>
          rw [coiLoop]
          by_cases hid0 : v = 0
          · rw [if_pos hid0]
            obtain ⟨M, hM, m1, m2, m3, m4⟩ := ih rest mark
              (by simp at hfuel ⊢; omega)
              (fun s hs => hsv s (List.mem_cons_of_mem _ hs))
              (fun s hs => hsr s (List.mem_cons_of_mem _ hs))
              hmk
              (by
                intro n a b hn hF
                obtain ⟨ha, hb⟩ := hcl n a b hn hF
                constructor
                · rcases ha with h | h | h
                  · left; exact h
                  · right; left; exact h
                  · rcases List.mem_cons.mp h with h | h
                    · left; omega
                    · right; right; exact h
                · rcases hb with h | h | h
                  · left; exact h
                  · right; left; exact h
                  · rcases List.mem_cons.mp h with h | h
                    · left; omega
                    · right; right; exact h)
            refine ⟨M, hM, m1, m2, m3, ?_⟩
            intro s hs
            rcases List.mem_cons.mp hs with rfl | hs
            · left; exact hid0
            · exact m4 s hs
          · have hsv0 := hsv v (List.mem_cons_self _ _)
            have hidv : v ≤ maxId ∧ (F v ≠ none ∨ mask v = true) := by
              rcases hsv0 with h | h
              · exact absurd h hid0
              · exact h
            rw [if_neg hid0, if_neg (by omega)]
            by_cases hmark : mark v = true
            · rw [if_pos hmark]
              obtain ⟨M, hM, m1, m2, m3, m4⟩ := ih rest mark
                (by simp at hfuel ⊢; omega)
                (fun s hs => hsv s (List.mem_cons_of_mem _ hs))
                (fun s hs => hsr s (List.mem_cons_of_mem _ hs))
                hmk
                (by
                  intro n a b hn hF
                  obtain ⟨ha, hb⟩ := hcl n a b hn hF
                  constructor
                  · rcases ha with h | h | h
                    · left; exact h
                    · right; left; exact h
                    · rcases List.mem_cons.mp h with h | h
                      · right; left; rw [h]; exact hmark
                      · right; right; exact h
                  · rcases hb with h | h | h
                    · left; exact h
                    · right; left; exact h
                    · rcases List.mem_cons.mp h with h | h
                      · right; left; rw [h]; exact hmark
                      · right; right; exact h)
              refine ⟨M, hM, m1, m2, m3, ?_⟩
              intro s hs
              rcases List.mem_cons.mp hs with rfl | hs
              · right; exact m1 _ hmark
              · exact m4 s hs
            · rw [if_neg hmark]
              have hmf : mark v = false := by
                cases h : mark v
                · rfl
                · exact absurd h hmark
              have hUdec : unmarkedCount maxId (setMask mark v)
                  < unmarkedCount maxId mark :=
                unmarkedCount_setMask_lt hidv.1 hmf
              have hmk2 : ∀ n, setMask mark v n = true →
                  R n ∧ n ≠ 0 ∧ n ≤ maxId ∧ (F n ≠ none ∨ mask n = true) := by
                intro n hn
                rw [setMask] at hn
                split at hn
                · rename_i hni
                  subst hni
                  exact ⟨hsr _ (List.mem_cons_self _ _), hid0, hidv.1, hidv.2⟩
                · exact hmk n hn
              have hmono : ∀ n, mark n = true → setMask mark v n = true := by
                intro n hn
                rw [setMask]
                split
                · rfl
                · exact hn
              rcases hFid : F v with _ | ab
              · -- not a gate: must be an input
                have hmaskid : mask v = true := by
                  rcases hidv.2 with h | h
                  · exact absurd hFid h
                  · exact h
                dsimp only
                rw [if_pos hmaskid]
                obtain ⟨M, hM, m1, m2, m3, m4⟩ := ih rest (setMask mark v)
                  (by simp only [List.length_cons] at hfuel; omega)
                  (fun s hs => hsv s (List.mem_cons_of_mem _ hs))
                  (fun s hs => hsr s (List.mem_cons_of_mem _ hs))
                  hmk2
                  (by
                    intro n a b hn hF
                    rw [setMask] at hn
                    split at hn
                    · rename_i hni
                      subst hni
                      rw [hFid] at hF
                      cases hF
                    · obtain ⟨ha, hb⟩ := hcl n a b hn hF
                      constructor
                      · rcases ha with h | h | h
                        · left; exact h
                        · right; left; exact hmono _ h
                        · rcases List.mem_cons.mp h with h | h
                          · right; left; rw [h, setMask, if_pos rfl]
                          · right; right; exact h
                      · rcases hb with h | h | h
                        · left; exact h
                        · right; left; exact hmono _ h
                        · rcases List.mem_cons.mp h with h | h
                          · right; left; rw [h, setMask, if_pos rfl]
                          · right; right; exact h)
                refine ⟨M, hM, fun n hn => m1 n (hmono n hn), m2, m3, ?_⟩
                intro s hs
                rcases List.mem_cons.mp hs with rfl | hs
                · right; exact m1 _ (by rw [setMask, if_pos rfl])
                · exact m4 s hs
              · -- a gate: push both fanins
                rcases ab with ⟨a, b⟩
                have hGid := hG v a b hFid
                dsimp only
                rw [if_neg (by omega)]
                obtain ⟨M, hM, m1, m2, m3, m4⟩ := ih (b.id :: a.id :: rest)
                  (setMask mark v)
                  (by simp only [List.length_cons] at hfuel ⊢; omega)
                  (by
                    intro s hs
                    rcases List.mem_cons.mp hs with rfl | hs
                    · rcases hGid.2.2 with h | h
                      · left; exact h
                      · right; exact ⟨hGid.2.1, h⟩
                    · rcases List.mem_cons.mp hs with rfl | hs
                      · rcases hGid.1.2 with h | h
                        · left; exact h
                        · right; exact ⟨hGid.1.1, h⟩
                      · exact hsv s (List.mem_cons_of_mem _ hs))
                  (by
                    intro s hs
                    have hRid := hsr v (List.mem_cons_self _ _)
                    have hRab := hR v a b hRid hFid
                    rcases List.mem_cons.mp hs with rfl | hs
                    · exact hRab.2
                    · rcases List.mem_cons.mp hs with rfl | hs
                      · exact hRab.1
                      · exact hsr s (List.mem_cons_of_mem _ hs))
                  hmk2
                  (by
                    intro n a2 b2 hn hF
                    rw [setMask] at hn
                    split at hn
                    · rename_i hni
                      subst hni
                      rw [hFid] at hF
                      injection hF with hF
                      injection hF with hFa hFb
                      subst hFa
                      subst hFb
                      constructor
                      · right; right
                        exact List.mem_cons_of_mem _ (List.mem_cons_self _ _)
                      · right; right
                        exact List.mem_cons_self _ _
                    · obtain ⟨ha, hb⟩ := hcl n a2 b2 hn hF
                      constructor
                      · rcases ha with h | h | h
                        · left; exact h
                        · right; left; exact hmono _ h
                        · rcases List.mem_cons.mp h with h | h
                          · right; left; rw [h, setMask, if_pos rfl]
                          · right; right
                            exact List.mem_cons_of_mem _ (List.mem_cons_of_mem _ h)
                      · rcases hb with h | h | h
                        · left; exact h
                        · right; left; exact hmono _ h
                        · rcases List.mem_cons.mp h with h | h
                          · right; left; rw [h, setMask, if_pos rfl]
                          · right; right
                            exact List.mem_cons_of_mem _ (List.mem_cons_of_mem _ h))
                refine ⟨M, hM, fun n hn => m1 n (hmono n hn), m2, m3, ?_⟩
                intro s hs
                rcases List.mem_cons.mp hs with rfl | hs
                · right; exact m1 _ (by rw [setMask, if_pos rfl])
                · exact m4 s (List.mem_cons_of_mem _ (List.mem_cons_of_mem _ hs))

theorem coi_spec (aig : Aig) (i : Nat) (hwf : WfAig aig)
    (hdef : ∀ g ∈ aig.ands,
      (g.a.id = 0 ∨ g.a.id ∈ aig.inputs ∨ ∃ g2 ∈ aig.ands, g2.id = g.a.id) ∧
      (g.b.id = 0 ∨ g.b.id ∈ aig.inputs ∨ ∃ g2 ∈ aig.ands, g2.id = g.b.id))
    (hi : i < aig.outputs.length)
    (hroot : (aig.outputs.get ⟨i, hi⟩).id = 0 ∨
      ((aig.outputs.get ⟨i, hi⟩).id ≤ aig.max_id ∧
       ((aig.outputs.get ⟨i, hi⟩).id ∈ aig.inputs ∨
        ∃ g ∈ aig.ands, g.id = (aig.outputs.get ⟨i, hi⟩).id))) :
    ∃ F M,
      (∀ g ∈ aig.ands, F g.id = some (g.a, g.b)) ∧
      (∀ n, (∀ g ∈ aig.ands, g.id ≠ n) → F n = none) ∧
      aig.coi i = .ok ⟨aig.inputs.filter (fun id => decide (id ≤ aig.max_id) && M id),
        (aig.ands.filter (fun g => decide (g.id ≤ aig.max_id) && M g.id)).length,
        M, aig.max_id + 1⟩ ∧
      (∀ n, M n = true → Reach F (aig.outputs.get ⟨i, hi⟩).id n ∧ n ≠ 0 ∧
        n ≤ aig.max_id ∧ (n ∈ aig.inputs ∨ ∃ g ∈ aig.ands, g.id = n)) ∧
      (∀ n, Reach F (aig.outputs.get ⟨i, hi⟩).id n → n ≠ 0 → M n = true) := by
  obtain ⟨hwin, hnd, hdisj, hpw, hgw⟩ := hwf
  obtain ⟨Mk, hMk, hMkn⟩ := buildInputMask_spec aig.max_id aig.inputs (fun _ => false)
    (fun q hq => (hwin q hq).2)
  obtain ⟨F, hF, hF1, hF2⟩ := buildGateFanins_spec aig.max_id aig.ands (fun _ => none)
    (fun g hg => ⟨(hgw g hg).1, (hgw g hg).2.1, by have := hgw g hg; omega,
      by have := hgw g hg; omega⟩)
    hpw
  have hMkn2 : ∀ n, Mk n = decide (n ∈ aig.inputs) := by
    intro n
    rw [hMkn n]
    simp
  have hFgate : ∀ n, F n ≠ none → ∃ g ∈ aig.ands, g.id = n := by
    intro n hn
    by_contra hcon
    push_neg at hcon
    exact hn (hF2 n (fun g hg => hcon g hg))
  have hF0 : F 0 = none := hF2 0 (fun g hg => by have := (hgw g hg).1; omega)
  set root := (aig.outputs.get ⟨i, hi⟩).id with hrootdef
  have hGmaster : ∀ n a b, F n = some (a, b) →
      (a.id ≤ aig.max_id ∧ (a.id = 0 ∨ (F a.id ≠ none ∨ Mk a.id = true))) ∧
      (b.id ≤ aig.max_id ∧ (b.id = 0 ∨ (F b.id ≠ none ∨ Mk b.id = true))) := by
    intro n a b hn
    obtain ⟨g, hg, hgid⟩ := hFgate n (by rw [hn]; exact fun h => Option.noConfusion h)
    have hgf := hF1 g hg
    rw [hgid, hn] at hgf
    injection hgf with hgf
    injection hgf with hgfa hgfb
    obtain ⟨hda, hdb⟩ := hdef g hg
    rw [← hgfa] at hda
    rw [← hgfb] at hdb
    have hb := hgw g hg
    constructor
    · refine ⟨by rw [hgfa]; omega, ?_⟩
      rcases hda with h | h | h
      · left; exact h
      · right; right; rw [hMkn2]; simp [h]
      · right; left
        obtain ⟨g2, hg2, hg2id⟩ := h
        rw [← hg2id, hF1 g2 hg2]
        exact fun h2 => Option.noConfusion h2
    · refine ⟨by rw [hgfb]; omega, ?_⟩
      rcases hdb with h | h | h
      · left; exact h
      · right; right; rw [hMkn2]; simp [h]
      · right; left
        obtain ⟨g2, hg2, hg2id⟩ := h
        rw [← hg2id, hF1 g2 hg2]
        exact fun h2 => Option.noConfusion h2
  obtain ⟨M, hMloop, m1, m2, m3, m4⟩ :=
    coiLoop_master (R := Reach F root) hGmaster
      (fun m a b hm hFm => ⟨Reach.fanin_a hm hFm, Reach.fanin_b hm hFm⟩)
      (2 * (aig.max_id + 1) + 2) [root] (fun _ => false)
      (by
        have := unmarkedCount_le aig.max_id (fun _ => false)
        simp only [List.length_cons, List.length_nil]
        omega)
      (by
        intro s hs
        rcases List.mem_cons.mp hs with rfl | hs
        · rcases hroot with h | ⟨h1, h2⟩
          · left; exact h
          · right
            refine ⟨h1, ?_⟩
            rcases h2 with h | h
            · right; rw [hMkn2]; simp [h]
            · left
              obtain ⟨g, hg, hgid⟩ := h
              rw [← hgid, hF1 g hg]
              exact fun h2 => Option.noConfusion h2
        · simp at hs)
      (by
        intro s hs
        rcases List.mem_cons.mp hs with rfl | hs
        · exact Reach.base
        · simp at hs)
      (by
        intro n hn
        simp at hn)
      (by
        intro n a b hn hF
        simp at hn)
  have hcomp : ∀ n, Reach F root n → n ≠ 0 → M n = true := by
    intro n hn
    induction hn with
    | base =>
        intro h0
        rcases m4 root (List.mem_cons_self _ _) with h | h
        · exact absurd h h0
        · exact h
    | fanin_a hm hFm ihm =>
        intro h0
        rename_i mm a b
        have hmm : M mm = true := by
          apply ihm
          intro hmm0
          rw [hmm0, hF0] at hFm
          cases hFm
        rcases (m3 mm a b hmm hFm).1 with h | h
        · exact absurd h h0
        · exact h
    | fanin_b hm hFm ihm =>
        intro h0
        rename_i mm a b
        have hmm : M mm = true := by
          apply ihm
          intro hmm0
          rw [hmm0, hF0] at hFm
          cases hFm
        rcases (m3 mm a b hmm hFm).2 with h | h
        · exact absurd h h0
        · exact h
  refine ⟨F, M, hF1, hF2, ?_, ?_, hcomp⟩
  · rw [Aig.coi]
    simp only [bind, Except.bind]
    rw [dif_pos hi]
    rw [hMk]
    dsimp only
    rw [hF]
    dsimp only
    rw [hMloop]
  · intro n hn
    obtain ⟨hr2, hn0, hnle, hdef2⟩ := m2 n hn
    refine ⟨hr2, hn0, hnle, ?_⟩
    rcases hdef2 with h | h
    · right; exact hFgate n h
    · left
      rw [hMkn2] at h
      simpa using h

theorem restrictAnds_map {c : CoiInfo} {maxId : Nat} :
    ∀ {gates : List AndGate} {remap : Nat → Option Nat} {next : Nat}
      {acc : List AndGate} {out : (Nat → Option Nat) × Nat × List AndGate},
      restrictAnds c maxId gates remap next acc = .ok out →
      gates.Pairwise (fun g1 g2 => g1.id < g2.id) →
      (∀ g ∈ gates, g.a.id < g.id ∧ g.b.id < g.id) →
      ∃ tail,
        out.2.2 = acc ++ tail ∧
        out.2.1 = next + tail.length ∧
        tail.length = (gates.filter (fun g => c.contains_node g.id)).length ∧
        (∀ o, (∀ g ∈ gates.filter (fun g => c.contains_node g.id), g.id ≠ o) →
          out.1 o = remap o) ∧
        (∀ j (hj : j < tail.length),
          ∃ kg na nb, (gates.filter (fun g => c.contains_node g.id))[j]? = some kg ∧
            out.1 kg.id = some (next + j) ∧
            out.1 kg.a.id = some na ∧ out.1 kg.b.id = some nb ∧
            tail[j]? = some ⟨next + j, ⟨na, kg.a.neg⟩, ⟨nb, kg.b.neg⟩⟩) := by
  intro gates
  induction gates with
  | nil =>
      intro remap next acc out h _ _
      rw [restrictAnds] at h
      injection h with h
      subst h
      refine ⟨[], by rw [List.append_nil], by simp, by simp, fun o _ => rfl, ?_⟩
      intro j hj
      simp at hj
  | cons g rest ih =>
      intro remap next acc out h hpw hfan
      rw [restrictAnds] at h
      rw [List.pairwise_cons] at hpw
      rw [List.filter_cons]
      by_cases hcn : c.contains_node g.id = true
      · rw [if_neg (by rw [hcn]; simp)] at h
        by_cases hfb : maxId < g.a.id ∨ maxId < g.b.id
        · rw [if_pos hfb] at h
          cases h
        · rw [if_neg hfb] at h
          simp only [bind, Except.bind] at h
          rw [rewrite_lit] at h
          rcases hra : remap g.a.id with _ | na
          · rw [hra] at h
            cases h
          · rw [hra] at h
            dsimp only at h
            rw [rewrite_lit] at h
            rcases hrb : remap g.b.id with _ | nb
            · rw [hrb] at h
              cases h
            · rw [hrb] at h
              dsimp only at h
              obtain ⟨tail, c1, c2, c3, c4, c5⟩ := ih h hpw.2
                (fun q hq => hfan q (List.mem_cons_of_mem _ hq))
              have hgfan := hfan g (List.mem_cons_self _ _)
              have hnotrest : ∀ o, o < g.id + 1 →
                  ∀ q ∈ rest.filter (fun q => c.contains_node q.id), q.id ≠ o := by
                intro o ho q hq
                have := hpw.1 q (List.mem_of_mem_filter hq)
                omega
              refine ⟨⟨next, ⟨na, g.a.neg⟩, ⟨nb, g.b.neg⟩⟩ :: tail, ?_, ?_, ?_, ?_, ?_⟩
              · rw [c1, List.append_assoc]
                rfl
              · rw [c2, List.length_cons]
                omega
              · rw [if_pos hcn, List.length_cons, List.length_cons, c3]
              · intro o ho
                rw [if_pos hcn] at ho
                have ho1 : g.id ≠ o := ho g (List.mem_cons_self _ _)
                rw [c4 o (fun q hq => ho q (List.mem_cons_of_mem _ hq)), updFn,
                  if_neg (fun h2 => ho1 h2.symm)]
              · intro j hj
                rw [if_pos hcn]
                cases j with
                | zero =>
                    refine ⟨g, na, nb, List.getElem?_cons_zero, ?_, ?_, ?_, ?_⟩
                    · rw [c4 g.id (hnotrest g.id (by omega)), updFn, if_pos rfl,
                        Nat.add_zero]
                    · rw [c4 g.a.id (hnotrest g.a.id (by omega)), updFn,
                        if_neg (by omega)]
                      exact hra
                    · rw [c4 g.b.id (hnotrest g.b.id (by omega)), updFn,
                        if_neg (by omega)]
                      exact hrb
                    · rw [Nat.add_zero, List.getElem?_cons_zero]
                | succ j =>
                    rw [List.length_cons] at hj
                    obtain ⟨kg, na2, nb2, d1, d2, d3, d4, d5⟩ := c5 j (by omega)
                    refine ⟨kg, na2, nb2, by rw [List.getElem?_cons_succ]; exact d1,
                      ?_, d3, d4, ?_⟩
                    · rw [d2]
                      have : next + 1 + j = next + (j + 1) := by omega
                      rw [this]
                    · rw [List.getElem?_cons_succ, d5]
                      have : next + 1 + j = next + (j + 1) := by omega
                      rw [this]
      · have hcn2 : c.contains_node g.id = false := by
          cases hb : c.contains_node g.id
          · rfl
          · exact absurd hb hcn
        rw [if_pos (by rw [hcn2]; rfl)] at h
        rw [if_neg (by rw [hcn2]; simp)]
        exact ih h hpw.2 (fun q hq => hfan q (List.mem_cons_of_mem _ hq))

theorem fold_and_none_facts {a b : AigLit} (h : fold_and a b = none) :
    a.id ≠ 0 ∧ b.id ≠ 0 ∧ a.id ≠ b.id := by
  rw [fold_and] at h
  split_ifs at h with h1 h2 h3 h4 h5
  rw [Bool.or_eq_true] at h1
  push_neg at h1
  refine ⟨?_, ?_, ?_⟩
  · intro h0
    rcases hn : a.neg with _ | _
    · exact h1.1 (by rw [is_false, hn, h0]; rfl)
    · exact h2 (by rw [is_true, hn, h0]; rfl)
  · intro h0
    rcases hn : b.neg with _ | _
    · exact h1.2 (by rw [is_false, hn, h0]; rfl)
    · exact h3 (by rw [is_true, hn, h0]; rfl)
  · intro hid
    by_cases hneg : a.neg = b.neg
    · exact h4 (by
        rcases a with ⟨ia, na⟩
        rcases b with ⟨ib, nb⟩
        simp only at hid hneg
        rw [hid, hneg])
    · exact h5 (by
        rw [Bool.and_eq_true, decide_eq_true_eq, decide_eq_true_eq]
        exact ⟨hid, hneg⟩)

theorem lit_order_flip {a b : AigLit} (hid : a.id ≠ b.id)
    (h : lit_order a b = false) : lit_order b a = true := by
  rw [lit_order] at h ⊢
  rw [if_pos (by simpa using hid)] at h
  rw [if_pos (by simpa using (Ne.symm hid))]
  simp only [decide_eq_false_iff_not] at h
  simp only [decide_eq_true_eq]
  omega

theorem andKey_norm {a b : AigLit} (hid : a.id ≠ b.id) :
    AndKey.new (AndKey.new a b).1 (AndKey.new a b).2 = AndKey.new a b := by
  rcases hor : lit_order a b with _ | _
  · have hk : AndKey.new a b = (b, a) := by
      rw [AndKey.new, if_neg (by rw [hor]; simp)]
    rw [hk]
    dsimp only
    rw [AndKey.new, if_pos (lit_order_flip hid hor)]
  · have hk : AndKey.new a b = (a, b) := by
      rw [AndKey.new, if_pos hor]
    rw [hk]
    dsimp only
    rw [AndKey.new, if_pos hor]

theorem andKey_mem (a b : AigLit) :
    ((AndKey.new a b).1 = a ∧ (AndKey.new a b).2 = b) ∨
    ((AndKey.new a b).1 = b ∧ (AndKey.new a b).2 = a) := by
  rw [AndKey.new]
  split
  · left
    exact ⟨rfl, rfl⟩
  · right
    exact ⟨rfl, rfl⟩

theorem rewriteAnds_struct {maxId : Nat} :
    ∀ {gates : List AndGate} {mapped : Nat → Option AigLit} {next : Nat}
      {acc : List AndGate} {hash : AigLit × AigLit → Option AigLit}
      {out : (Nat → Option AigLit) × Nat × List AndGate ×
        (AigLit × AigLit → Option AigLit)},
      rewriteAnds maxId gates mapped next acc hash = .ok out →
      (∀ g ∈ acc, hash (g.a, g.b) ≠ none) →
      acc.Pairwise (fun g1 g2 => (g1.a, g1.b) ≠ (g2.a, g2.b)) →
      ∃ tail,
        out.2.2.1 = acc ++ tail ∧
        out.2.1 = next + tail.length ∧
        tail.map (fun g => g.id) = List.range' next tail.length ∧
        (∀ g ∈ tail, g.a.id ≠ 0 ∧ g.b.id ≠ 0 ∧ g.a.id ≠ g.b.id ∧
          AndKey.new g.a g.b = (g.a, g.b)) ∧
        (acc ++ tail).Pairwise (fun g1 g2 => (g1.a, g1.b) ≠ (g2.a, g2.b)) := by
  intro gates
  induction gates with
  | nil =>
      intro mapped next acc hash out h hacch hpwk
      rw [rewriteAnds] at h
      injection h with h
      subst h
      refine ⟨[], by rw [List.append_nil], by simp, by simp, ?_, ?_⟩
      · intro g hg
        simp at hg
      · rw [List.append_nil]
        exact hpwk
  | cons g rest ih =>
      intro mapped next acc hash out h hacch hpwk
      rw [rewriteAnds] at h
      by_cases hbad : g.id = 0 ∨ maxId < g.id
      · rw [if_pos hbad] at h
        cases h
      · rw [if_neg hbad] at h
        by_cases hfan : maxId < g.a.id ∨ maxId < g.b.id
        · rw [if_pos hfan] at h
          cases h
        · rw [if_neg hfan] at h
          rcases hma : mapped g.a.id with _ | a_base
          · rw [hma] at h
            rcases hmb : mapped g.b.id with _ | b_base
            · rw [hmb] at h
              cases h
            · rw [hmb] at h
              cases h
          · rw [hma] at h
            rcases hmb : mapped g.b.id with _ | b_base
            · rw [hmb] at h
              cases h
            · rw [hmb] at h
              dsimp only at h
              rcases hf : fold_and (apply_neg a_base g.a.neg)
                  (apply_neg b_base g.b.neg) with _ | flit
              · rw [hf] at h
                dsimp only at h
                rcases hh : hash (AndKey.new (apply_neg a_base g.a.neg)
                    (apply_neg b_base g.b.neg)) with _ | hlit
                · -- fresh gate emitted
                  rw [hh] at h
                  dsimp only at h
                  set a2 := apply_neg a_base g.a.neg with ha2
                  set b2 := apply_neg b_base g.b.neg with hb2
                  set k2 := AndKey.new a2 b2 with hk2
                  have hfacts := fold_and_none_facts hf
                  have hknz : k2.1.id ≠ 0 ∧ k2.2.id ≠ 0 ∧ k2.1.id ≠ k2.2.id := by
                    rcases andKey_mem a2 b2 with ⟨h1, h2⟩ | ⟨h1, h2⟩
                    · rw [← hk2] at h1 h2
                      rw [h1, h2]
                      exact hfacts
                    · rw [← hk2] at h1 h2
                      rw [h1, h2]
                      exact ⟨hfacts.2.1, hfacts.1, Ne.symm hfacts.2.2⟩
                  have hknorm : AndKey.new k2.1 k2.2 = (k2.1, k2.2) := by
                    have h3 := andKey_norm (a := a2) (b := b2) hfacts.2.2
                    rw [← hk2] at h3
                    rw [h3]
                  have hk2pair : (k2.1, k2.2) = k2 := rfl
                  have hacch2 : ∀ q ∈ acc ++ [(⟨next, k2.1, k2.2⟩ : AndGate)],
                      updFn hash k2 ⟨next, false⟩ (q.a, q.b) ≠ none := by
                    intro q hq
                    rcases List.mem_append.mp hq with hq | hq
                    · rw [updFn]
                      split
                      · exact fun h2 => Option.noConfusion h2
                      · exact hacch q hq
                    · rcases List.mem_cons.mp hq with rfl | hq
                      · rw [updFn]
                        dsimp only
                        rw [if_pos hk2pair]
                        exact fun h2 => Option.noConfusion h2
                      · simp at hq
                  have hpwk2 : (acc ++ [(⟨next, k2.1, k2.2⟩ : AndGate)]).Pairwise
                      (fun g1 g2 => (g1.a, g1.b) ≠ (g2.a, g2.b)) := by
                    rw [List.pairwise_append]
                    refine ⟨hpwk, by simp, ?_⟩
                    intro q hq q2 hq2
                    rcases List.mem_cons.mp hq2 with rfl | hq2
                    · dsimp only
                      intro he
                      apply hacch q hq
                      rw [he, hk2pair, hh]
                    · simp at hq2
                  obtain ⟨tail, c1, c2, c3, c4, c5⟩ := ih h hacch2 hpwk2
                  rw [List.append_assoc] at c1 c5
                  refine ⟨⟨next, k2.1, k2.2⟩ :: tail, c1, ?_, ?_, ?_, c5⟩
                  · rw [c2, List.length_cons]
                    omega
                  · rw [List.map_cons, c3, List.length_cons]
                    rfl
                  · intro q hq
                    rcases List.mem_cons.mp hq with rfl | hq
                    · exact ⟨hknz.1, hknz.2.1, hknz.2.2, hknorm⟩
                    · exact c4 q hq
                · -- hash hit: gate is reused, nothing appended
                  rw [hh] at h
                  dsimp only at h
                  exact ih h hacch hpwk
              · rw [hf] at h
                dsimp only at h
                exact ih h hacch hpwk

theorem apply_neg_mk_false (i : Nat) (s : Bool) :
    apply_neg ⟨i, false⟩ s = ⟨i, s⟩ := by
  cases s <;> rfl

theorem fold_and_none_of {a b : AigLit} (h1 : a.id ≠ 0) (h2 : b.id ≠ 0)
    (h3 : a.id ≠ b.id) : fold_and a b = none := by
  have hne : a ≠ b := fun he => h3 (by rw [he])
  rw [fold_and]
  rw [if_neg, if_neg, if_neg, if_neg, if_neg]
  · rw [Bool.and_eq_true]
    intro hc
    rw [decide_eq_true_eq] at hc
    exact h3 hc.1
  · exact hne
  · rw [is_true, Bool.and_eq_true]
    intro hc
    rw [decide_eq_true_eq] at hc
    exact h2 hc.1
  · rw [is_true, Bool.and_eq_true]
    intro hc
    rw [decide_eq_true_eq] at hc
    exact h1 hc.1
  · rw [Bool.or_eq_true]
    intro hc
    rcases hc with hc | hc
    · rw [is_false, Bool.and_eq_true, decide_eq_true_eq] at hc
      exact h1 hc.1
    · rw [is_false, Bool.and_eq_true, decide_eq_true_eq] at hc
      exact h2 hc.1

theorem restrictAnds_id {c : CoiInfo} {maxId : Nat} :
    ∀ (gates : List AndGate) (remap : Nat → Option Nat) (next : Nat)
      (acc : List AndGate),
      gates.map (fun g => g.id) = List.range' next gates.length →
      (∀ g ∈ gates, c.contains_node g.id = true ∧ g.a.id ≤ maxId ∧
        g.b.id ≤ maxId ∧ g.a.id < g.id ∧ g.b.id < g.id) →
      (∀ o, o < next → remap o = some o) →
      ∃ remapF, restrictAnds c maxId gates remap next acc
          = .ok (remapF, next + gates.length, acc ++ gates) ∧
        ∀ o, o < next + gates.length → remapF o = some o := by
  intro gates
  induction gates with
  | nil =>
      intro remap next acc _ _ hid
      refine ⟨remap, ?_, ?_⟩
      · rw [restrictAnds]
        simp
      · intro o ho
        exact hid o (by simpa using ho)
  | cons g rest ih =>
      intro remap next acc hids hg hid
      rw [List.map_cons, List.length_cons] at hids
      have hrr : List.range' next (rest.length + 1)
          = next :: List.range' (next + 1) rest.length := rfl
      rw [hrr] at hids
      injection hids with hgid hids
      have hgg := hg g (List.mem_cons_self _ _)
      obtain ⟨remapF, hF, hFo⟩ := ih (updFn remap g.id next) (next + 1)
        (acc ++ [g]) hids (fun q hq => hg q (List.mem_cons_of_mem _ hq))
        (by
          intro o ho
          rw [updFn]
          split
          · rename_i hoe
            subst hoe
            rw [hgid]
          · rename_i hoe
            have : o < next := by omega
            exact hid o this)
      refine ⟨remapF, ?_, ?_⟩
      · rw [restrictAnds, if_neg (by rw [hgg.1]; simp),
          if_neg (by push_neg; omega)]
        simp only [bind, Except.bind]
        rw [rewrite_lit, hid g.a.id (by omega)]
        dsimp only
        rw [rewrite_lit, hid g.b.id (by omega)]
        dsimp only
        have he1 : (⟨g.a.id, g.a.neg⟩ : AigLit) = g.a := rfl
        have he2 : (⟨g.b.id, g.b.neg⟩ : AigLit) = g.b := rfl
        rw [he1, he2]
        have he3 : (⟨next, g.a, g.b⟩ : AndGate) = g := by
          rw [← hgid]
        rw [he3, hF]
        simp only [List.length_cons]
        have harith : next + 1 + rest.length = next + (rest.length + 1) := by omega
        rw [harith, List.append_assoc]
        rfl
      · intro o ho
        rw [List.length_cons] at ho
        exact hFo o (by omega)

theorem rewriteAnds_id {maxId : Nat} :
    ∀ (gates : List AndGate) (mapped : Nat → Option AigLit) (next : Nat)
      (acc : List AndGate) (hash : AigLit × AigLit → Option AigLit),
      gates.map (fun g => g.id) = List.range' next gates.length →
      (∀ g ∈ gates, g.id ≤ maxId ∧ g.a.id ≤ maxId ∧ g.b.id ≤ maxId ∧
        g.a.id < g.id ∧ g.b.id < g.id ∧ g.a.id ≠ 0 ∧ g.b.id ≠ 0 ∧
        g.a.id ≠ g.b.id ∧ AndKey.new g.a g.b = (g.a, g.b)) →
      (∀ o, mapped o = if o < next then some ⟨o, false⟩ else none) →
      (∀ g ∈ gates, hash (g.a, g.b) = none) →
      gates.Pairwise (fun g1 g2 => (g1.a, g1.b) ≠ (g2.a, g2.b)) →
      1 ≤ next →
      ∃ mappedF hashF, rewriteAnds maxId gates mapped next acc hash
          = .ok (mappedF, next + gates.length, acc ++ gates, hashF) ∧
        ∀ o, mappedF o = if o < next + gates.length then some ⟨o, false⟩ else none := by
  intro gates
  induction gates with
  | nil =>
      intro mapped next acc hash _ _ hm _ _ _
      refine ⟨mapped, hash, ?_, ?_⟩
      · rw [rewriteAnds]
        simp
      · intro o
        rw [hm o]
        simp
  | cons g rest ih =>
      intro mapped next acc hash hids hg hm hh hpwk hn1
      rw [List.map_cons, List.length_cons] at hids
      have hrr : List.range' next (rest.length + 1)
          = next :: List.range' (next + 1) rest.length := rfl
      rw [hrr] at hids
      injection hids with hgid hids
      have hgg := hg g (List.mem_cons_self _ _)
      rw [List.pairwise_cons] at hpwk
      obtain ⟨mappedF, hashF, hF, hFo⟩ := ih (updFn mapped g.id ⟨next, false⟩)
        (next + 1) (acc ++ [g]) (updFn hash (g.a, g.b) ⟨next, false⟩)
        hids (fun q hq => hg q (List.mem_cons_of_mem _ hq))
        (by
          intro o
          rw [updFn]
          split
          · rename_i hoe
            subst hoe
            rw [hgid, if_pos (by omega)]
          · rename_i hoe
            rw [hm o]
            by_cases ho : o < next
            · rw [if_pos ho, if_pos (by omega)]
            · rw [if_neg ho, if_neg (by intro h2; rw [hgid] at hoe; omega)])
        (by
          intro q hq
          rw [updFn, if_neg (Ne.symm (hpwk.1 q hq))]
          exact hh q (List.mem_cons_of_mem _ hq))
        hpwk.2 (by omega)
      refine ⟨mappedF, hashF, ?_, ?_⟩
      · rw [rewriteAnds, if_neg (by omega), if_neg (by push_neg; omega)]
        rw [hm g.a.id, if_pos (by omega), hm g.b.id, if_pos (by omega)]
        dsimp only
        rw [apply_neg_mk_false, apply_neg_mk_false]
        have he1 : (⟨g.a.id, g.a.neg⟩ : AigLit) = g.a := rfl
        have he2 : (⟨g.b.id, g.b.neg⟩ : AigLit) = g.b := rfl
        rw [he1, he2]
        rw [fold_and_none_of hgg.2.2.2.2.2.1 hgg.2.2.2.2.2.2.1 hgg.2.2.2.2.2.2.2.1]
        dsimp only
        rw [hgg.2.2.2.2.2.2.2.2]
        dsimp only
        rw [hh g (List.mem_cons_self _ _)]
        dsimp only
        have he3 : (⟨next, g.a, g.b⟩ : AndGate) = g := by
          rw [← hgid]
        rw [he3, hF]
        simp only [List.length_cons]
        have harith : next + 1 + rest.length = next + (rest.length + 1) := by omega
        rw [harith, List.append_assoc]
        rfl
      · intro o
        rw [hFo o, List.length_cons]
        by_cases ho : o < next + (rest.length + 1)
        · rw [if_pos (by omega), if_pos ho]
        · rw [if_neg (by omega), if_neg ho]

theorem rewrite_identity (aig : Aig) (k m : Nat) (out : AigLit)
    (h1 : aig.inputs = List.range' 1 k)
    (h2 : aig.ands.map (fun g => g.id) = List.range' (k + 1) m)
    (h3 : aig.max_id = k + m)
    (h4 : ∀ g ∈ aig.ands, g.a.id < g.id ∧ g.b.id < g.id)
    (h5 : aig.outputs = [out])
    (h6 : out.id ≤ k + m)
    (h8 : ∀ g ∈ aig.ands, g.a.id ≠ 0 ∧ g.b.id ≠ 0 ∧ g.a.id ≠ g.b.id ∧
      AndKey.new g.a g.b = (g.a, g.b))
    (h9 : aig.ands.Pairwise (fun g1 g2 => (g1.a, g1.b) ≠ (g2.a, g2.b))) :
    aig.rewrite_single_output = .ok aig := by
  have hlen : aig.inputs.length = k := by
    rw [h1, List.length_range']
  have hglen : aig.ands.length = m := by
    have := congrArg List.length h2
    rw [List.length_map, List.length_range'] at this
    exact this
  have hgid : ∀ g ∈ aig.ands, k + 1 ≤ g.id ∧ g.id ≤ k + m := by
    intro g hg
    have : g.id ∈ aig.ands.map (fun g => g.id) := List.mem_map_of_mem _ hg
    rw [h2, List.mem_range'_1] at this
    omega
  rw [Aig.rewrite_single_output]
  rw [if_neg (by rw [h5]; simp)]
  simp only [bind, Except.bind]
  obtain ⟨mapped1, hI, hInm, hIget⟩ := rewriteInputs_spec aig.max_id aig.inputs
    (updFn (fun _ => none) 0 false_lit) 1 []
    (by
      intro id hid
      rw [h1, List.mem_range'_1] at hid
      rw [h3]
      omega)
  rw [hI]
  dsimp only
  have hm1 : ∀ o, mapped1 o = if o < 1 + k then some ⟨o, false⟩ else none := by
    intro o
    by_cases hmem : o ∈ aig.inputs
    · obtain ⟨j, hj, hje⟩ := List.mem_iff_getElem.mp hmem
      have hjk : j < k := by
        rw [hlen] at hj
        exact hj
      have hjq : aig.inputs[j]? = some o := by
        rw [List.getElem?_eq_getElem hj, hje]
      rw [h1] at hjq
      rw [List.getElem?_eq_getElem (by rw [List.length_range']; exact hjk)] at hjq
      rw [List.getElem_range'] at hjq
      injection hjq with hjq
      have hoe : o = 1 + j := by omega
      have hjget := hIget (by rw [h1]; exact List.nodup_range' _ _) j hj
      have hgetq : aig.inputs.get ⟨j, hj⟩ = o := hje
      rw [hgetq] at hjget
      rw [hjget, hoe, if_pos (by omega)]
    · rw [hInm o hmem, updFn]
      split
      · rename_i h0
        subst h0
        rw [if_pos (by omega)]
        rfl
      · rename_i h0
        have : ¬ o < 1 + k := by
          intro hlt
          apply hmem
          rw [h1, List.mem_range'_1]
          omega
        rw [if_neg this]
  obtain ⟨mappedF, hashF, hA, hAo⟩ := @rewriteAnds_id aig.max_id aig.ands mapped1
    (1 + aig.inputs.length) [] (fun _ => none)
    (by
      rw [hlen, hglen, h2]
      have : 1 + k = k + 1 := by omega
      rw [this])
    (by
      intro g hg
      have hb := hgid g hg
      have hf := h4 g hg
      have h8g := h8 g hg
      rw [h3]
      exact ⟨by omega, by omega, by omega, hf.1, hf.2, h8g.1, h8g.2.1,
        h8g.2.2.1, h8g.2.2.2⟩)
    (by
      intro o
      rw [hm1 o, hlen])
    (fun g hg => rfl)
    h9
    (by omega)
  rw [hA]
  dsimp only
  have hout : aig.outputs.getD 0 ⟨0, false⟩ = out := by
    rw [h5]
    rfl
  rw [hout]
  rw [if_neg (by rw [h3]; omega)]
  rw [hAo out.id, if_pos (by rw [hlen, hglen]; omega)]
  dsimp only
  rw [apply_neg_mk_false]
  have heout : (⟨out.id, out.neg⟩ : AigLit) = out := rfl
  rw [heout]
  rw [hlen, hglen]
  have hmax : 1 + k + m - 1 = aig.max_id := by
    rw [h3]
    omega
  rw [hmax]
  rw [List.nil_append, ← h1, List.nil_append, ← h5]

theorem restrict_identity_core (aig : Aig) (k m : Nat) (out : AigLit)
    (c2 : CoiInfo)
    (h1 : aig.inputs = List.range' 1 k)
    (h2 : aig.ands.map (fun g => g.id) = List.range' (k + 1) m)
    (h3 : aig.max_id = k + m)
    (h4 : ∀ g ∈ aig.ands, g.a.id < g.id ∧ g.b.id < g.id)
    (h5 : aig.outputs = [out])
    (h6 : out.id ≤ k + m)
    (hclen : c2.len = aig.max_id + 1)
    (hcone : ∀ n, 1 ≤ n → n ≤ k + m → c2.in_cone n = true)
    (hcoi : aig.coi 0 = .ok c2) :
    aig.restrict_to_output 0 = .ok aig := by
  have hlen : aig.inputs.length = k := by
    rw [h1, List.length_range']
  have hglen : aig.ands.length = m := by
    have := congrArg List.length h2
    rw [List.length_map, List.length_range'] at this
    exact this
  have hgid : ∀ g ∈ aig.ands, k + 1 ≤ g.id ∧ g.id ≤ k + m := by
    intro g hg
    have : g.id ∈ aig.ands.map (fun g => g.id) := List.mem_map_of_mem _ hg
    rw [h2, List.mem_range'_1] at this
    omega
  have hcont : ∀ id2, 1 ≤ id2 → id2 ≤ k + m → c2.contains_node id2 = true := by
    intro id2 ha hb
    rw [CoiInfo.contains_node, hclen, h3, hcone id2 ha hb]
    simp only [Bool.and_true, decide_eq_true_eq]
    omega
  have hkeepI : aig.inputs.filter
      (fun id => decide (id ≤ aig.max_id) && c2.contains_node id) = aig.inputs := by
    apply List.filter_eq_self.mpr
    intro a ha
    have hb : 1 ≤ a ∧ a < 1 + k := by
      rw [h1, List.mem_range'_1] at ha
      exact ha
    rw [Bool.and_eq_true, decide_eq_true_eq]
    exact ⟨by rw [h3]; omega, hcont a hb.1 (by omega)⟩
  rw [Aig.restrict_to_output]
  simp only [bind, Except.bind]
  rw [hcoi]
  dsimp only
  rcases hri : restrictInputs c2 aig.max_id aig.inputs (updFn (fun _ => none) 0 0) 1 []
    with ⟨remap1, next1, new_inputs⟩
  obtain ⟨hs1, hs2, hs3, hs4⟩ := restrictInputs_spec c2 aig.max_id aig.inputs
    (updFn (fun _ => none) 0 0) 1 []
  rw [hri] at hs1 hs2 hs3 hs4
  dsimp only at hs1 hs2 hs3 hs4
  have hs1x : next1 = 1 + k := by
    rw [hs1, hkeepI, hlen]
  have hs2x : new_inputs = List.range' 1 k := by
    rw [hs2, hkeepI, List.nil_append, hlen]
  subst hs1x
  subst hs2x
  have hremap1 : ∀ o, o < 1 + k → remap1 o = some o := by
    intro o ho
    by_cases h0 : o = 0
    · subst h0
      rw [hs3 0 (fun hmem => by
          have := List.mem_of_mem_filter hmem
          rw [h1, List.mem_range'_1] at this
          omega), updFn, if_pos rfl]
    · have hmem : o ∈ aig.inputs := by
        rw [h1, List.mem_range'_1]
        omega
      obtain ⟨j, hj, hje⟩ := List.mem_iff_getElem.mp hmem
      have hj2 : j < (aig.inputs.filter
          (fun id => decide (id ≤ aig.max_id) && c2.contains_node id)).length := by
        rw [hkeepI]
        exact hj
      have hget := hs4 (by rw [h1]; exact List.nodup_range' _ _) j hj2
      have hgq : (aig.inputs.filter
          (fun id => decide (id ≤ aig.max_id) && c2.contains_node id)).get ⟨j, hj2⟩
          = o := by
        have hq1 : (aig.inputs.filter (fun id => decide (id ≤ aig.max_id) &&
            c2.contains_node id))[j]? = aig.inputs[j]? := by
          rw [hkeepI]
        rw [List.getElem?_eq_getElem hj2, List.getElem?_eq_getElem hj] at hq1
        injection hq1 with hq1
        rw [← hje]
        exact hq1
      rw [hgq] at hget
      have hoe : o = 1 + j := by
        have hq : aig.inputs[j]? = some o := by
          rw [List.getElem?_eq_getElem hj, hje]
        rw [h1] at hq
        have hjk : j < k := by
          rw [hlen] at hj
          exact hj
        rw [List.getElem?_eq_getElem (by rw [List.length_range']; exact hjk),
          List.getElem_range'] at hq
        injection hq with hq
        omega
      rw [hget, hoe]
  obtain ⟨remapF, hra, hrf⟩ := @restrictAnds_id c2 aig.max_id aig.ands remap1 (1 + k) []
    (by
      rw [hglen, h2]
      have : 1 + k = k + 1 := by omega
      rw [this])
    (by
      intro g hg
      have hb := hgid g hg
      have hf := h4 g hg
      refine ⟨hcont g.id (by omega) (by omega), by rw [h3]; omega,
        by rw [h3]; omega, hf.1, hf.2⟩)
    hremap1
  rw [hra]
  dsimp only
  have hout : aig.outputs.getD 0 ⟨0, false⟩ = out := by
    rw [h5]
    rfl
  rw [hout, rewrite_lit, hrf out.id (by rw [hglen]; omega)]
  dsimp only
  have heout : (⟨out.id, out.neg⟩ : AigLit) = out := rfl
  rw [heout, hglen]
  have hmax : 1 + k + m - 1 = aig.max_id := by
    rw [h3]
    omega
  rw [hmax, ← h1, ← h5, List.nil_append]

theorem restrict_identity (aig : Aig) (k m : Nat) (out : AigLit)
    (h1 : aig.inputs = List.range' 1 k)
    (h2 : aig.ands.map (fun g => g.id) = List.range' (k + 1) m)
    (h3 : aig.max_id = k + m)
    (h4 : ∀ g ∈ aig.ands, g.a.id < g.id ∧ g.b.id < g.id)
    (h5 : aig.outputs = [out])
    (h6 : out.id ≤ k + m)
    (h7 : ∀ F : Nat → Option (AigLit × AigLit),
      (∀ g ∈ aig.ands, F g.id = some (g.a, g.b)) →
      (∀ n, (∀ g ∈ aig.ands, g.id ≠ n) → F n = none) →
      ∀ n, 1 ≤ n → n ≤ k + m → Reach F out.id n) :
    aig.restrict_to_output 0 = .ok aig := by
  have hlen : aig.inputs.length = k := by
    rw [h1, List.length_range']
  have hgid : ∀ g ∈ aig.ands, k + 1 ≤ g.id ∧ g.id ≤ k + m := by
    intro g hg
    have : g.id ∈ aig.ands.map (fun g => g.id) := List.mem_map_of_mem _ hg
    rw [h2, List.mem_range'_1] at this
    omega
  have hpwid : aig.ands.Pairwise (fun g1 g2 => g1.id < g2.id) := by
    have hmapw : (aig.ands.map (fun g => g.id)).Pairwise (· < ·) := by
      rw [h2]
      exact List.pairwise_lt_range' _ _
    exact List.pairwise_map.mp hmapw
  have hwf : WfAig aig := by
    refine ⟨?_, ?_, ?_, hpwid, ?_⟩
    · intro id hid
      rw [h1, List.mem_range'_1] at hid
      rw [h3]
      omega
    · rw [h1]
      exact List.nodup_range' _ _
    · intro id hid g hg
      rw [h1, List.mem_range'_1] at hid
      have := hgid g hg
      omega
    · intro g hg
      have hb := hgid g hg
      have hf := h4 g hg
      rw [h3]
      exact ⟨by omega, by omega, hf.1, hf.2⟩
  have hdef : ∀ g ∈ aig.ands,
      (g.a.id = 0 ∨ g.a.id ∈ aig.inputs ∨ ∃ g2 ∈ aig.ands, g2.id = g.a.id) ∧
      (g.b.id = 0 ∨ g.b.id ∈ aig.inputs ∨ ∃ g2 ∈ aig.ands, g2.id = g.b.id) := by
    intro g hg
    have hb := hgid g hg
    have hf := h4 g hg
    constructor
    · by_cases h0 : g.a.id = 0
      · left; exact h0
      · right
        by_cases hk : g.a.id ≤ k
        · left
          rw [h1, List.mem_range'_1]
          omega
        · right
          have : g.a.id ∈ aig.ands.map (fun g => g.id) := by
            rw [h2, List.mem_range'_1]
            omega
          obtain ⟨g2, hg2, hg2id⟩ := List.mem_map.mp this
          exact ⟨g2, hg2, hg2id⟩
    · by_cases h0 : g.b.id = 0
      · left; exact h0
      · right
        by_cases hk : g.b.id ≤ k
        · left
          rw [h1, List.mem_range'_1]
          omega
        · right
          have : g.b.id ∈ aig.ands.map (fun g => g.id) := by
            rw [h2, List.mem_range'_1]
            omega
          obtain ⟨g2, hg2, hg2id⟩ := List.mem_map.mp this
          exact ⟨g2, hg2, hg2id⟩
  have hi : 0 < aig.outputs.length := by
    rw [h5]
    simp
  have hroot0 : aig.outputs.get ⟨0, hi⟩ = out := by
    have hq : aig.outputs[0]? = some out := by
      rw [h5, List.getElem?_cons_zero]
    rw [List.getElem?_eq_getElem hi] at hq
    injection hq with hq
  obtain ⟨F, M, hF1, hF2, hcoi, hsound, hcomp⟩ := coi_spec aig 0 hwf hdef hi
    (by
      rw [hroot0]
      by_cases h0 : out.id = 0
      · left; exact h0
      · right
        refine ⟨by rw [h3]; omega, ?_⟩
        by_cases hk : out.id ≤ k
        · left
          rw [h1, List.mem_range'_1]
          omega
        · right
          have : out.id ∈ aig.ands.map (fun g => g.id) := by
            rw [h2, List.mem_range'_1]
            omega
          obtain ⟨g2, hg2, hg2id⟩ := List.mem_map.mp this
          exact ⟨g2, hg2, hg2id⟩)
  have hall : ∀ n, 1 ≤ n → n ≤ k + m → M n = true := by
    intro n hn1 hn2
    refine hcomp n ?_ (by omega)
    rw [hroot0]
    exact h7 F hF1 hF2 n hn1 hn2
  exact restrict_identity_core aig k m out _ h1 h2 h3 h4 h5 h6 rfl
    (fun n a b => hall n a b) hcoi

theorem rewrite_struct_spec (aig : Aig) {aig3 : Aig} (hwf : WfAig aig)
    (hr : aig.rewrite_single_output = .ok aig3) :
    ∃ mr outA,
      aig3.inputs = List.range' 1 aig.inputs.length ∧
      aig3.ands.map (fun g => g.id) = List.range' (aig.inputs.length + 1) mr ∧
      aig3.max_id = aig.inputs.length + mr ∧
      (∀ g ∈ aig3.ands, g.a.id < g.id ∧ g.b.id < g.id) ∧
      aig3.outputs = [outA] ∧ outA.id ≤ aig.inputs.length + mr ∧
      (∀ g ∈ aig3.ands, g.a.id ≠ 0 ∧ g.b.id ≠ 0 ∧ g.a.id ≠ g.b.id ∧
        AndKey.new g.a g.b = (g.a, g.b)) ∧
      aig3.ands.Pairwise (fun g1 g2 => (g1.a, g1.b) ≠ (g2.a, g2.b)) := by
  have hwin := hwf.1
  have hnd := hwf.2.1
  have hgw := hwf.2.2.2.2
  rw [Aig.rewrite_single_output] at hr
  by_cases hlen1 : aig.outputs.length ≠ 1
  · rw [if_pos hlen1] at hr
    cases hr
  · rw [if_neg hlen1] at hr
    simp only [bind, Except.bind] at hr
    obtain ⟨mapped1, heqI, hnmI, hgetI⟩ := rewriteInputs_spec aig.max_id aig.inputs
      (updFn (fun _ => none) 0 false_lit) 1 [] hwin
    rw [heqI] at hr
    dsimp only at hr
    rw [List.nil_append] at hr
    rcases hra0 : rewriteAnds aig.max_id aig.ands mapped1 (1 + aig.inputs.length) []
        (fun _ => none) with e | ⟨mapped2, next2, new_ands, hash2⟩
    · rw [hra0] at hr
      cases hr
    · rw [hra0] at hr
      dsimp only at hr
      by_cases hob : aig.max_id < (aig.outputs.getD 0 ⟨0, false⟩).id
      · rw [if_pos hob] at hr
        cases hr
      · rw [if_neg hob] at hr
        rcases hm2 : mapped2 (aig.outputs.getD 0 ⟨0, false⟩).id with _ | out_base
        · rw [hm2] at hr
          cases hr
        · rw [hm2] at hr
          dsimp only at hr
          injection hr with hr
          subst hr
          obtain ⟨tailS, s1, s2, s3, s4, s5⟩ := rewriteAnds_struct hra0
            (fun g hg => absurd hg (List.not_mem_nil g)) List.Pairwise.nil
          rw [List.nil_append] at s1 s5
          dsimp only at s1 s2 s3 s4 s5
          subst s1
          have hrun :
              (1 + aig.inputs.length ≤ next2 ∧
               (∀ o lit, mapped2 o = some lit → lit.id < next2 ∧
                 lit_value lit (evalAnds new_ands
                   (setInputs ((List.range' 1 aig.inputs.length).zip
                     (List.replicate aig.inputs.length false)) (fun _ => false)))
                   = (if o = 0 then false
                      else aig.values (List.replicate aig.inputs.length false) o)) ∧
               (∀ g ∈ new_ands, g.id < next2 ∧ g.a.id < g.id ∧ g.b.id < g.id ∧
                 1 ≤ g.id) ∧
               new_ands.Pairwise (fun g1 g2 => g1.id < g2.id) ∧
               ∃ tail, new_ands = [] ++ tail ∧
                 ∀ g ∈ tail, 1 + aig.inputs.length ≤ g.id) := by
            refine rewriteAnds_master hra0 ?_ (by omega) ?_ ?_ ?_ List.Pairwise.nil
            · intro g hg
              exact ⟨(hgw g hg).1,
                values_gate (List.replicate aig.inputs.length false) hwf hg⟩
            · intro o lit ho
              by_cases hmem : o ∈ aig.inputs
              · obtain ⟨⟨j, hj⟩, hge⟩ := List.mem_iff_get.mp hmem
                have hgj := hgetI hnd j hj
                rw [hge] at hgj
                rw [hgj] at ho
                injection ho with ho
                subst ho
                have ho1 : 1 ≤ o := (hwin o hmem).1
                refine ⟨by dsimp only; omega, ?_⟩
                have hjx : j < (List.replicate aig.inputs.length false).length := by
                  rw [List.length_replicate]
                  omega
                have hlit : lit_value ⟨1 + j, false⟩
                    (evalAnds []
                      (setInputs ((List.range' 1 aig.inputs.length).zip
                        (List.replicate aig.inputs.length false)) (fun _ => false)))
                    = if 1 + j = 0 then false
                      else setInputs ((List.range' 1 aig.inputs.length).zip
                        (List.replicate aig.inputs.length false)) (fun _ => false)
                        (1 + j) := rfl
                rw [hlit, if_neg (by omega), if_neg (by omega)]
                have hset : setInputs ((List.range' 1 aig.inputs.length).zip
                    (List.replicate aig.inputs.length false)) (fun _ => false) (1 + j)
                    = (List.replicate aig.inputs.length false).get ⟨j, hjx⟩ := by
                  have h0 := setInputs_range' (List.replicate aig.inputs.length false)
                    1 j hjx (fun _ => false)
                  nth_rewrite 1 [List.length_replicate] at h0
                  exact h0
                rw [hset]
                have hjz : j < (aig.inputs.zip
                    (List.replicate aig.inputs.length false)).length := by
                  rw [List.length_zip, List.length_replicate]
                  omega
                have hzmem : (o, (List.replicate aig.inputs.length false).get ⟨j, hjx⟩)
                    ∈ aig.inputs.zip (List.replicate aig.inputs.length false) := by
                  have hzel : (aig.inputs.zip
                      (List.replicate aig.inputs.length false))[j]
                      = (aig.inputs[j], (List.replicate aig.inputs.length false)[j]) :=
                    List.getElem_zip
                  have hmm := List.getElem_mem hjz
                  rw [hzel] at hmm
                  have hofst : aig.inputs[j] = o := hge
                  rw [hofst] at hmm
                  exact hmm
                rw [values_input (List.replicate aig.inputs.length false) hwf hzmem]
              · rw [hnmI o hmem, updFn] at ho
                split at ho
                · rename_i h0
                  injection ho with ho
                  subst h0
                  subst ho
                  refine ⟨by dsimp only [false_lit]; omega, ?_⟩
                  rw [if_pos rfl]
                  rfl
                · cases ho
            · intro kx lit hk
              cases hk
            · intro g hg
              exact absurd hg (List.not_mem_nil g)
          obtain ⟨d1, d2, d3, d4, d5⟩ := hrun
          refine ⟨new_ands.length, _, rfl, ?_, ?_, ?_, rfl, ?_, s4, s5⟩
          · dsimp only
            rw [s3]
            have : 1 + aig.inputs.length = aig.inputs.length + 1 := by omega
            rw [this]
          · dsimp only
            omega
          · intro g hg
            have := d3 g hg
            exact ⟨this.2.1, this.2.2.1⟩
          · dsimp only
            rw [apply_neg_id]
            have := (d2 _ _ hm2).1
            omega

theorem andKey_eq_lit_order {a b : AigLit} (hid : a.id ≠ b.id)
    (h : AndKey.new a b = (a, b)) : lit_order a b = true := by
  rcases hor : lit_order a b with _ | _
  · rw [AndKey.new, if_neg (by rw [hor]; simp)] at h
    injection h with h1 h2
    exact absurd (by rw [h1]) hid
  · rfl

theorem lit_order_iff_lt {a b : AigLit} (hid : a.id ≠ b.id) :
    lit_order a b = decide (a.id < b.id) := by
  rw [lit_order, if_pos (by simpa using hid)]

theorem sorted_getElem_lt {l : List Nat} (h : l.Pairwise (· < ·))
    {j1 j2 : Nat} (hj1 : j1 < l.length) (hj2 : j2 < l.length)
    (hlt : l[j1] < l[j2]) : j1 < j2 := by
  rcases Nat.lt_trichotomy j1 j2 with hc | hc | hc
  · exact hc
  · subst hc
    omega
  · have := List.pairwise_iff_getElem.mp h j2 j1 hj2 hj1 hc
    omega

theorem restrict_preserves (A : Aig) {B : Aig} (kr mr : Nat) (outA : AigLit)
    (hc : CanonAig A kr mr outA)
    (hr : A.restrict_to_output 0 = .ok B) :
    ∃ k m outB, CanonAig B k m outB ∧
      ∀ F : Nat → Option (AigLit × AigLit),
        (∀ g ∈ B.ands, F g.id = some (g.a, g.b)) →
        (∀ n, (∀ g ∈ B.ands, g.id ≠ n) → F n = none) →
        ∀ n, 1 ≤ n → n ≤ k + m → Reach F outB.id n := by
  obtain ⟨h1, h2, h3, h4, h5, h6, h8, h9⟩ := hc
  have hlen : A.inputs.length = kr := by
    rw [h1, List.length_range']
  have hgid : ∀ g ∈ A.ands, kr + 1 ≤ g.id ∧ g.id ≤ kr + mr := by
    intro g hg
    have : g.id ∈ A.ands.map (fun g => g.id) := List.mem_map_of_mem _ hg
    rw [h2, List.mem_range'_1] at this
    omega
  have hpwid : A.ands.Pairwise (fun g1 g2 => g1.id < g2.id) := by
    have hmapw : (A.ands.map (fun g => g.id)).Pairwise (· < ·) := by
      rw [h2]
      exact List.pairwise_lt_range' _ _
    exact List.pairwise_map.mp hmapw
  have hwf : WfAig A := by
    refine ⟨?_, ?_, ?_, hpwid, ?_⟩
    · intro id hid
      rw [h1, List.mem_range'_1] at hid
      rw [h3]
      omega
    · rw [h1]
      exact List.nodup_range' _ _
    · intro id hid g hg
      rw [h1, List.mem_range'_1] at hid
      have := hgid g hg
      omega
    · intro g hg
      have hb := hgid g hg
      have hf := h4 g hg
      rw [h3]
      exact ⟨by omega, by omega, hf.1, hf.2⟩
  have hdef : ∀ g ∈ A.ands,
      (g.a.id = 0 ∨ g.a.id ∈ A.inputs ∨ ∃ g2 ∈ A.ands, g2.id = g.a.id) ∧
      (g.b.id = 0 ∨ g.b.id ∈ A.inputs ∨ ∃ g2 ∈ A.ands, g2.id = g.b.id) := by
    intro g hg
    have hb := hgid g hg
    have hf := h4 g hg
    constructor
    · by_cases h0 : g.a.id = 0
      · left; exact h0
      · right
        by_cases hk : g.a.id ≤ kr
        · left
          rw [h1, List.mem_range'_1]
          omega
        · right
          have : g.a.id ∈ A.ands.map (fun g => g.id) := by
            rw [h2, List.mem_range'_1]
            omega
          obtain ⟨g2, hg2, hg2id⟩ := List.mem_map.mp this
          exact ⟨g2, hg2, hg2id⟩
    · by_cases h0 : g.b.id = 0
      · left; exact h0
      · right
        by_cases hk : g.b.id ≤ kr
        · left
          rw [h1, List.mem_range'_1]
          omega
        · right
          have : g.b.id ∈ A.ands.map (fun g => g.id) := by
            rw [h2, List.mem_range'_1]
            omega
          obtain ⟨g2, hg2, hg2id⟩ := List.mem_map.mp this
          exact ⟨g2, hg2, hg2id⟩
  have hi : 0 < A.outputs.length := by
    rw [h5]
    simp
  have hroot0 : A.outputs.get ⟨0, hi⟩ = outA := by
    have hq : A.outputs[0]? = some outA := by
      rw [h5, List.getElem?_cons_zero]
    rw [List.getElem?_eq_getElem hi] at hq
    injection hq with hq
  obtain ⟨FA, M, hF1, hF2, hcoi, hsound, hcomp⟩ := coi_spec A 0 hwf hdef hi
    (by
      rw [hroot0]
      by_cases h0 : outA.id = 0
      · left; exact h0
      · right
        refine ⟨by rw [h3]; omega, ?_⟩
        by_cases hk : outA.id ≤ kr
        · left
          rw [h1, List.mem_range'_1]
          omega
        · right
          have : outA.id ∈ A.ands.map (fun g => g.id) := by
            rw [h2, List.mem_range'_1]
            omega
          obtain ⟨g2, hg2, hg2id⟩ := List.mem_map.mp this
          exact ⟨g2, hg2, hg2id⟩)
  set crec := (⟨A.inputs.filter (fun id => decide (id ≤ A.max_id) && M id),
    (A.ands.filter (fun g => decide (g.id ≤ A.max_id) && M g.id)).length,
    M, A.max_id + 1⟩ : CoiInfo) with hcrec
  have hcnM : ∀ id2, crec.contains_node id2
      = (decide (id2 < A.max_id + 1) && M id2) := by
    intro id2
    rw [hcrec]
    rfl
  have hFA0 : FA 0 = none := by
    refine hF2 0 ?_
    intro g hg
    have := hgid g hg
    omega
  -- decompose the restriction run
  rw [Aig.restrict_to_output] at hr
  simp only [bind, Except.bind] at hr
  rw [hcoi] at hr
  dsimp only at hr
  rcases hri : restrictInputs crec A.max_id A.inputs (updFn (fun _ => none) 0 0) 1 []
    with ⟨remap1, next1, new_inputs⟩
  rw [hri] at hr
  dsimp only at hr
  rcases hra : restrictAnds crec A.max_id A.ands remap1 next1 []
    with e | ⟨remap2, next2, new_ands2⟩
  · rw [hra] at hr
    cases hr
  · rw [hra] at hr
    dsimp only at hr
    rw [rewrite_lit] at hr
    have houtD : A.outputs.getD 0 ⟨0, false⟩ = outA := by
      rw [h5]
      rfl
    rw [houtD] at hr
    rcases hro : remap2 outA.id with _ | no
    · rw [hro] at hr
      cases hr
    · rw [hro] at hr
      dsimp only at hr
      injection hr with hr
      subst hr
      obtain ⟨hs1, hs2, hs3, hs4⟩ := restrictInputs_spec crec A.max_id A.inputs
        (updFn (fun _ => none) 0 0) 1 []
      rw [hri] at hs1 hs2 hs3 hs4
      dsimp only at hs1 hs2 hs3 hs4
      rw [List.nil_append] at hs2
      obtain ⟨new_ands2, c1, c2, c3, c4, c5⟩ := restrictAnds_map hra hpwid
        (fun g hg => h4 g hg)
      dsimp only at c1 c2 c3 c4 c5
      rw [List.nil_append] at c1
      subst c1
      set KI := A.inputs.filter
        (fun id => decide (id ≤ A.max_id) && crec.contains_node id) with hKIdef
      set KG := A.ands.filter (fun g => crec.contains_node g.id) with hKGdef
      -- kept lists: membership and order facts
      have hKIsort : KI.Pairwise (· < ·) := by
        refine List.Pairwise.sublist (List.filter_sublist _) ?_
        rw [h1]
        exact List.pairwise_lt_range' _ _
      have hKInodup : KI.Nodup := by
        refine List.Nodup.sublist (List.filter_sublist _) ?_
        rw [h1]
        exact List.nodup_range' _ _
      have hKImem : ∀ o ∈ KI, 1 ≤ o ∧ o ≤ kr := by
        intro o ho
        have := List.mem_of_mem_filter ho
        rw [h1, List.mem_range'_1] at this
        omega
      have hKIM : ∀ o ∈ KI, M o = true := by
        intro o ho
        have hp := List.of_mem_filter ho
        rw [Bool.and_eq_true, hcnM, Bool.and_eq_true] at hp
        exact hp.2.2
      have hKGsub : ∀ g ∈ KG, g ∈ A.ands := by
        intro g hg
        exact List.mem_of_mem_filter hg
      have hKGM : ∀ g ∈ KG, M g.id = true := by
        intro g hg
        have hp := List.of_mem_filter hg
        rw [hcnM, Bool.and_eq_true] at hp
        exact hp.2
      have hKGpw : KG.Pairwise (fun g1 g2 => g1.id < g2.id) :=
        List.Pairwise.sublist (List.filter_sublist _) hpwid
      have hKGpwk : KG.Pairwise (fun g1 g2 => (g1.a, g1.b) ≠ (g2.a, g2.b)) :=
        List.Pairwise.sublist (List.filter_sublist _) h9
      have hKGmem : ∀ g ∈ KG, kr + 1 ≤ g.id ∧ g.id ≤ kr + mr :=
        fun g hg => hgid g (hKGsub g hg)
      -- the zero entry
      have hzero : remap2 0 = some 0 := by
        rw [c4 0 (fun g hg => by have := hKGmem g hg; omega)]
        rw [hs3 0 (fun hmem => by have := hKImem 0 hmem; omega)]
        rw [updFn, if_pos rfl]
      -- characterization of the final renumbering
      have hchar : ∀ o n, remap2 o = some n →
          (o = 0 ∧ n = 0) ∨
          (∃ j, ∃ hj : j < KI.length, KI[j] = o ∧ n = 1 + j) ∨
          (∃ j, ∃ hj : j < new_ands2.length, ∃ kg, KG[j]? = some kg ∧ kg.id = o ∧
            n = next1 + j) := by
        intro o n hn
        by_cases hmemG : ∃ kg ∈ KG, kg.id = o
        · obtain ⟨kg, hkgm, hkgid⟩ := hmemG
          obtain ⟨j, hj, hje⟩ := List.mem_iff_getElem.mp hkgm
          have hj2 : j < new_ands2.length := by
            rw [c3]
            exact hj
          obtain ⟨kg2, na, nb, d1, d2, d3, d4, d5⟩ := c5 j hj2
          rw [List.getElem?_eq_getElem hj] at d1
          injection d1 with d1
          rw [hje] at d1
          subst d1
          rw [hkgid] at d2
          rw [d2] at hn
          injection hn with hn
          right
          right
          exact ⟨j, hj2, kg, by rw [List.getElem?_eq_getElem hj, hje], hkgid,
            hn.symm⟩
        · push_neg at hmemG
          rw [c4 o (fun g hg h2x => hmemG g hg h2x)] at hn
          by_cases hmemI : o ∈ KI
          · obtain ⟨j, hj, hje⟩ := List.mem_iff_getElem.mp hmemI
            have hget := hs4 (by rw [h1]; exact List.nodup_range' _ _) j hj
            have hgq : KI.get ⟨j, hj⟩ = o := hje
            rw [hgq] at hget
            rw [hget] at hn
            injection hn with hn
            right
            left
            exact ⟨j, hj, hje, hn.symm⟩
          · rw [hs3 o hmemI, updFn] at hn
            split at hn
            · rename_i h0
              injection hn with hn
              left
              exact ⟨h0, hn.symm⟩
            · cases hn
      -- strict monotonicity of the renumbering
      have hmono : ∀ o1 o2 n1 n2, remap2 o1 = some n1 → remap2 o2 = some n2 →
          o1 < o2 → n1 < n2 := by
        intro o1 o2 n1 n2 ha hb hlt
        have hnext1 : next1 = 1 + KI.length := hs1
        rcases hchar o1 n1 ha with ⟨hoa, hna⟩ | ⟨j1, hj1, hja, hna⟩ |
          ⟨j1, hj1, kg1, hd1, hka, hna⟩
        · rcases hchar o2 n2 hb with ⟨hob, hnb⟩ | ⟨j2, hj2, hjb, hnb⟩ |
            ⟨j2, hj2, kg2, hd2, hkb, hnb⟩
          · omega
          · omega
          · omega
        · rcases hchar o2 n2 hb with ⟨hob, hnb⟩ | ⟨j2, hj2, hjb, hnb⟩ |
            ⟨j2, hj2, kg2, hd2, hkb, hnb⟩
          · have := hKImem _ (List.getElem_mem hj1)
            omega
          · have hjj : j1 < j2 := by
              refine sorted_getElem_lt hKIsort hj1 hj2 ?_
              rw [hja, hjb]
              exact hlt
            omega
          · omega
        · have hkg1m : kg1 ∈ KG := List.getElem?_mem hd1
          have hb1 := hKGmem kg1 hkg1m
          rcases hchar o2 n2 hb with ⟨hob, hnb⟩ | ⟨j2, hj2, hjb, hnb⟩ |
            ⟨j2, hj2, kg2, hd2, hkb, hnb⟩
          · omega
          · have := hKImem _ (List.getElem_mem hj2)
            omega
          · have hkg2m : kg2 ∈ KG := List.getElem?_mem hd2
            have hj1g : j1 < KG.length := by
              rw [← c3]
              exact hj1
            have hj2g : j2 < KG.length := by
              rw [← c3]
              exact hj2
            rw [List.getElem?_eq_getElem hj1g] at hd1
            rw [List.getElem?_eq_getElem hj2g] at hd2
            injection hd1 with hd1
            injection hd2 with hd2
            have hidw : (KG.map (fun g => g.id)).Pairwise (· < ·) :=
              List.pairwise_map.mpr hKGpw
            have hjj : j1 < j2 := by
              refine sorted_getElem_lt hidw (by rw [List.length_map]; exact hj1g)
                (by rw [List.length_map]; exact hj2g) ?_
              rw [List.getElem_map, List.getElem_map, hd1, hd2, hka, hkb]
              exact hlt
            omega
      -- the consecutive gate-id listing
      have hgmap : new_ands2.map (fun g => g.id) = List.range' next1 new_ands2.length := by
        apply List.ext_getElem?
        intro j
        by_cases hj : j < new_ands2.length
        · obtain ⟨kg, na, nb, d1, d2, d3, d4, d5⟩ := c5 j hj
          rw [List.getElem?_map, d5]
          rw [List.getElem?_eq_getElem (by rw [List.length_range']; exact hj)]
          rw [List.getElem_range']
          simp only [Option.map_some']
          congr 1
          omega
        · rw [List.getElem?_map]
          rw [List.getElem?_eq_none (by omega)]
          rw [List.getElem?_eq_none (by rw [List.length_range']; omega)]
          rfl
      refine ⟨KI.length, new_ands2.length, ⟨no, outA.neg⟩, ?_, ?_⟩
      · unfold CanonAig
        dsimp only
        have hnext1 : next1 = 1 + KI.length := hs1
        refine ⟨hs2, ?_, ?_, ?_, rfl, ?_, ?_, ?_⟩
        · rw [hgmap, hnext1]
          have : 1 + KI.length = KI.length + 1 := by omega
          rw [this]
        · omega
        · intro g hg
          obtain ⟨j, hj, hje⟩ := List.mem_iff_getElem.mp hg
          obtain ⟨kg, na, nb, d1, d2, d3, d4, d5⟩ := c5 j hj
          rw [List.getElem?_eq_getElem hj] at d5
          injection d5 with d5
          rw [hje] at d5
          subst d5
          have hkgm : kg ∈ KG := List.getElem?_mem d1
          have hf := h4 kg (hKGsub kg hkgm)
          constructor
          · dsimp only
            exact hmono _ _ _ _ d3 d2 hf.1
          · dsimp only
            exact hmono _ _ _ _ d4 d2 hf.2
        · dsimp only
          rcases hchar outA.id no hro with ⟨hoa, hna⟩ | ⟨j, hj, hja, hna⟩ |
            ⟨j, hj, kg, hd, hka, hna⟩
          · omega
          · omega
          · omega
        · intro g hg
          obtain ⟨j, hj, hje⟩ := List.mem_iff_getElem.mp hg
          obtain ⟨kg, na, nb, d1, d2, d3, d4, d5⟩ := c5 j hj
          rw [List.getElem?_eq_getElem hj] at d5
          injection d5 with d5
          rw [hje] at d5
          subst d5
          have hkgm : kg ∈ KG := List.getElem?_mem d1
          have h8A := h8 kg (hKGsub kg hkgm)
          have hna0 : 0 < na := by
            refine hmono _ _ _ _ hzero d3 ?_
            omega
          have hnb0 : 0 < nb := by
            refine hmono _ _ _ _ hzero d4 ?_
            omega
          have hordk : lit_order kg.a kg.b = true :=
            andKey_eq_lit_order h8A.2.2.1 h8A.2.2.2
          rw [lit_order_iff_lt h8A.2.2.1, decide_eq_true_eq] at hordk
          have hnanb : na < nb := hmono _ _ _ _ d3 d4 hordk
          refine ⟨by dsimp only; omega, by dsimp only; omega,
            by dsimp only; omega, ?_⟩
          rw [AndKey.new, if_pos ?_]
          rw [lit_order_iff_lt (by dsimp only; omega)]
          dsimp only
          exact decide_eq_true hnanb
        · rw [List.pairwise_iff_getElem]
          intro j1 j2 hj1 hj2 hjj
          obtain ⟨kg1, na1, nb1, e1, e2, e3, e4, e5⟩ := c5 j1 hj1
          obtain ⟨kg2, na2, nb2, f1, f2, f3, f4, f5⟩ := c5 j2 hj2
          rw [List.getElem?_eq_getElem hj1] at e5
          rw [List.getElem?_eq_getElem hj2] at f5
          injection e5 with e5
          injection f5 with f5
          rw [e5, f5]
          dsimp only
          intro heq
          injection heq with hqa hqb
          injection hqa with hia hna
          injection hqb with hib hnb2
          have hidsa : kg1.a.id = kg2.a.id := by
            rcases Nat.lt_trichotomy kg1.a.id kg2.a.id with h | h | h
            · have := hmono _ _ _ _ e3 f3 h
              omega
            · exact h
            · have := hmono _ _ _ _ f3 e3 h
              omega
          have hidsb : kg1.b.id = kg2.b.id := by
            rcases Nat.lt_trichotomy kg1.b.id kg2.b.id with h | h | h
            · have := hmono _ _ _ _ e4 f4 h
              omega
            · exact h
            · have := hmono _ _ _ _ f4 e4 h
              omega
          have hA2 : kg1.a = kg2.a := by
            have e : kg1.a = ⟨kg1.a.id, kg1.a.neg⟩ := rfl
            rw [e, hidsa, hna]
          have hB2 : kg1.b = kg2.b := by
            have e : kg1.b = ⟨kg1.b.id, kg1.b.neg⟩ := rfl
            rw [e, hidsb, hnb2]
          have hj1g : j1 < KG.length := by
            rw [← c3]
            exact hj1
          have hj2g : j2 < KG.length := by
            rw [← c3]
            exact hj2
          rw [List.getElem?_eq_getElem hj1g] at e1
          rw [List.getElem?_eq_getElem hj2g] at f1
          injection e1 with e1
          injection f1 with f1
          have hpk := List.pairwise_iff_getElem.mp hKGpwk j1 j2 hj1g hj2g hjj
          rw [e1, f1] at hpk
          exact hpk (by rw [hA2, hB2])
      · intro F hFB1 hFB2 n hn1 hn2
        dsimp only at hFB1 hFB2 ⊢
        have htrans : ∀ o, Reach FA (A.outputs.get ⟨0, hi⟩).id o →
            ∀ n2, remap2 o = some n2 → Reach F no n2 := by
          intro o hreach
          induction hreach with
          | base =>
              intro n2 hn2x
              rw [hroot0] at hn2x
              rw [hro] at hn2x
              injection hn2x with hn2x
              subst hn2x
              exact Reach.base
          | fanin_a hm hFm ihm =>
              rename_i m2 aL bL
              intro n2 hn2x
              have hm2nz : m2 ≠ 0 := by
                intro h0
                rw [h0, hFA0] at hFm
                cases hFm
              have hM2 : M m2 = true := hcomp m2 hm hm2nz
              obtain ⟨g, hgmem, hgid2⟩ : ∃ g ∈ A.ands, g.id = m2 := by
                by_contra hcon
                push_neg at hcon
                rw [hF2 m2 (fun g hg => hcon g hg)] at hFm
                cases hFm
              have hFg := hF1 g hgmem
              rw [hgid2, hFm] at hFg
              injection hFg with hFg
              injection hFg with hga hgb
              have hgK : g ∈ KG := by
                rw [hKGdef]
                refine List.mem_filter.mpr ⟨hgmem, ?_⟩
                rw [hcnM, Bool.and_eq_true]
                refine ⟨?_, by rw [hgid2]; exact hM2⟩
                rw [decide_eq_true_eq]
                have := hgid g hgmem
                rw [h3]
                omega
              obtain ⟨j, hjg, hje⟩ := List.mem_iff_getElem.mp hgK
              have hj2 : j < new_ands2.length := by
                rw [c3]
                exact hjg
              obtain ⟨kg, na, nb, d1, d2, d3, d4, d5⟩ := c5 j hj2
              rw [List.getElem?_eq_getElem hjg] at d1
              injection d1 with d1
              rw [hje] at d1
              subst d1
              have hBg : (⟨next1 + j, ⟨na, g.a.neg⟩, ⟨nb, g.b.neg⟩⟩ : AndGate)
                  ∈ new_ands2 := List.getElem?_mem d5
              have hFBj := hFB1 _ hBg
              dsimp only at hFBj
              have hreachj : Reach F no (next1 + j) := by
                refine ihm (next1 + j) ?_
                rw [hgid2] at d2
                exact d2
              rw [← hga] at d3
              rw [d3] at hn2x
              injection hn2x with hn2x
              subst hn2x
              exact Reach.fanin_a hreachj hFBj
          | fanin_b hm hFm ihm =>
              rename_i m2 aL bL
              intro n2 hn2x
              have hm2nz : m2 ≠ 0 := by
                intro h0
                rw [h0, hFA0] at hFm
                cases hFm
              have hM2 : M m2 = true := hcomp m2 hm hm2nz
              obtain ⟨g, hgmem, hgid2⟩ : ∃ g ∈ A.ands, g.id = m2 := by
                by_contra hcon
                push_neg at hcon
                rw [hF2 m2 (fun g hg => hcon g hg)] at hFm
                cases hFm
              have hFg := hF1 g hgmem
              rw [hgid2, hFm] at hFg
              injection hFg with hFg
              injection hFg with hga hgb
              have hgK : g ∈ KG := by
                rw [hKGdef]
                refine List.mem_filter.mpr ⟨hgmem, ?_⟩
                rw [hcnM, Bool.and_eq_true]
                refine ⟨?_, by rw [hgid2]; exact hM2⟩
                rw [decide_eq_true_eq]
                have := hgid g hgmem
                rw [h3]
                omega
              obtain ⟨j, hjg, hje⟩ := List.mem_iff_getElem.mp hgK
              have hj2 : j < new_ands2.length := by
                rw [c3]
                exact hjg
              obtain ⟨kg, na, nb, d1, d2, d3, d4, d5⟩ := c5 j hj2
              rw [List.getElem?_eq_getElem hjg] at d1
              injection d1 with d1
              rw [hje] at d1
              subst d1
              have hBg : (⟨next1 + j, ⟨na, g.a.neg⟩, ⟨nb, g.b.neg⟩⟩ : AndGate)
                  ∈ new_ands2 := List.getElem?_mem d5
              have hFBj := hFB1 _ hBg
              dsimp only at hFBj
              have hreachj : Reach F no (next1 + j) := by
                refine ihm (next1 + j) ?_
                rw [hgid2] at d2
                exact d2
              rw [← hgb] at d4
              rw [d4] at hn2x
              injection hn2x with hn2x
              subst hn2x
              exact Reach.fanin_b hreachj hFBj
        by_cases hnk : n ≤ KI.length
        · have hj : n - 1 < KI.length := by omega
          have hnog : ∀ g ∈ KG, g.id ≠ KI[n - 1] := by
            intro g hg h2x
            have h1x := hKImem _ (List.getElem_mem hj)
            have h2y := hKGmem g hg
            omega
          have ho : remap2 KI[n - 1] = some n := by
            rw [c4 _ hnog]
            have hget := hs4 (by rw [h1]; exact List.nodup_range' _ _) (n - 1) hj
            have hgg2 : KI.get ⟨n - 1, hj⟩ = KI[n - 1] := rfl
            rw [hgg2] at hget
            rw [hget]
            congr 1
            omega
          have hMo : M (KI[n - 1]) = true := hKIM _ (List.getElem_mem hj)
          have hRo := (hsound _ hMo).1
          exact htrans _ hRo n ho
        · have hj : n - (KI.length + 1) < new_ands2.length := by omega
          obtain ⟨kg, na, nb, d1, d2, d3, d4, d5⟩ := c5 (n - (KI.length + 1)) hj
          have hkgm : kg ∈ KG := List.getElem?_mem d1
          have hMo : M kg.id = true := hKGM kg hkgm
          have hRo := (hsound _ hMo).1
          have hd2n : remap2 kg.id = some n := by
            rw [d2]
            congr 1
            have hnext1 : next1 = 1 + KI.length := hs1
            omega
          exact htrans _ hRo n hd2n

/-- **C9**: `simplify_output` is a fixpoint on its own output: for every
well-formed AIG whose simplification succeeds, running `simplify_output 0` on
the simplified circuit returns the structurally identical AIG — no further
AND-gate reduction, input renumbering, or output change occurs. -/
theorem c9_simplify_fixpoint (aig : Aig) (i : Nat) {simple : Aig}
    (hwf : WfAig aig) (hs : aig.simplify_output i = .ok simple) :
    simple.simplify_output 0 = .ok simple := by
  rw [Aig.simplify_output] at hs
  simp only [bind, Except.bind] at hs
  rcases hr1 : aig.restrict_to_output i with e | red
  · rw [hr1] at hs
    cases hs
  · rw [hr1] at hs
    dsimp only at hs
    rcases hr2 : red.rewrite_single_output with e | rw3
    · rw [hr2] at hs
      cases hs
    · rw [hr2] at hs
      dsimp only at hs
      obtain ⟨c1, hc1, hin1, hwf1, hout1, hev1⟩ := restrict_spec aig i hwf hr1
      obtain ⟨mr, outA, j1, j2, j3, j4, j5, j6, j7, j8⟩ :=
        rewrite_struct_spec red hwf1 hr2
      obtain ⟨k, m, outB, hcB, hreachB⟩ := restrict_preserves rw3
        red.inputs.length mr outA ⟨j1, j2, j3, j4, j5, j6, j7, j8⟩ hs
      obtain ⟨b1, b2, b3, b4, b5, b6, b7, b8⟩ := hcB
      rw [Aig.simplify_output]
      simp only [bind, Except.bind]
      rw [restrict_identity simple k m outB b1 b2 b3 b4 b5 b6 hreachB]
      dsimp only
      rw [rewrite_identity simple k m outB b1 b2 b3 b4 b5 b6 b7 b8]
      dsimp only
      rw [restrict_identity simple k m outB b1 b2 b3 b4 b5 b6 hreachB]

theorem c9_simplify_fixpoint_witness :
    (WfAig or2Aig ∧ or2Aig.simplify_output 0
      = .ok ⟨3, [1, 2], [⟨3, true⟩], [⟨3, ⟨1, true⟩, ⟨2, true⟩⟩]⟩) ∧
    Aig.simplify_output ⟨3, [1, 2], [⟨3, true⟩], [⟨3, ⟨1, true⟩, ⟨2, true⟩⟩]⟩ 0
      = .ok ⟨3, [1, 2], [⟨3, true⟩], [⟨3, ⟨1, true⟩, ⟨2, true⟩⟩]⟩ :=
  ⟨⟨by unfold WfAig; decide, by rfl⟩,
    c9_simplify_fixpoint or2Aig 0 (by unfold WfAig; decide) (by rfl)⟩

end CircuitCount
